import Mathlib

/-!
# Adaptive JSON codecs of `structs.go`

A shallow embedding of the codec types of `structs.go` (`Timestamp`,
`ConvertibleBoolean`, `jsonInt`, `JSONStringSlice`, `Timezone`) together with the parts
of the Go standard library they call (`strings`, `bytes`, `strconv`, `time`,
`unicode/utf8`, `encoding/json`).

Conventions.
* A Go `[]byte` or `string` is a list of bytes, a `List Nat` whose members are below 256.
* A method with a pointer receiver returns the receiver after the call together with the
  returned `error` (`none` is Go's `nil`); a call that can panic returns an `Outcome`.
* Go's `int` is taken to be 64 bits wide (`strconv.IntSize = 64`).
* The standard library is the one of Go 1.22: `encoding/json` accepts a nesting depth of
  10000 and writes `\b` and `\f` for the backspace and the form feed.
* `checkValid` and the decoder of `encoding/json` are one reader, `json.parse`, from the
  bytes to the JSON value; the text of a string is kept as code points, which is what
  `unquote` produces (it replaces what is not UTF-8 by U+FFFD).
* The function `time.LoadLocation` reads the time zone database of the host; the decoder
  of `Timezone` takes it as an argument.
-/

namespace XtreamCodes

/-- The bytes of an ASCII text. -/
def ascii (s : String) : List Nat := s.toList.map Char.toNat

/-- The double quote character. -/
def dq : Nat := 34

/-- A text wrapped in one pair of double quotes. -/
def quote (s : List Nat) : List Nat := dq :: (s ++ [dq])

/-- Wrap a mathematical integer to the range of Go's `int64` (two's complement). -/
def wrap64 (x : Int) : Int := (x + 2 ^ 63) % 2 ^ 64 - 2 ^ 63

/-- Membership in the range of `int64`. -/
def inInt64 (x : Int) : Prop := -(2 ^ 63) ≤ x ∧ x < 2 ^ 63

instance (x : Int) : Decidable (inInt64 x) := by unfold inInt64; infer_instance

/-- The kind of a `strconv.NumError`. -/
inductive NumErrKind where
  | badSyntax
  | outOfRange
  deriving DecidableEq, Repr

/-- The Go `error` values the codecs can return. -/
inductive GoError where
  /-- Go `fmt.Errorf` with the formatted message -/
  | errorf (msg : List Nat)
  /-- Go `*strconv.NumError` with `Func`, `Num` and `Err` -/
  | numError (func : String) (num : List Nat) (kind : NumErrKind)
  /-- Go `*json.SyntaxError`, and the other errors of a text that is not one JSON value -/
  | jsonInvalid
  /-- Go `*json.UnmarshalTypeError`: a JSON value that does not fit the Go type -/
  | jsonUnmarshalType
  /-- Go `strconv.ErrSyntax` returned by `strconv.Unquote` -/
  | unquoteInvalid
  /-- the error of `time.LoadLocation` for a name it does not resolve -/
  | unknownLocation (name : List Nat)
  deriving DecidableEq, Repr

/-- The result of a call that returns `(value, error)` or panics. -/
inductive Outcome (α : Type) where
  | ok (a : α)
  | error (e : GoError)
  | panic
  deriving DecidableEq, Repr

/-! ## `strings` and `bytes` -/

/-- Go `strings.Contains(s, string(c))` for a one-byte substring. -/
def strings.Contains (s : List Nat) (c : Nat) : Bool := s.contains c

/-- Remove the first `n` occurrences of the byte `c`. -/
def removeFirst : Nat → Nat → List Nat → List Nat
  | 0, _, s => s
  | _, _, [] => []
  | n + 1, c, b :: s => if b = c then removeFirst n c s else b :: removeFirst (n + 1) c s

/-- Go `strings.Replace(s, string(old), "", n)`: remove the first `n` occurrences of a
one-byte substring, all of them when `n < 0`. -/
def strings.Replace (s : List Nat) (old : Nat) (n : Int) : List Nat :=
  if n < 0 then s.filter (fun b => b != old) else removeFirst n.toNat old s

/-- Go `bytes.TrimLeft` for a cutset of ASCII bytes. -/
def bytes.TrimLeft (s : List Nat) (cutset : List Nat) : List Nat :=
  s.dropWhile (fun b => cutset.contains b)

/-- Go `bytes.TrimRight` for a cutset of ASCII bytes. -/
def bytes.TrimRight (s : List Nat) (cutset : List Nat) : List Nat :=
  (s.reverse.dropWhile (fun b => cutset.contains b)).reverse

/-- Go `bytes.Trim(s, cutset)` for a cutset of ASCII bytes: the leading and trailing bytes
that occur in the cutset are removed. -/
def bytes.Trim (s : List Nat) (cutset : List Nat) : List Nat :=
  bytes.TrimRight (bytes.TrimLeft s cutset) cutset

/-! ## `strconv` -/

/-- The loop of `strconv.formatBits` for base 10: the digits of `u`, most significant
first, in front of `acc`. The buffer of `formatBits` holds 65 bytes. -/
def formatBitsLoop : Nat → Nat → List Nat → List Nat
  | 0, _, acc => acc
  | fuel + 1, u, acc =>
    if u < 10 then (48 + u) :: acc
    else formatBitsLoop fuel (u / 10) ((48 + u % 10) :: acc)

/-- Go `strconv.FormatUint(u, 10)`. -/
def strconv.FormatUint (u : Nat) : List Nat := formatBitsLoop 65 u []

/-- Go `strconv.FormatInt(i, 10)`. -/
def strconv.FormatInt (i : Int) : List Nat :=
  if i < 0 then 45 :: strconv.FormatUint (-i).toNat else strconv.FormatUint i.toNat

/-- The digit loop of `strconv.ParseUint(s, 10, bitSize)`: `n` is the value read so far. -/
def parseUintLoop (bitSize : Nat) : List Nat → Nat → Except NumErrKind Nat
  | [], n => .ok n
  | c :: s, n =>
    if 48 ≤ c ∧ c ≤ 57 then
      if n ≥ (2 ^ 64 - 1) / 10 + 1 then .error .outOfRange
      else if n * 10 + (c - 48) > 2 ^ bitSize - 1 then .error .outOfRange
      else parseUintLoop bitSize s (n * 10 + (c - 48))
    else .error .badSyntax

/-- Go `strconv.ParseUint(s, 10, bitSize)` for `0 < bitSize ≤ 64`. -/
def strconv.ParseUint (s : List Nat) (bitSize : Nat) : Except NumErrKind Nat :=
  if s = [] then .error .badSyntax else parseUintLoop bitSize s 0

/-- Go `strconv.ParseInt(s, 10, bitSize)` for `0 < bitSize ≤ 64`. -/
def strconv.ParseInt (s : List Nat) (bitSize : Nat) : Except NumErrKind Int :=
  match s with
  | [] => .error .badSyntax
  | c :: rest =>
    let neg := c = 45
    let digits := if c = 43 ∨ c = 45 then rest else s
    match strconv.ParseUint digits bitSize with
    | .error .badSyntax => .error .badSyntax
    | .error .outOfRange => .error .outOfRange
    | .ok un =>
      if ¬ neg ∧ un ≥ 2 ^ (bitSize - 1) then .error .outOfRange
      else if neg ∧ un > 2 ^ (bitSize - 1) then .error .outOfRange
      else .ok (if neg then -(un : Int) else (un : Int))

/-- The digit loop of the fast path of `strconv.Atoi`. -/
def atoiFastLoop : List Nat → Nat → Option Nat
  | [], n => some n
  | ch :: s, n =>
    if (ch + 256 - 48) % 256 > 9 then none else atoiFastLoop s (n * 10 + (ch + 256 - 48) % 256)

/-- Go `strconv.Atoi(s)` with a 64-bit `int`: a fast path for texts shorter than 19 bytes and
`ParseInt(s, 10, 0)` for the others. -/
def strconv.Atoi (s : List Nat) : Except GoError Int :=
  if 0 < s.length ∧ s.length < 19 then
    match s with
    | [] => .error (.numError "Atoi" s .badSyntax)
    | c :: rest =>
      let digits := if c = 45 ∨ c = 43 then rest else s
      if digits.length < 1 then .error (.numError "Atoi" s .badSyntax)
      else
        match atoiFastLoop digits 0 with
        | none => .error (.numError "Atoi" s .badSyntax)
        | some n => .ok (if c = 45 then -(n : Int) else (n : Int))
  else
    match strconv.ParseInt s 64 with
    | .error k => .error (.numError "Atoi" s k)
    | .ok i => .ok i

/-! ## `time` -/

/-- The seconds between year 1 and the Unix epoch (`unixToInternal` of package `time`). -/
def time.unixToInternal : Int := (1969 * 365 + 1969 / 4 - 1969 / 100 + 1969 / 400) * 86400

/-- A `time.Time` without a monotonic clock reading: `wall` holds the nanoseconds and
`ext` the seconds since year 1, an `int64`. The location pointer is left out. -/
structure time.Time where
  wall : Nat
  ext : Int
  deriving DecidableEq, Repr

/-- Go `time.Unix(sec, nsec)`; the additions are those of `int64` and wrap around. -/
def time.Unix (sec nsec : Int) : time.Time :=
  if nsec < 0 ∨ nsec ≥ 1000000000 then
    let n := Int.tdiv nsec 1000000000
    let sec1 := wrap64 (sec + n)
    let nsec1 := wrap64 (nsec - wrap64 (n * 1000000000))
    if nsec1 < 0 then
      ⟨(nsec1 + 1000000000).toNat, wrap64 (wrap64 (sec1 - 1) + time.unixToInternal)⟩
    else ⟨nsec1.toNat, wrap64 (sec1 + time.unixToInternal)⟩
  else ⟨nsec.toNat, wrap64 (sec + time.unixToInternal)⟩

/-- Go `Time.Unix()`: the seconds since the Unix epoch, computed in `int64`. -/
def time.Time.Unix (t : time.Time) : Int := wrap64 (t.ext - time.unixToInternal)

/-! ## `unicode/utf8` and `unicode/utf16` -/

/-- Go `utf8.RuneError`, the replacement character U+FFFD. -/
def utf8.RuneError : Nat := 0xFFFD

/-- Go `utf8.DecodeRune(p)`: the first rune of `p` and its width in bytes; an invalid or
truncated encoding gives `(RuneError, 1)` and the empty input `(RuneError, 0)`. -/
def utf8.DecodeRune : List Nat → Nat × Nat
  | [] => (utf8.RuneError, 0)
  | p0 :: rest =>
    if p0 < 0x80 then (p0, 1)
    else if 0xC2 ≤ p0 ∧ p0 ≤ 0xDF then
      match rest with
      | b1 :: _ =>
        if 0x80 ≤ b1 ∧ b1 ≤ 0xBF then (p0 % 32 * 64 + b1 % 64, 2) else (utf8.RuneError, 1)
      | _ => (utf8.RuneError, 1)
    else if 0xE0 ≤ p0 ∧ p0 ≤ 0xEF then
      match rest with
      | b1 :: b2 :: _ =>
        if (if p0 = 0xE0 then 0xA0 else 0x80) ≤ b1 ∧ b1 ≤ (if p0 = 0xED then 0x9F else 0xBF)
            ∧ 0x80 ≤ b2 ∧ b2 ≤ 0xBF then
          (p0 % 16 * 4096 + b1 % 64 * 64 + b2 % 64, 3)
        else (utf8.RuneError, 1)
      | _ => (utf8.RuneError, 1)
    else if 0xF0 ≤ p0 ∧ p0 ≤ 0xF4 then
      match rest with
      | b1 :: b2 :: b3 :: _ =>
        if (if p0 = 0xF0 then 0x90 else 0x80) ≤ b1 ∧ b1 ≤ (if p0 = 0xF4 then 0x8F else 0xBF)
            ∧ 0x80 ≤ b2 ∧ b2 ≤ 0xBF ∧ 0x80 ≤ b3 ∧ b3 ≤ 0xBF then
          (p0 % 8 * 262144 + b1 % 64 * 4096 + b2 % 64 * 64 + b3 % 64, 4)
        else (utf8.RuneError, 1)
      | _ => (utf8.RuneError, 1)
    else (utf8.RuneError, 1)

/-- Go `utf8.AppendRune(nil, r)` for `r ≥ 0`: the UTF-8 encoding of a rune; a surrogate or a
value above `utf8.MaxRune` is encoded as `RuneError`. -/
def utf8.EncodeRune (r : Nat) : List Nat :=
  if r < 0x80 then [r]
  else if r ≤ 0x7FF then [0xC0 + r / 64, 0x80 + r % 64]
  else if r > 0x10FFFF ∨ (0xD800 ≤ r ∧ r ≤ 0xDFFF) then [0xEF, 0xBF, 0xBD]
  else if r ≤ 0xFFFF then [0xE0 + r / 4096, 0x80 + r / 64 % 64, 0x80 + r % 64]
  else [0xF0 + r / 262144, 0x80 + r / 4096 % 64, 0x80 + r / 64 % 64, 0x80 + r % 64]

/-- The bytes of a Go `string` holding the given code points. -/
def utf8.encode (cs : List Char) : List Nat := cs.flatMap (fun c => utf8.EncodeRune c.toNat)

/-- Go `utf16.IsSurrogate(r)`. -/
def utf16.IsSurrogate (r : Nat) : Bool := 0xD800 ≤ r ∧ r < 0xE000

/-- Go `utf16.DecodeRune(r1, r2)`: the code point of a surrogate pair, U+FFFD when the two
values are not a high surrogate followed by a low one. -/
def utf16.DecodeRune (r1 r2 : Nat) : Nat :=
  if 0xD800 ≤ r1 ∧ r1 < 0xDC00 ∧ 0xDC00 ≤ r2 ∧ r2 < 0xE000 then
    (r1 - 0xD800) * 1024 + (r2 - 0xDC00) + 0x10000
  else 0xFFFD

/-! ## `encoding/json`: encoding -/

/-- The digit `hex[n]` of `encoding/json`, lower case. -/
def json.hex (n : Nat) : Nat := if n < 10 then 48 + n else 87 + n

/-- Go `htmlSafeSet[b]` of `encoding/json` for `b < 0x80`: the ASCII bytes a JSON string
holds without an escape when HTML escaping is on. -/
def json.htmlSafe (b : Nat) : Bool :=
  0x20 ≤ b ∧ b ≠ 34 ∧ b ≠ 92 ∧ b ≠ 60 ∧ b ≠ 62 ∧ b ≠ 38

/-- The loop of `appendString(dst, src, true)` of `encoding/json` (Go 1.22): the text of
a JSON string for the bytes `src`, without the enclosing quotes. -/
def json.appendStringLoop : Nat → List Nat → List Nat
  | 0, _ => []
  | _, [] => []
  | fuel + 1, b :: rest =>
    if b < 0x80 then
      if json.htmlSafe b then b :: json.appendStringLoop fuel rest
      else if b = 92 ∨ b = 34 then 92 :: b :: json.appendStringLoop fuel rest
      else if b = 8 then 92 :: 98 :: json.appendStringLoop fuel rest
      else if b = 12 then 92 :: 102 :: json.appendStringLoop fuel rest
      else if b = 10 then 92 :: 110 :: json.appendStringLoop fuel rest
      else if b = 13 then 92 :: 114 :: json.appendStringLoop fuel rest
      else if b = 9 then 92 :: 116 :: json.appendStringLoop fuel rest
      else 92 :: 117 :: 48 :: 48 :: json.hex (b / 16) :: json.hex (b % 16)
        :: json.appendStringLoop fuel rest
    else
      let (c, size) := utf8.DecodeRune (b :: rest)
      if c = utf8.RuneError ∧ size = 1 then
        92 :: ascii "ufffd" ++ json.appendStringLoop fuel rest
      else if c = 0x2028 ∨ c = 0x2029 then
        92 :: ascii "u202" ++ json.hex (c % 16) :: json.appendStringLoop fuel (rest.drop (size - 1))
      else (b :: rest).take size ++ json.appendStringLoop fuel (rest.drop (size - 1))

/-- Go `json.Marshal(s)` for a Go `string`: the quoted and escaped text. -/
def json.MarshalString (s : List Nat) : List Nat :=
  dq :: (json.appendStringLoop s.length s ++ [dq])

/-- Go `json.Marshal(i)` for a Go integer. -/
def json.MarshalInt (i : Int) : List Nat := strconv.FormatInt i

/-- The elements of a JSON array, separated by commas. -/
def json.joinElems : List (List Nat) → List Nat
  | [] => []
  | [e] => e
  | e :: es => e ++ 44 :: json.joinElems es

/-- Go `json.Marshal(s)` for a Go `[]string`; `none` is the nil slice, encoded as `null`. -/
def json.MarshalStrings : Option (List (List Nat)) → List Nat
  | none => ascii "null"
  | some l => 91 :: (json.joinElems (l.map json.MarshalString) ++ [93])

/-! ## `encoding/json`: decoding -/

/-- A JSON value as the decoder of `encoding/json` reads it. A string holds the code
points of its unquoted text (the result of `unquote`), a number its literal. -/
inductive JValue where
  | null
  | bool (b : Bool)
  | number (lit : List Nat)
  | string (s : List Char)
  | array (elems : List JValue)
  | object (members : List (List Char × JValue))

/-- Go `isSpace(c)` of the scanner: space, tab, carriage return, line feed. -/
def json.isSpace (c : Nat) : Bool := c = 32 ∨ c = 9 ∨ c = 13 ∨ c = 10

/-- Skip the white space the scanner ignores between tokens. -/
def json.skipSpace (s : List Nat) : List Nat := s.dropWhile json.isSpace

/-- The value of a hexadecimal digit, in either case. -/
def json.hexVal (c : Nat) : Option Nat :=
  if 48 ≤ c ∧ c ≤ 57 then some (c - 48)
  else if 97 ≤ c ∧ c ≤ 102 then some (c - 97 + 10)
  else if 65 ≤ c ∧ c ≤ 70 then some (c - 65 + 10)
  else none

/-- Go `getu4(s)`: the value of a leading `\uXXXX` escape, `none` (Go's `-1`) when `s` does
not start with one. -/
def json.getu4 : List Nat → Option Nat
  | 92 :: 117 :: a :: b :: c :: d :: _ =>
    match json.hexVal a, json.hexVal b, json.hexVal c, json.hexVal d with
    | some x, some y, some z, some w => some (x * 4096 + y * 256 + z * 16 + w)
    | _, _, _, _ => none
  | _ => none

/-- The character of a one-letter escape the scanner accepts after a backslash. -/
def json.unescape (e : Nat) : Option Char :=
  if e = 34 ∨ e = 92 ∨ e = 47 then some (Char.ofNat e)
  else if e = 98 then some (Char.ofNat 8)
  else if e = 102 then some (Char.ofNat 12)
  else if e = 110 then some (Char.ofNat 10)
  else if e = 114 then some (Char.ofNat 13)
  else if e = 116 then some (Char.ofNat 9)
  else none

/-- Put a code point in front of a scanned text. -/
def json.consChar (c : Char) : Option (List Char × List Nat) → Option (List Char × List Nat)
  | some (s, rest) => some (c :: s, rest)
  | none => none

/-- Read a string literal after its opening quote: the scanner's states `stateInString`,
`stateInStringEsc` and `stateInStringEscU` together with `unquote`. The result is the
unquoted text and the input after the closing quote. A control character, an unknown
escape or a missing closing quote is an error; a byte sequence that is not UTF-8 and an
unpaired surrogate escape become U+FFFD. -/
def json.scanString : Nat → List Nat → Option (List Char × List Nat)
  | 0, _ => none
  | _ + 1, [] => none
  | fuel + 1, c :: rest =>
    if c = 34 then some ([], rest)
    else if c = 92 then
      match rest with
      | [] => none
      | e :: rest1 =>
        if e = 117 then
          match json.getu4 (c :: rest) with
          | none => none
          | some rr =>
            if utf16.IsSurrogate rr then
              match json.getu4 (rest1.drop 4) with
              | some rr1 =>
                if utf16.DecodeRune rr rr1 ≠ 0xFFFD then
                  json.consChar (Char.ofNat (utf16.DecodeRune rr rr1))
                    (json.scanString fuel (rest1.drop 10))
                else json.consChar (Char.ofNat 0xFFFD) (json.scanString fuel (rest1.drop 4))
              | none => json.consChar (Char.ofNat 0xFFFD) (json.scanString fuel (rest1.drop 4))
            else json.consChar (Char.ofNat rr) (json.scanString fuel (rest1.drop 4))
        else
          match json.unescape e with
          | some ch => json.consChar ch (json.scanString fuel rest1)
          | none => none
    else if c < 0x20 then none
    else if c < 0x80 then json.consChar (Char.ofNat c) (json.scanString fuel rest)
    else
      json.consChar (Char.ofNat (utf8.DecodeRune (c :: rest)).1)
        (json.scanString fuel (rest.drop ((utf8.DecodeRune (c :: rest)).2 - 1)))

/-- A decimal digit. -/
def json.isDigit (c : Nat) : Bool := 48 ≤ c ∧ c ≤ 57

/-- The exponent of a number literal, if the input starts with one (states `stateE`,
`stateESign`, `stateE0`): the bytes read so far are `lit`. -/
def json.scanExponent (lit : List Nat) (input : List Nat) : Option (List Nat × List Nat) :=
  match input with
  | e :: r =>
    if e = 101 ∨ e = 69 then
      match r with
      | sg :: r1 =>
        if sg = 43 ∨ sg = 45 then
          if r1.takeWhile json.isDigit = [] then none
          else some (lit ++ e :: sg :: r1.takeWhile json.isDigit, r1.dropWhile json.isDigit)
        else if r.takeWhile json.isDigit = [] then none
        else some (lit ++ e :: r.takeWhile json.isDigit, r.dropWhile json.isDigit)
      | [] => none
    else some (lit, input)
  | [] => some (lit, input)

/-- The fraction and exponent of a number literal (states `stateDot`, `stateDot0`). -/
def json.scanFraction (lit : List Nat) (input : List Nat) : Option (List Nat × List Nat) :=
  match input with
  | 46 :: r =>
    if r.takeWhile json.isDigit = [] then none
    else json.scanExponent (lit ++ 46 :: r.takeWhile json.isDigit) (r.dropWhile json.isDigit)
  | _ => json.scanExponent lit input

/-- Read a number literal (states `stateNeg`, `state0`, `state1` and the following):
the literal and the input after it. -/
def json.scanNumber (input : List Nat) : Option (List Nat × List Nat) :=
  match input with
  | 45 :: c :: r =>
    if c = 48 then json.scanFraction [45, 48] r
    else if 49 ≤ c ∧ c ≤ 57 then
      json.scanFraction (45 :: c :: r.takeWhile json.isDigit) (r.dropWhile json.isDigit)
    else none
  | c :: r =>
    if c = 48 then json.scanFraction [48] r
    else if 49 ≤ c ∧ c ≤ 57 then
      json.scanFraction (c :: r.takeWhile json.isDigit) (r.dropWhile json.isDigit)
    else none
  | [] => none

/-- The nesting depth the scanner accepts (`maxNestingDepth`). -/
def json.maxNestingDepth : Nat := 10000

mutual

/-- Read one JSON value that starts at the first byte of the input (`stateBeginValue`
after the white space): the value and the input after it. `depth` counts the arrays and
objects that are open. -/
def json.parseValue : Nat → Nat → List Nat → Option (JValue × List Nat)
  | 0, _, _ => none
  | _ + 1, _, [] => none
  | fuel + 1, depth, c :: rest =>
    if c = 123 then
      if depth ≥ json.maxNestingDepth then none
      else
        match json.skipSpace rest with
        | 125 :: rest1 => some (.object [], rest1)
        | rest1 =>
          match json.parseMembers fuel (depth + 1) rest1 with
          | some (ms, r) => some (.object ms, r)
          | none => none
    else if c = 91 then
      if depth ≥ json.maxNestingDepth then none
      else
        match json.skipSpace rest with
        | 93 :: rest1 => some (.array [], rest1)
        | rest1 =>
          match json.parseElements fuel (depth + 1) rest1 with
          | some (vs, r) => some (.array vs, r)
          | none => none
    else if c = 34 then
      match json.scanString rest.length rest with
      | some (s, r) => some (.string s, r)
      | none => none
    else if c = 45 ∨ json.isDigit c then
      match json.scanNumber (c :: rest) with
      | some (lit, r) => some (.number lit, r)
      | none => none
    else
      match c :: rest with
      | 116 :: 114 :: 117 :: 101 :: r => some (.bool true, r)
      | 102 :: 97 :: 108 :: 115 :: 101 :: r => some (.bool false, r)
      | 110 :: 117 :: 108 :: 108 :: r => some (.null, r)
      | _ => none

/-- Read the elements of a non-empty array up to its closing bracket; the input starts
at the first element. -/
def json.parseElements : Nat → Nat → List Nat → Option (List JValue × List Nat)
  | 0, _, _ => none
  | fuel + 1, depth, input =>
    match json.parseValue fuel depth input with
    | none => none
    | some (v, rest) =>
      match json.skipSpace rest with
      | 44 :: rest1 =>
        match json.parseElements fuel depth (json.skipSpace rest1) with
        | some (vs, r) => some (v :: vs, r)
        | none => none
      | 93 :: rest1 => some ([v], rest1)
      | _ => none

/-- Read the members of a non-empty object up to its closing brace; the input starts at
the first key. -/
def json.parseMembers : Nat → Nat → List Nat → Option (List (List Char × JValue) × List Nat)
  | 0, _, _ => none
  | fuel + 1, depth, input =>
    match input with
    | 34 :: rest =>
      match json.scanString rest.length rest with
      | none => none
      | some (k, rest1) =>
        match json.skipSpace rest1 with
        | 58 :: rest2 =>
          match json.parseValue fuel depth (json.skipSpace rest2) with
          | none => none
          | some (v, rest3) =>
            match json.skipSpace rest3 with
            | 44 :: rest4 =>
              match json.parseMembers fuel depth (json.skipSpace rest4) with
              | some (ms, r) => some ((k, v) :: ms, r)
              | none => none
            | 125 :: rest4 => some ([(k, v)], rest4)
            | _ => none
        | _ => none
    | _ => none

end

/-- The JSON value of a text: `checkValid` followed by the reading of the decoder.
`none` when the text is not exactly one JSON value between optional white space. The
fuel bounds the depth of the calls: a call hands `fuel - 1` to the calls it makes, and
no chain of calls is longer than twice the number of bytes. -/
def json.parse (data : List Nat) : Option JValue :=
  match json.parseValue (2 * data.length + 2) 0 (json.skipSpace data) with
  | some (v, rest) => if json.skipSpace rest = [] then some v else none
  | none => none

/-- Store one JSON value into a `string` that holds `old`: a string is stored unquoted,
`null` leaves the string as it is, anything else is an `UnmarshalTypeError`. -/
def json.storeString (old : List Nat) : JValue → Except GoError (List Nat)
  | .string s => .ok (utf8.encode s)
  | .null => .ok old
  | _ => .error .jsonUnmarshalType

/-- Store the elements of a JSON array into a `[]string`. An element that is `null`
keeps the element the slice held at that index before the call (the slice is taken to
have no spare capacity) or the empty string. The first error is the one returned. -/
def json.storeStrings : List (List Nat) → List JValue → Except GoError (List (List Nat))
  | _, [] => .ok []
  | prior, v :: vs =>
    match json.storeString (prior.headD []) v with
    | .error e => .error e
    | .ok s =>
      match json.storeStrings prior.tail vs with
      | .error e => .error e
      | .ok l => .ok (s :: l)

/-- Go `json.Unmarshal(data, &v)` for `v` of type `[]string` holding `prior` (`none` is the
nil slice): the slice after a successful call. -/
def json.UnmarshalStrings (prior : Option (List (List Nat))) (data : List Nat) :
    Except GoError (Option (List (List Nat))) :=
  match json.parse data with
  | none => .error .jsonInvalid
  | some .null => .ok none
  | some (.array elems) =>
    match json.storeStrings (prior.getD []) elems with
    | .ok l => .ok (some l)
    | .error e => .error e
  | some _ => .error .jsonUnmarshalType

/-- Go `json.Unmarshal(data, &v)` for `v` of type `int64` holding `prior`: the value of `v`
after the call and the error. -/
def json.UnmarshalInt64 (prior : Int) (data : List Nat) : Int × Option GoError :=
  match json.parse data with
  | none => (prior, some .jsonInvalid)
  | some .null => (prior, none)
  | some (.number lit) =>
    match strconv.ParseInt lit 64 with
    | .ok n => (n, none)
    | .error _ => (prior, some .jsonUnmarshalType)
  | some _ => (prior, some .jsonUnmarshalType)

/-! ## `ConvertibleBoolean` -/

/-- The type `ConvertibleBoolean`: the embedded `bool` and the flag `quoted`. -/
structure ConvertibleBoolean where
  bool : Bool
  quoted : Bool
  deriving DecidableEq, Repr

/-- The method `ConvertibleBoolean.MarshalJSON`. -/
def ConvertibleBoolean.MarshalJSON (bit : ConvertibleBoolean) : Outcome (List Nat) :=
  let bitSetVar : Int := if bit.bool then 1 else 0
  if bit.quoted then .ok (json.MarshalString (strconv.FormatInt bitSetVar))
  else .ok (json.MarshalInt bitSetVar)

/-- The method `ConvertibleBoolean.UnmarshalJSON`: the receiver after the call and the error. -/
def ConvertibleBoolean.UnmarshalJSON (bit : ConvertibleBoolean) (data : List Nat) :
    ConvertibleBoolean × Option GoError :=
  let bit1 : ConvertibleBoolean := { bit with quoted := strings.Contains data dq }
  let asString := strings.Replace data dq (-1)
  if asString = ascii "1" ∨ asString = ascii "true" then
    ({ bit1 with bool := true }, none)
  else if asString = ascii "0" ∨ asString = ascii "false" then
    ({ bit1 with bool := false }, none)
  else
    (bit1, some (.errorf (ascii "Boolean unmarshal error: invalid input " ++ asString)))

/-! ## `Timestamp` -/

/-- The type `Timestamp`: the embedded `time.Time` and the flag `quoted`. -/
structure Timestamp where
  Time : time.Time
  quoted : Bool
  deriving DecidableEq, Repr

/-- The method `Timestamp.MarshalJSON`. -/
def Timestamp.MarshalJSON (t : Timestamp) : Outcome (List Nat) :=
  if t.quoted then .ok (dq :: (strconv.FormatInt t.Time.Unix ++ [dq]))
  else .ok (strconv.FormatInt t.Time.Unix)

/-- The method `Timestamp.UnmarshalJSON`: the receiver after the call and the error. -/
def Timestamp.UnmarshalJSON (t : Timestamp) (b : List Nat) : Timestamp × Option GoError :=
  let t1 : Timestamp := { t with quoted := strings.Contains b dq }
  match strconv.Atoi (strings.Replace b dq (-1)) with
  | .error err => (t1, some err)
  | .ok ts => ({ t1 with Time := time.Unix ts 0 }, none)

/-! ## `jsonInt` -/

/-- The type `jsonInt`, an `int64`. -/
abbrev jsonInt := Int

/-- The method `jsonInt.MarshalJSON`. -/
def jsonInt.MarshalJSON (f : jsonInt) : Outcome (List Nat) := .ok (json.MarshalInt f)

/-- The method `jsonInt.UnmarshalJSON`: the receiver after the call and the error. -/
def jsonInt.UnmarshalJSON (_f : jsonInt) (data : List Nat) : jsonInt × Option GoError :=
  let data1 := bytes.Trim data [dq, 32]
  let r := json.UnmarshalInt64 0 data1
  (r.1, r.2)

/-! ## `JSONStringSlice` -/

/-- The type `JSONStringSlice`; `Slice = none` is the nil slice. -/
structure JSONStringSlice where
  Slice : Option (List (List Nat))
  SingleString : Bool
  deriving DecidableEq, Repr

/-- The method `JSONStringSlice.MarshalJSON`; `b.Slice[0]` panics on an empty slice. -/
def JSONStringSlice.MarshalJSON (b : JSONStringSlice) : Outcome (List Nat) :=
  if !b.SingleString then .ok (json.MarshalStrings b.Slice)
  else
    match b.Slice with
    | some (s0 :: _) => .ok (json.MarshalString s0)
    | _ => .panic

/-- The method `JSONStringSlice.UnmarshalJSON`: the receiver after a call that returns `nil`, the
error otherwise (the receiver after a failed call is not described); `data[0]` panics on
an empty input. -/
def JSONStringSlice.UnmarshalJSON (b : JSONStringSlice) (data : List Nat) :
    Outcome JSONStringSlice :=
  match data with
  | [] => .panic
  | d0 :: _ =>
    let data1 := if d0 = dq then [91] ++ data ++ [93] else data
    let b1 : JSONStringSlice := if d0 = dq then { b with SingleString := true } else b
    match json.UnmarshalStrings b1.Slice data1 with
    | .ok sl => .ok { b1 with Slice := sl }
    | .error e => .error e

/-! ## Notions used to state the properties -/

/-- The decimal numeral of a natural number: its base-10 digits, most significant first,
without leading zeros. -/
def decimalNat (n : Nat) : List Nat :=
  if n = 0 then [48] else (Nat.digits 10 n).reverse.map (fun d => 48 + d)

/-- The decimal numeral of an integer: a minus sign for a negative number, then the
numeral of its absolute value. -/
def decimal (i : Int) : List Nat :=
  if i < 0 then 45 :: decimalNat i.natAbs else decimalNat i.natAbs

/-- A text of at least two bytes that begins and ends with a double quote. -/
def isQuotedForm (s : List Nat) : Bool :=
  2 ≤ s.length ∧ s.head? = some dq ∧ s.getLast? = some dq

/-- A hexadecimal digit as it is written in a `\u` escape: its value and its case. -/
structure HexDigit where
  val : Fin 16
  upper : Bool
  deriving DecidableEq, Repr

/-- The byte of a hexadecimal digit. -/
def HexDigit.render (h : HexDigit) : Nat :=
  if h.val.val < 10 then 48 + h.val.val
  else if h.upper then 55 + h.val.val else 87 + h.val.val

/-- One `char` of a JSON string literal (RFC 8259, section 7): an unescaped code point,
a two-character escape given by its letter, or a `\u` escape of four hexadecimal
digits. -/
inductive StrToken where
  | plain (c : Char)
  | short (e : Nat)
  | uni (h3 h2 h1 h0 : HexDigit)
  deriving DecidableEq, Repr

/-- The tokens a JSON string literal may hold: an unescaped code point is neither a
control character nor a quote nor a backslash, and the letter of a two-character escape
is one of the eight the grammar lists. -/
def StrToken.valid : StrToken → Bool
  | .plain c => 0x20 ≤ c.toNat ∧ c.toNat ≠ 34 ∧ c.toNat ≠ 92
  | .short e => e = 34 ∨ e = 92 ∨ e = 47 ∨ e = 98 ∨ e = 102 ∨ e = 110 ∨ e = 114 ∨ e = 116
  | .uni _ _ _ _ => true

/-- The bytes of a token in the literal; an unescaped code point is written in UTF-8. -/
def StrToken.render : StrToken → List Nat
  | .plain c => utf8.EncodeRune c.toNat
  | .short e => [92, e]
  | .uni h3 h2 h1 h0 => [92, 117, h3.render, h2.render, h1.render, h0.render]

/-- The 16-bit value of a `\u` escape. -/
def uniVal (h3 h2 h1 h0 : HexDigit) : Nat :=
  h3.val.val * 4096 + h2.val.val * 256 + h1.val.val * 16 + h0.val.val

/-- The code point a two-character escape stands for. -/
def shortChar (e : Nat) : Char :=
  if e = 98 then Char.ofNat 8
  else if e = 102 then Char.ofNat 12
  else if e = 110 then Char.ofNat 10
  else if e = 114 then Char.ofNat 13
  else if e = 116 then Char.ofNat 9
  else Char.ofNat e

/-- The text a JSON string literal stands for, token by token: a `\u` escape of a high
surrogate directly followed by one of a low surrogate is the code point of the pair, any
other surrogate escape is read as U+FFFD. -/
def literalText : List StrToken → List Char
  | [] => []
  | .plain c :: ts => c :: literalText ts
  | .short e :: ts => shortChar e :: literalText ts
  | [.uni h3 h2 h1 h0] =>
    if uniVal h3 h2 h1 h0 < 0xD800 ∨ 0xDFFF < uniVal h3 h2 h1 h0 then
      [Char.ofNat (uniVal h3 h2 h1 h0)]
    else [Char.ofNat 0xFFFD]
  | .uni h3 h2 h1 h0 :: t :: ts =>
    if uniVal h3 h2 h1 h0 < 0xD800 ∨ 0xDFFF < uniVal h3 h2 h1 h0 then
      Char.ofNat (uniVal h3 h2 h1 h0) :: literalText (t :: ts)
    else
      match t with
      | .uni l3 l2 l1 l0 =>
        if uniVal h3 h2 h1 h0 < 0xDC00 ∧ 0xDC00 ≤ uniVal l3 l2 l1 l0
            ∧ uniVal l3 l2 l1 l0 ≤ 0xDFFF then
          Char.ofNat (0x10000 + (uniVal h3 h2 h1 h0 - 0xD800) * 1024
            + (uniVal l3 l2 l1 l0 - 0xDC00)) :: literalText ts
        else Char.ofNat 0xFFFD :: literalText (t :: ts)
      | _ => Char.ofNat 0xFFFD :: literalText (t :: ts)

/-- The bytes of a JSON string literal with the given tokens. -/
def renderLiteral (ts : List StrToken) : List Nat := quote (ts.flatMap StrToken.render)

/-- The white space of a JSON text: space, horizontal tab, line feed, carriage return. -/
def isJsonSpace (b : Nat) : Bool := b = 32 ∨ b = 9 ∨ b = 10 ∨ b = 13

/-- An element of a JSON array of strings as it is written: white space, the tokens of a
string literal, white space. -/
structure ArrayElem where
  before : List Nat
  tokens : List StrToken
  after : List Nat
  deriving DecidableEq, Repr

/-- The bytes of an array element. -/
def ArrayElem.render (e : ArrayElem) : List Nat :=
  e.before ++ renderLiteral e.tokens ++ e.after

/-- An array element is well formed when its tokens are and its padding is white space. -/
def ArrayElem.valid (e : ArrayElem) : Bool :=
  e.before.all isJsonSpace && e.tokens.all StrToken.valid && e.after.all isJsonSpace

/-- The bytes between the brackets of a JSON array of strings: the elements separated
by commas, white space alone in an empty array. -/
def renderElems (inner : List Nat) (es : List ArrayElem) : List Nat :=
  match es with
  | [] => inner
  | _ :: _ => json.joinElems (es.map ArrayElem.render)

/-- The bytes of a JSON array of strings: white space, an opening bracket, the elements,
a closing bracket, white space. -/
def renderArray (ws0 inner : List Nat) (es : List ArrayElem) (ws1 : List Nat) : List Nat :=
  ws0 ++ 91 :: (renderElems inner es ++ 93 :: ws1)

/-- The token `appendString` writes for a code point: itself, a two-character escape, or
a `\u` escape in lower case (control characters, `<`, `>`, `&`, U+2028, U+2029). -/
def escToken (c : Char) : StrToken :=
  if c.toNat < 0x80 then
    if json.htmlSafe c.toNat then .plain c
    else if c.toNat = 92 ∨ c.toNat = 34 then .short c.toNat
    else if c.toNat = 8 then .short 98
    else if c.toNat = 12 then .short 102
    else if c.toNat = 10 then .short 110
    else if c.toNat = 13 then .short 114
    else if c.toNat = 9 then .short 116
    else .uni ⟨0, false⟩ ⟨0, false⟩ ⟨Fin.ofNat (c.toNat / 16), false⟩
      ⟨Fin.ofNat (c.toNat % 16), false⟩
  else if c.toNat = 0x2028 then .uni ⟨2, false⟩ ⟨0, false⟩ ⟨2, false⟩ ⟨8, false⟩
  else if c.toNat = 0x2029 then .uni ⟨2, false⟩ ⟨0, false⟩ ⟨2, false⟩ ⟨9, false⟩
  else .plain c

/-- The text left when one pair of surrounding double quotes, if there is one, is taken
off. -/
def stripQuotePair (s : List Nat) : List Nat :=
  if isQuotedForm s then (s.drop 1).dropLast else s

/-- The four literals of a boolean: `0`, `1`, `true`, `false`. -/
def boolLiterals : List (List Nat) := [ascii "0", ascii "1", ascii "true", ascii "false"]

/-- The digits of a signed decimal text: the text without its leading `+` or `-`. -/
def signedDigits (s : List Nat) : List Nat :=
  match s with
  | [] => []
  | c :: rest => if c = 43 ∨ c = 45 then rest else c :: rest

/-- A base-10 signed integer as a text: an optional sign `+` or `-` followed by one or
more decimal digits. -/
def isSignedDecimal (s : List Nat) : Bool :=
  !(signedDigits s).isEmpty && (signedDigits s).all (fun c => 48 ≤ c ∧ c ≤ 57)

/-- The number a list of decimal digits stands for. -/
def digitsValue (ds : List Nat) : Nat := ds.foldl (fun a c => a * 10 + (c - 48)) 0

/-- The integer a signed decimal text stands for. -/
def signedDecimalValue (s : List Nat) : Int :=
  if s.head? = some 45 then -(digitsValue (signedDigits s) : Int)
  else (digitsValue (signedDigits s) : Int)

/-- A JSON value that `json.Unmarshal` stores into a `string` without an error: a string
or `null`. -/
def JValue.isStringOrNull : JValue → Bool
  | .string _ => true
  | .null => true
  | _ => false

/-- A JSON value that `json.Unmarshal` stores into a `[]string` without an error: `null`,
or an array whose elements are strings or `null`. -/
def JValue.fitsStrings : JValue → Bool
  | .null => true
  | .array elems => elems.all JValue.isStringOrNull
  | _ => false

/-- The text `JSONStringSlice.UnmarshalJSON` hands to `json.Unmarshal`: the input, put
between brackets when its first byte is a double quote. -/
def wrappedText (data : List Nat) : List Nat :=
  if data.head? = some dq then [91] ++ data ++ [93] else data

/-- A value written as an element of a JSON array: a string literal, `null`, `true` or
`false`, an integer numeral, an empty array or an empty object. -/
inductive ElemBody where
  | str (ts : List StrToken)
  | null
  | bool (b : Bool)
  | int (n : Int)
  | emptyArray
  | emptyObject
  deriving DecidableEq, Repr

/-- The bytes of an element value. -/
def ElemBody.render : ElemBody → List Nat
  | .str ts => renderLiteral ts
  | .null => ascii "null"
  | .bool true => ascii "true"
  | .bool false => ascii "false"
  | .int n => decimal n
  | .emptyArray => [91, 93]
  | .emptyObject => [123, 125]

/-- The JSON value an element stands for. -/
def ElemBody.value : ElemBody → JValue
  | .str ts => .string (literalText ts)
  | .null => .null
  | .bool b => .bool b
  | .int n => .number (decimal n)
  | .emptyArray => .array []
  | .emptyObject => .object []

/-- An element value that is a string literal or `null`. -/
def ElemBody.isStringOrNull : ElemBody → Bool
  | .str _ => true
  | .null => true
  | _ => false

/-- An element of a JSON array as it is written: white space, a value, white space. -/
structure MixedElem where
  before : List Nat
  body : ElemBody
  after : List Nat
  deriving DecidableEq, Repr

/-- The bytes of an element. -/
def MixedElem.render (e : MixedElem) : List Nat := e.before ++ e.body.render ++ e.after

/-- An element is well formed when its padding is white space and, for a string, its
tokens are well formed. -/
def MixedElem.valid (e : MixedElem) : Bool :=
  e.before.all isJsonSpace && e.after.all isJsonSpace &&
    (match e.body with
      | .str ts => ts.all StrToken.valid
      | _ => true)

/-- The bytes of a JSON array of such elements: white space, an opening bracket, the
elements separated by commas (white space alone in an empty array), a closing bracket,
white space. -/
def renderMixedArray (ws0 inner : List Nat) (es : List MixedElem) (ws1 : List Nat) :
    List Nat :=
  ws0 ++ 91 :: ((match es with
    | [] => inner
    | _ :: _ => json.joinElems (es.map MixedElem.render)) ++ 93 :: ws1)


/-! ## `strconv.Unquote` -/

/-- Go `strings.IndexByte(s, c)`: the index of the first `c` in `s`, `none` for `-1`. -/
def strings.IndexByte (s : List Nat) (c : Nat) : Option Nat :=
  match s with
  | [] => none
  | b :: rest => if b = c then some 0 else (strings.IndexByte rest c).map (fun i => i + 1)

/-- Go `utf8.ValidRune(r)` for `r ≥ 0`. -/
def utf8.ValidRune (r : Nat) : Bool := r < 0xD800 ∨ (0xDFFF < r ∧ r ≤ 0x10FFFF)

/-- The loop of Go `utf8.ValidString`: a byte below `0x80` stands alone, any other first
byte fixes the width and the range of the second byte, and the later bytes are
continuation bytes. The first argument bounds the number of rounds. -/
def utf8.validLoop : Nat → List Nat → Bool
  | _, [] => true
  | 0, _ :: _ => false
  | fuel + 1, si :: rest =>
    if si < 0x80 then utf8.validLoop fuel rest
    else if 0xC2 ≤ si ∧ si ≤ 0xDF then
      match rest with
      | c1 :: rest2 => if 0x80 ≤ c1 ∧ c1 ≤ 0xBF then utf8.validLoop fuel rest2 else false
      | _ => false
    else if 0xE0 ≤ si ∧ si ≤ 0xEF then
      match rest with
      | c1 :: c2 :: rest3 =>
        if (if si = 0xE0 then 0xA0 else 0x80) ≤ c1 ∧ c1 ≤ (if si = 0xED then 0x9F else 0xBF)
            ∧ 0x80 ≤ c2 ∧ c2 ≤ 0xBF then
          utf8.validLoop fuel rest3
        else false
      | _ => false
    else if 0xF0 ≤ si ∧ si ≤ 0xF4 then
      match rest with
      | c1 :: c2 :: c3 :: rest4 =>
        if (if si = 0xF0 then 0x90 else 0x80) ≤ c1 ∧ c1 ≤ (if si = 0xF4 then 0x8F else 0xBF)
            ∧ 0x80 ≤ c2 ∧ c2 ≤ 0xBF ∧ 0x80 ≤ c3 ∧ c3 ≤ 0xBF then
          utf8.validLoop fuel rest4
        else false
      | _ => false
    else false

/-- Go `utf8.ValidString(s)`: whether `s` consists of valid UTF-8 encodings only. -/
def utf8.ValidString (s : List Nat) : Bool := utf8.validLoop s.length s

/-- Go `strconv` `unhex`: the value of a hexadecimal digit. -/
def strconv.unhex (c : Nat) : Option Nat :=
  if 48 ≤ c ∧ c ≤ 57 then some (c - 48)
  else if 97 ≤ c ∧ c ≤ 102 then some (c - 97 + 10)
  else if 65 ≤ c ∧ c ≤ 70 then some (c - 65 + 10)
  else none

/-- The loop of `strconv.UnquoteChar` over the `n` hexadecimal digits of an escape:
the value read and the text after the digits, `none` for `ErrSyntax`. -/
def strconv.hexRun : Nat → List Nat → Nat → Option (Nat × List Nat)
  | 0, s, v => some (v, s)
  | _ + 1, [], _ => none
  | n + 1, c :: s, v =>
    match strconv.unhex c with
    | some x => strconv.hexRun n s (v * 16 + x)
    | none => none

/-- Go `strconv.UnquoteChar(s, quote)`: the value of the first character or escape of
`s`, whether it is to be written as a multi-byte rune, and the text after it; `none`
for `ErrSyntax`. A `\U` escape above `0x7FFFFFFF` is negative as a Go `rune` and fails
`utf8.ValidRune` there as its value does here. -/
def strconv.UnquoteChar (s : List Nat) (quote : Nat) : Option (Nat × Bool × List Nat) :=
  match s with
  | [] => none
  | c :: rest =>
    if c = quote ∧ (quote = 39 ∨ quote = 34) then none
    else if c ≥ 0x80 then
      some ((utf8.DecodeRune s).1, true, s.drop (utf8.DecodeRune s).2)
    else if c ≠ 92 then some (c, false, rest)
    else
      match rest with
      | [] => none
      | c1 :: s2 =>
        if c1 = 97 then some (7, false, s2)
        else if c1 = 98 then some (8, false, s2)
        else if c1 = 102 then some (12, false, s2)
        else if c1 = 110 then some (10, false, s2)
        else if c1 = 114 then some (13, false, s2)
        else if c1 = 116 then some (9, false, s2)
        else if c1 = 118 then some (11, false, s2)
        else if c1 = 120 then
          match strconv.hexRun 2 s2 0 with
          | some (v, s3) => some (v, false, s3)
          | none => none
        else if c1 = 117 ∨ c1 = 85 then
          match strconv.hexRun (if c1 = 117 then 4 else 8) s2 0 with
          | some (v, s3) => if utf8.ValidRune v then some (v, true, s3) else none
          | none => none
        else if 48 ≤ c1 ∧ c1 ≤ 55 then
          match s2 with
          | d1 :: d2 :: s3 =>
            if 48 ≤ d1 ∧ d1 ≤ 55 ∧ 48 ≤ d2 ∧ d2 ≤ 55 then
              if ((c1 - 48) * 8 + (d1 - 48)) * 8 + (d2 - 48) > 255 then none
              else some (((c1 - 48) * 8 + (d1 - 48)) * 8 + (d2 - 48), false, s3)
            else none
          | _ => none
        else if c1 = 92 then some (92, false, s2)
        else if c1 = 39 ∨ c1 = 34 then
          if c1 ≠ quote then none else some (c1, false, s2)
        else none

/-- The loop of `strconv.Unquote` over a quoted text with escapes, from the byte after
the opening quote: the bytes written and the text left when the loop ends, `none` for
`ErrSyntax`. Every round consumes a byte; the first argument bounds the rounds. -/
def strconv.unquoteLoop : Nat → Nat → List Nat → List Nat → Option (List Nat × List Nat)
  | 0, _, _, _ => none
  | fuel + 1, quote, inp, buf =>
    match inp with
    | [] => some (buf, inp)
    | c :: _ =>
      if c = quote then some (buf, inp)
      else
        match strconv.UnquoteChar inp quote with
        | none => none
        | some (r, multibyte, rem) =>
          if c = 10 then none
          else if quote = 39 then
            some (if r < 0x80 ∨ multibyte = false then buf ++ [r % 256]
              else buf ++ utf8.EncodeRune r, rem)
          else
            strconv.unquoteLoop fuel quote rem
              (if r < 0x80 ∨ multibyte = false then buf ++ [r % 256]
                else buf ++ utf8.EncodeRune r)

/-- Go `strconv.Unquote(s)`: the text a Go string, character or raw string literal
denotes; `ErrSyntax` when `s` is not exactly one such literal. -/
def strconv.Unquote (s : List Nat) : Except GoError (List Nat) :=
  match s with
  | [] => .error .unquoteInvalid
  | quote :: rest =>
    if s.length < 2 then .error .unquoteInvalid
    else
      match strings.IndexByte rest quote with
      | none => .error .unquoteInvalid
      | some idx =>
        if quote = 96 then
          if (s.drop (idx + 2)).isEmpty then
            if (s.take (idx + 2)).contains 13 then
              .ok ((rest.take idx).filter (fun b => b != 13))
            else .ok (rest.take idx)
          else .error .unquoteInvalid
        else if quote = 34 ∨ quote = 39 then
          if !(s.take (idx + 2)).contains 92 && !(s.take (idx + 2)).contains 10
              && (if quote = 34 then utf8.ValidString (rest.take idx)
                  else decide (1 + (utf8.DecodeRune (rest.take idx)).2 + 1 = idx + 2
                    ∧ ((utf8.DecodeRune (rest.take idx)).1 ≠ utf8.RuneError
                      ∨ (utf8.DecodeRune (rest.take idx)).2 ≠ 1))) then
            if (s.drop (idx + 2)).isEmpty then .ok (rest.take idx)
            else .error .unquoteInvalid
          else
            match strconv.unquoteLoop (rest.length + 1) quote rest [] with
            | none => .error .unquoteInvalid
            | some (buf, inp) =>
              match inp with
              | c :: rem =>
                if c = quote then
                  if rem.isEmpty then .ok buf else .error .unquoteInvalid
                else .error .unquoteInvalid
              | [] => .error .unquoteInvalid
        else .error .unquoteInvalid

/-! ## `Timezone` -/

/-- Go `time.Location`: the name of the zone and its rules. The codec reads the name
only; the zone and transition tables are kept as the list of their entries. -/
structure time.Location where
  name : List Nat
  tx : List Int
  deriving DecidableEq, Repr

/-- Go `(*Location).String()` on the address of a field: the name of the location. -/
def time.Location.String (l : time.Location) : List Nat := l.name

/-- The type `Timezone`: the embedded `time.Location`. -/
structure Timezone where
  Location : time.Location
  deriving DecidableEq, Repr

/-- The method `Timezone.MarshalJSON`. -/
def Timezone.MarshalJSON (t : Timezone) : Outcome (List Nat) :=
  .ok ([dq] ++ t.Location.String ++ [dq])

/-- The method `Timezone.UnmarshalJSON`: the receiver after the call and the error. The
function `time.LoadLocation` reads the time zone database of the host, which is no part
of the program: it is the first argument. -/
def Timezone.UnmarshalJSON (LoadLocation : List Nat → Except GoError time.Location)
    (t : Timezone) (b : List Nat) : Timezone × Option GoError :=
  match strconv.Unquote (strings.Replace b 92 1) with
  | .error unquotedErr => (t, some unquotedErr)
  | .ok unquoted =>
    match LoadLocation unquoted with
    | .error err => (t, some err)
    | .ok tz => ({ t with Location := tz }, none)

/-- A time zone database that holds the one zone America/Chicago: the resolver used in
the examples. -/
def chicagoOnly (name : List Nat) : Except GoError time.Location :=
  if name = ascii "America/Chicago" then .ok ⟨name, [-21600, -18000]⟩
  else .error (.unknownLocation name)

/-- The text in which every `/` is written as the escape of a backslash and `/`. -/
def escapeSlashes (s : List Nat) : List Nat :=
  s.flatMap (fun b => if b = 47 then [92, 47] else [b])
/-! # Theorems -/

/-! ## Decimal numerals -/

theorem foldl_digit_ge (ds : List Nat) (n : Nat) :
    n ≤ ds.foldl (fun a d => a * 10 + d) n := by
  induction ds generalizing n with
  | nil => simp
  | cons d ds ih =>
    simp only [List.foldl_cons]
    exact le_trans (by omega) (ih (n * 10 + d))

theorem foldr_digit_ofDigits (L : List Nat) :
    L.foldr (fun d a => a * 10 + d) 0 = Nat.ofDigits 10 L := by
  induction L with
  | nil => simp
  | cons d L ih => simp only [List.foldr_cons, ih, Nat.ofDigits_cons]; omega

/-- The numeral of `u` is a non-empty list of digit bytes whose value is `u`; its first
digit is zero only for the numeral `0`. -/
theorem decimalNat_shape (u : Nat) :
    ∃ (d : Nat) (ds : List Nat), d < 10 ∧ (∀ x ∈ ds, x < 10) ∧
      decimalNat u = (48 + d) :: ds.map (fun x => 48 + x) ∧
      (d :: ds).foldl (fun a x => a * 10 + x) 0 = u ∧ (d = 0 → ds = []) := by
  by_cases hu : u = 0
  · exact ⟨0, [], by norm_num, by simp, by simp [decimalNat, hu], by simp [hu], fun _ => rfl⟩
  · have hne : (Nat.digits 10 u).reverse ≠ [] := by
      simpa using (Nat.digits_ne_nil_iff_ne_zero.mpr hu)
    have hlt : ∀ x ∈ (Nat.digits 10 u).reverse, x < 10 := by
      intro x hx
      exact Nat.digits_lt_base (by norm_num) (List.mem_reverse.mp hx)
    have hval : (Nat.digits 10 u).reverse.foldl (fun a x => a * 10 + x) 0 = u := by
      rw [List.foldl_reverse, foldr_digit_ofDigits, Nat.ofDigits_digits]
    cases hl : (Nat.digits 10 u).reverse with
    | nil => exact absurd hl hne
    | cons d ds =>
      rw [hl] at hlt hval
      have hd0 : d ≠ 0 := by
        have h1 := Nat.getLast_digit_ne_zero 10 hu
        have h2 : Nat.digits 10 u = ds.reverse ++ [d] := by
          rw [← List.reverse_reverse (Nat.digits 10 u), hl]; simp
        simp only [h2] at h1
        simpa using h1
      refine ⟨d, ds, hlt d (by simp), fun x hx => hlt x (by simp [hx]), ?_, hval,
        fun h0 => absurd h0 hd0⟩
      simp [decimalNat, hu, hl]

theorem formatBitsLoop_eq (fuel u : Nat) (acc : List Nat) (h : u < 10 ^ (fuel + 1)) :
    formatBitsLoop (fuel + 1) u acc = decimalNat u ++ acc := by
  induction fuel generalizing u acc with
  | zero =>
    have h10 : u < 10 := by simpa using h
    unfold formatBitsLoop
    simp only [h10, if_true]
    by_cases hu : u = 0
    · simp [decimalNat, hu]
    · have : Nat.digits 10 u = [u] := by
        rw [Nat.digits_def' (by norm_num) (by omega)]
        simp [Nat.mod_eq_of_lt h10, Nat.div_eq_of_lt h10]
      simp [decimalNat, hu, this]
  | succ fuel ih =>
    unfold formatBitsLoop
    by_cases h10 : u < 10
    · simp only [h10, if_true]
      by_cases hu : u = 0
      · simp [decimalNat, hu]
      · have : Nat.digits 10 u = [u] := by
          rw [Nat.digits_def' (by norm_num) (by omega)]
          simp [Nat.mod_eq_of_lt h10, Nat.div_eq_of_lt h10]
        simp [decimalNat, hu, this]
    · simp only [h10, if_false]
      have hdiv : u / 10 < 10 ^ (fuel + 1) := by
        rw [pow_succ] at h
        omega
      rw [ih (u / 10) _ hdiv]
      have hpos : u / 10 ≠ 0 := by omega
      have hu : u ≠ 0 := by omega
      simp [decimalNat, hu, hpos, Nat.digits_def' (by norm_num : 1 < 10) (by omega : 0 < u)]

/-- Go `strconv.FormatInt` writes the decimal numeral of every `int64`. -/
theorem FormatInt_eq_decimal (i : Int) (h : inInt64 i) : strconv.FormatInt i = decimal i := by
  obtain ⟨h1, h2⟩ := h
  have hb : i.natAbs < 10 ^ (64 + 1) := by
    have : i.natAbs ≤ 2 ^ 63 := by omega
    exact lt_of_le_of_lt this (by norm_num)
  unfold strconv.FormatInt decimal strconv.FormatUint
  by_cases hneg : i < 0
  · have e : (-i).toNat = i.natAbs := by omega
    simp only [hneg, if_true, e]
    rw [formatBitsLoop_eq _ _ _ hb]; simp
  · have e : i.toNat = i.natAbs := by omega
    simp only [hneg, if_false, e]
    rw [formatBitsLoop_eq _ _ _ hb]; simp

theorem parseUintLoop_digits (ds : List Nat) (hd : ∀ d ∈ ds, d < 10) (n : Nat)
    (hb : ds.foldl (fun a d => a * 10 + d) n < 2 ^ 64) :
    parseUintLoop 64 (ds.map (fun d => 48 + d)) n
      = .ok (ds.foldl (fun a d => a * 10 + d) n) := by
  induction ds generalizing n with
  | nil => simp [parseUintLoop]
  | cons d ds ih =>
    have hd10 : d < 10 := hd d (by simp)
    have hge := foldl_digit_ge ds (n * 10 + d)
    simp only [List.foldl_cons] at hb ⊢
    have hlt : n * 10 + d < 2 ^ 64 := lt_of_le_of_lt hge hb
    simp only [List.map_cons, parseUintLoop]
    have c1 : 48 ≤ 48 + d ∧ 48 + d ≤ 57 := by omega
    have c2 : ¬ (n ≥ (2 ^ 64 - 1) / 10 + 1) := by norm_num at hlt ⊢; omega
    have c3 : ¬ (n * 10 + (48 + d - 48) > 2 ^ 64 - 1) := by norm_num at hlt ⊢; omega
    simp only [c1, c2, c3, and_self, if_true, if_false]
    have e : 48 + d - 48 = d := by omega
    rw [e]
    exact ih (fun x hx => hd x (by simp [hx])) _ hb

theorem atoiFastLoop_digits (ds : List Nat) (hd : ∀ d ∈ ds, d < 10) (n : Nat) :
    atoiFastLoop (ds.map (fun d => 48 + d)) n = some (ds.foldl (fun a d => a * 10 + d) n) := by
  induction ds generalizing n with
  | nil => simp [atoiFastLoop]
  | cons d ds ih =>
    have hd10 : d < 10 := hd d (by simp)
    have e : (48 + d + 256 - 48) % 256 = d := by omega
    simp only [List.map_cons, atoiFastLoop, e, List.foldl_cons]
    have c : ¬ d > 9 := by omega
    simp only [c, if_false]
    exact ih (fun x hx => hd x (by simp [hx])) _

/-- The two digit loops of `strconv` read the numeral of `n` back. -/
theorem loops_decimalNat (n : Nat) (h : n < 2 ^ 64) :
    ∃ (c : Nat) (rest : List Nat), decimalNat n = c :: rest ∧ 48 ≤ c ∧ c ≤ 57 ∧
      atoiFastLoop (c :: rest) 0 = some n ∧ parseUintLoop 64 (c :: rest) 0 = .ok n := by
  obtain ⟨d, ds, hd, hds, hshape, hval, -⟩ := decimalNat_shape n
  have hall : ∀ x ∈ d :: ds, x < 10 := by
    intro x hx
    rcases List.mem_cons.mp hx with rfl | hx
    · exact hd
    · exact hds x hx
  have hfast := atoiFastLoop_digits (d :: ds) hall 0
  have hslow := parseUintLoop_digits (d :: ds) hall 0 (by rw [hval]; exact h)
  rw [hval] at hfast hslow
  exact ⟨48 + d, ds.map (fun x => 48 + x), hshape, by omega, by omega, hfast, hslow⟩

theorem Atoi_decimalNat (n : Nat) (h : n < 2 ^ 63) :
    strconv.Atoi (decimalNat n) = .ok (n : Int) := by
  obtain ⟨c, rest, hshape, hc1, hc2, hfast, hslow⟩ :=
    loops_decimalNat n (lt_trans h (by norm_num))
  have n45 : ¬ (c = 45) := by omega
  have n43 : ¬ (c = 43) := by omega
  have hcut : ¬ (9223372036854775808 ≤ n) := by norm_num at h ⊢; omega
  rw [hshape]
  unfold strconv.Atoi
  split
  · simp [n45, n43, hfast]
  · simp [strconv.ParseInt, strconv.ParseUint, n45, n43, hslow, hcut]

theorem Atoi_neg_decimalNat (n : Nat) (h : n ≤ 2 ^ 63) :
    strconv.Atoi (45 :: decimalNat n) = .ok (-(n : Int)) := by
  obtain ⟨c, rest, hshape, hc1, hc2, hfast, hslow⟩ :=
    loops_decimalNat n (lt_of_le_of_lt h (by norm_num))
  have hcut : ¬ (9223372036854775808 < n) := by norm_num at h ⊢; omega
  rw [hshape]
  unfold strconv.Atoi
  split
  · simp [hfast]
  · simp [strconv.ParseInt, strconv.ParseUint, hslow, hcut]

/-- Go `strconv.Atoi` reads the decimal numeral of every `int64` back. -/
theorem Atoi_decimal (i : Int) (h : inInt64 i) : strconv.Atoi (decimal i) = .ok i := by
  obtain ⟨h1, h2⟩ := h
  unfold decimal
  by_cases hneg : i < 0
  · simp only [hneg, if_true]
    rw [Atoi_neg_decimalNat _ (by omega)]
    congr 1; omega
  · simp only [hneg, if_false]
    rw [Atoi_decimalNat _ (by omega)]
    congr 1; omega

/-- A decimal numeral holds no double quote. -/
theorem dq_not_mem_decimal (i : Int) : dq ∉ decimal i := by
  obtain ⟨d, ds, hd, hds, hshape, -, -⟩ := decimalNat_shape i.natAbs
  have : dq ∉ decimalNat i.natAbs := by
    rw [hshape]
    simp only [List.mem_cons, List.mem_map, not_or, not_exists, not_and, dq]
    refine ⟨?_, fun x _ => ?_⟩
    · show ¬ ((34 : Nat) = 48 + d)
      omega
    · show ¬ (48 + x = (34 : Nat))
      omega
  unfold decimal
  split
  · simp only [List.mem_cons, not_or]
    exact ⟨by decide, this⟩
  · exact this

/-! ## `strings` -/

theorem Contains_iff (s : List Nat) (c : Nat) : strings.Contains s c = true ↔ c ∈ s := by
  simp [strings.Contains]

theorem Replace_all_of_not_mem (s : List Nat) (c : Nat) (h : c ∉ s) :
    strings.Replace s c (-1) = s := by
  simp only [strings.Replace, show ((-1 : Int) < 0) from by decide, if_true]
  rw [List.filter_eq_self]
  intro a ha
  have : a ≠ c := fun e => h (e ▸ ha)
  simpa using this

theorem Replace_all_quote (s : List Nat) (h : dq ∉ s) :
    strings.Replace (quote s) dq (-1) = s := by
  have hf : s.filter (fun b => b != dq) = s := by
    rw [List.filter_eq_self]
    intro a ha
    have : a ≠ dq := fun e => h (e ▸ ha)
    simpa using this
  simp [strings.Replace, quote, List.filter_cons, hf]

theorem Contains_quote (s : List Nat) : strings.Contains (quote s) dq = true := by
  simp [strings.Contains, quote]

/-! ## `time` -/

/-- Go `time.Unix(sec, 0).Unix()` is `sec` for every `int64`, the two additions wrapping
around in opposite directions. -/
theorem Unix_Unix (sec : Int) (h : inInt64 sec) : (time.Unix sec 0).Unix = sec := by
  obtain ⟨h1, h2⟩ := h
  simp only [time.Unix, time.Time.Unix, wrap64, time.unixToInternal]
  norm_num
  omega

/-! ## `ConvertibleBoolean` -/

/-- A successful `ConvertibleBoolean.UnmarshalJSON` leaves some boolean and the flag
"the input holds a double quote". -/
theorem ConvertibleBoolean.unmarshal_ok (bit : ConvertibleBoolean) (data : List Nat)
    (h : (bit.UnmarshalJSON data).2 = none) :
    ∃ b, (bit.UnmarshalJSON data).1 = ⟨b, strings.Contains data dq⟩ := by
  unfold ConvertibleBoolean.UnmarshalJSON at h ⊢
  dsimp only at h ⊢
  split
  · exact ⟨true, rfl⟩
  · split
    · exact ⟨false, rfl⟩
    · rename_i h1 h2
      simp [h1, h2] at h

/-- C1 as stated fails: `ConvertibleBoolean.UnmarshalJSON` succeeds on the two bytes `1"`
and `MarshalJSON` of the result is the quoted string `"1"`, although the input is not a
quoted form; so "the output is a quoted string exactly when the input was quoted" does
not hold for every accepted input. -/
theorem C1_counterexample :
    ((⟨false, false⟩ : ConvertibleBoolean).UnmarshalJSON [49, dq] = (⟨true, true⟩, none) ∧
      (⟨true, true⟩ : ConvertibleBoolean).MarshalJSON = .ok (quote (ascii "1")) ∧
      isQuotedForm (quote (ascii "1")) = true ∧ isQuotedForm [49, dq] = false) ∧
    ¬ (∀ (bit : ConvertibleBoolean) (data out : List Nat),
        (bit.UnmarshalJSON data).2 = none →
        (bit.UnmarshalJSON data).1.MarshalJSON = .ok out →
        (isQuotedForm out = true ↔ isQuotedForm data = true)) := by
  refine ⟨⟨by decide, by decide, by decide, by decide⟩, ?_⟩
  intro h
  have h1 := h ⟨false, false⟩ [49, dq] (quote (ascii "1")) (by decide) (by decide)
  revert h1
  decide

/-- C1 (amended): for every input on which `ConvertibleBoolean.UnmarshalJSON` succeeds,
`MarshalJSON` of the decoded value emits the numeral `1` or `0` of the decoded boolean,
as a double-quoted JSON string exactly when the input holds a double-quote character and
bare otherwise, and unmarshalling that output into any receiver yields the same boolean
and the same quoted flag. -/
theorem C1_roundtrip (bit bit2 : ConvertibleBoolean) (data : List Nat)
    (h : (bit.UnmarshalJSON data).2 = none) :
    ∃ out, (bit.UnmarshalJSON data).1.MarshalJSON = .ok out ∧
      out = (if dq ∈ data
              then quote (if (bit.UnmarshalJSON data).1.bool then ascii "1" else ascii "0")
              else (if (bit.UnmarshalJSON data).1.bool then ascii "1" else ascii "0")) ∧
      (isQuotedForm out = true ↔ dq ∈ data) ∧
      bit2.UnmarshalJSON out = ((bit.UnmarshalJSON data).1, none) := by
  obtain ⟨b, hb⟩ := ConvertibleBoolean.unmarshal_ok bit data h
  rw [hb]
  have hq := Contains_iff data dq
  cases hc : strings.Contains data dq with
  | true =>
    have hm : dq ∈ data := hq.mp hc
    simp only [hm, if_true]
    cases b
    · exact ⟨quote (ascii "0"), by decide, rfl, by decide, rfl⟩
    · exact ⟨quote (ascii "1"), by decide, rfl, by decide, rfl⟩
  | false =>
    have hm : dq ∉ data := fun hin => by rw [hq.mpr hin] at hc; exact Bool.noConfusion hc
    simp only [hm, if_false]
    cases b
    · exact ⟨ascii "0", by decide, rfl, by decide, rfl⟩
    · exact ⟨ascii "1", by decide, rfl, by decide, rfl⟩

/-- The amended C1 at the input `"1"`, decoded into the zero value and decoded again into
a receiver that held true. -/
theorem C1_roundtrip_witness :
    ((⟨false, false⟩ : ConvertibleBoolean).UnmarshalJSON (quote (ascii "1"))).2 = none ∧
    ∃ out, ((⟨false, false⟩ : ConvertibleBoolean).UnmarshalJSON
        (quote (ascii "1"))).1.MarshalJSON = .ok out ∧
      out = (if dq ∈ quote (ascii "1")
              then quote (if ((⟨false, false⟩ : ConvertibleBoolean).UnmarshalJSON
                (quote (ascii "1"))).1.bool then ascii "1" else ascii "0")
              else (if ((⟨false, false⟩ : ConvertibleBoolean).UnmarshalJSON
                (quote (ascii "1"))).1.bool then ascii "1" else ascii "0")) ∧
      (isQuotedForm out = true ↔ dq ∈ quote (ascii "1")) ∧
      (⟨true, false⟩ : ConvertibleBoolean).UnmarshalJSON out
        = (((⟨false, false⟩ : ConvertibleBoolean).UnmarshalJSON (quote (ascii "1"))).1, none) :=
  ⟨by decide, C1_roundtrip ⟨false, false⟩ ⟨true, false⟩ (quote (ascii "1")) (by decide)⟩

/-- C4: `ConvertibleBoolean.UnmarshalJSON` succeeds on `0`, `1`, `true`, `false` and on
their double-quoted forms, whatever the receiver held; it yields true for `1` and `true`,
false for `0` and `false`, and the quoted flag is true exactly for the quoted forms. -/
theorem C4_accepted_literals (bit : ConvertibleBoolean) :
    bit.UnmarshalJSON (ascii "0") = (⟨false, false⟩, none) ∧
    bit.UnmarshalJSON (ascii "1") = (⟨true, false⟩, none) ∧
    bit.UnmarshalJSON (ascii "true") = (⟨true, false⟩, none) ∧
    bit.UnmarshalJSON (ascii "false") = (⟨false, false⟩, none) ∧
    bit.UnmarshalJSON (quote (ascii "0")) = (⟨false, true⟩, none) ∧
    bit.UnmarshalJSON (quote (ascii "1")) = (⟨true, true⟩, none) ∧
    bit.UnmarshalJSON (quote (ascii "true")) = (⟨true, true⟩, none) ∧
    bit.UnmarshalJSON (quote (ascii "false")) = (⟨false, true⟩, none) :=
  ⟨rfl, rfl, rfl, rfl, rfl, rfl, rfl, rfl⟩

/-- C10: for every boolean `b` and flag `q`, `ConvertibleBoolean.MarshalJSON` emits
exactly the byte `1` (`b` true) or `0` (`b` false) when `q` is false and exactly the JSON
string `"1"` or `"0"` when `q` is true; it never emits the word `true` or `false`, bare
or quoted, also for the values decoded from `true` and `false`. -/
theorem C10_marshal (b q : Bool) (bit : ConvertibleBoolean) :
    ConvertibleBoolean.MarshalJSON ⟨b, q⟩
      = .ok (match b, q with
          | true, false => ascii "1"
          | false, false => ascii "0"
          | true, true => quote (ascii "1")
          | false, true => quote (ascii "0")) ∧
    ConvertibleBoolean.MarshalJSON ⟨b, q⟩ ≠ .ok (ascii "true") ∧
    ConvertibleBoolean.MarshalJSON ⟨b, q⟩ ≠ .ok (ascii "false") ∧
    ConvertibleBoolean.MarshalJSON ⟨b, q⟩ ≠ .ok (quote (ascii "true")) ∧
    ConvertibleBoolean.MarshalJSON ⟨b, q⟩ ≠ .ok (quote (ascii "false")) ∧
    (bit.UnmarshalJSON (ascii "true")).1.MarshalJSON = .ok (ascii "1") ∧
    (bit.UnmarshalJSON (ascii "false")).1.MarshalJSON = .ok (ascii "0") ∧
    (bit.UnmarshalJSON (quote (ascii "true"))).1.MarshalJSON = .ok (quote (ascii "1")) ∧
    (bit.UnmarshalJSON (quote (ascii "false"))).1.MarshalJSON = .ok (quote (ascii "0")) := by
  refine ⟨?_, ?_, ?_, ?_, ?_, ?_, ?_, ?_, ?_⟩
  · cases b <;> cases q <;> decide
  · cases b <;> cases q <;> decide
  · cases b <;> cases q <;> decide
  · cases b <;> cases q <;> decide
  · cases b <;> cases q <;> decide
  · have : bit.UnmarshalJSON (ascii "true") = (⟨true, false⟩, none) := rfl
    rw [this]; decide
  · have : bit.UnmarshalJSON (ascii "false") = (⟨false, false⟩, none) := rfl
    rw [this]; decide
  · have : bit.UnmarshalJSON (quote (ascii "true")) = (⟨true, true⟩, none) := rfl
    rw [this]; decide
  · have : bit.UnmarshalJSON (quote (ascii "false")) = (⟨false, true⟩, none) := rfl
    rw [this]; decide

/-! ## `Timestamp` -/

theorem Timestamp.unmarshal_bare (t : Timestamp) (N : Int) (h : inInt64 N) :
    t.UnmarshalJSON (decimal N) = (⟨time.Unix N 0, false⟩, none) := by
  have hc : strings.Contains (decimal N) dq = false := by
    cases hc : strings.Contains (decimal N) dq with
    | false => rfl
    | true => exact absurd ((Contains_iff _ _).mp hc) (dq_not_mem_decimal N)
  unfold Timestamp.UnmarshalJSON
  simp only [Replace_all_of_not_mem _ _ (dq_not_mem_decimal N), Atoi_decimal N h, hc]

theorem Timestamp.unmarshal_quoted (t : Timestamp) (N : Int) (h : inInt64 N) :
    t.UnmarshalJSON (quote (decimal N)) = (⟨time.Unix N 0, true⟩, none) := by
  unfold Timestamp.UnmarshalJSON
  simp only [Replace_all_quote _ (dq_not_mem_decimal N), Atoi_decimal N h, Contains_quote]

/-- C2: for every signed 64-bit integer `N`, decoding the decimal numeral of `N` and
encoding the result gives the bare numeral again, and decoding the numeral wrapped in
double quotes and encoding the result gives the same numeral wrapped in double quotes,
byte for byte; both decodes succeed, whatever the receiver held. -/
theorem C2_timestamp_roundtrip (t : Timestamp) (N : Int) (h : inInt64 N) :
    (t.UnmarshalJSON (decimal N)).2 = none ∧
    (t.UnmarshalJSON (decimal N)).1.MarshalJSON = .ok (decimal N) ∧
    (t.UnmarshalJSON (quote (decimal N))).2 = none ∧
    (t.UnmarshalJSON (quote (decimal N))).1.MarshalJSON = .ok (quote (decimal N)) := by
  rw [Timestamp.unmarshal_bare t N h, Timestamp.unmarshal_quoted t N h]
  refine ⟨rfl, ?_, rfl, ?_⟩
  · simp [Timestamp.MarshalJSON, Unix_Unix N h, FormatInt_eq_decimal N h]
  · simp [Timestamp.MarshalJSON, Unix_Unix N h, FormatInt_eq_decimal N h, quote]

/-- C2 at the instant 1700000000. -/
theorem C2_timestamp_roundtrip_witness :
    inInt64 1700000000 ∧
    ((⟨⟨0, 0⟩, false⟩ : Timestamp).UnmarshalJSON (decimal 1700000000)).2 = none ∧
    ((⟨⟨0, 0⟩, false⟩ : Timestamp).UnmarshalJSON (decimal 1700000000)).1.MarshalJSON
      = .ok (decimal 1700000000) ∧
    ((⟨⟨0, 0⟩, false⟩ : Timestamp).UnmarshalJSON (quote (decimal 1700000000))).2 = none ∧
    ((⟨⟨0, 0⟩, false⟩ : Timestamp).UnmarshalJSON (quote (decimal 1700000000))).1.MarshalJSON
      = .ok (quote (decimal 1700000000)) :=
  ⟨by decide, C2_timestamp_roundtrip ⟨⟨0, 0⟩, false⟩ 1700000000 (by decide)⟩

/-- C5: for every signed 64-bit integer `N`, `Timestamp.UnmarshalJSON` succeeds on the
bare decimal numeral of `N` and on the numeral wrapped in double quotes, whatever the
receiver held; both leave the same instant `time.Unix(N, 0)`, whose `Unix()` is `N`, with
the quoted flag false for the bare form and true for the quoted form. -/
theorem C5_timestamp_decode (t : Timestamp) (N : Int) (h : inInt64 N) :
    t.UnmarshalJSON (decimal N) = (⟨time.Unix N 0, false⟩, none) ∧
    t.UnmarshalJSON (quote (decimal N)) = (⟨time.Unix N 0, true⟩, none) ∧
    (time.Unix N 0).Unix = N :=
  ⟨Timestamp.unmarshal_bare t N h, Timestamp.unmarshal_quoted t N h, Unix_Unix N h⟩

/-- C5 at the least `int64`, into a receiver that held another instant and the quoted
flag. -/
theorem C5_timestamp_decode_witness :
    inInt64 (-9223372036854775808) ∧
    (⟨⟨7, 7⟩, true⟩ : Timestamp).UnmarshalJSON (decimal (-9223372036854775808))
      = (⟨time.Unix (-9223372036854775808) 0, false⟩, none) ∧
    (⟨⟨7, 7⟩, true⟩ : Timestamp).UnmarshalJSON (quote (decimal (-9223372036854775808)))
      = (⟨time.Unix (-9223372036854775808) 0, true⟩, none) ∧
    (time.Unix (-9223372036854775808) 0).Unix = -9223372036854775808 :=
  ⟨by decide, C5_timestamp_decode ⟨⟨7, 7⟩, true⟩ (-9223372036854775808) (by decide)⟩

/-! ## `jsonInt` -/

theorem dropWhile_append_all {p : Nat → Bool} (pre l : List Nat) (h : ∀ b ∈ pre, p b = true) :
    (pre ++ l).dropWhile p = l.dropWhile p := by
  induction pre with
  | nil => rfl
  | cons a pre ih =>
    have ha : p a = true := h a (by simp)
    simp only [List.cons_append, List.dropWhile_cons, ha, if_true]
    exact ih (fun b hb => h b (by simp [hb]))

theorem dropWhile_none {p : Nat → Bool} (l : List Nat) (h : ∀ b ∈ l, p b = false) :
    l.dropWhile p = l := by
  cases l with
  | nil => rfl
  | cons a l => simp [List.dropWhile_cons, h a (by simp)]

/-- Go `bytes.Trim` removes a padding made of cutset bytes around a text that holds none. -/
theorem Trim_padded (pre num post cutset : List Nat)
    (hpre : ∀ b ∈ pre, b ∈ cutset) (hpost : ∀ b ∈ post, b ∈ cutset)
    (hnum : ∀ b ∈ num, b ∉ cutset) :
    bytes.Trim (pre ++ num ++ post) cutset = num := by
  unfold bytes.Trim bytes.TrimLeft bytes.TrimRight
  rw [List.append_assoc, dropWhile_append_all pre _ (fun b hb => by simpa using hpre b hb)]
  by_cases hne : num = []
  · subst hne
    have h1 : ([] ++ post).dropWhile (fun b => cutset.contains b) = [] := by
      simpa using hpost
    rw [h1]; rfl
  · have h1 : (num ++ post).dropWhile (fun b => cutset.contains b) = num ++ post := by
      cases num with
      | nil => exact absurd rfl hne
      | cons a num =>
        have : a ∉ cutset := hnum a (by simp)
        simp [List.dropWhile_cons, this]
    rw [h1, List.reverse_append,
      dropWhile_append_all post.reverse _ (fun b hb => by simpa using hpost b (by simpa using hb)),
      dropWhile_none num.reverse (fun b hb => by simpa using hnum b (by simpa using hb))]
    simp

theorem digits_takeWhile (ds : List Nat) (h : ∀ x ∈ ds, x < 10) :
    (ds.map (fun x => 48 + x)).takeWhile json.isDigit = ds.map (fun x => 48 + x) ∧
    (ds.map (fun x => 48 + x)).dropWhile json.isDigit = [] := by
  constructor
  · rw [List.takeWhile_eq_self_iff]
    intro b hb
    obtain ⟨x, hx, rfl⟩ := List.mem_map.mp hb
    have := h x hx
    simp only [json.isDigit, decide_eq_true_eq]; omega
  · rw [List.dropWhile_eq_nil_iff]
    intro b hb
    obtain ⟨x, hx, rfl⟩ := List.mem_map.mp hb
    have := h x hx
    simp only [json.isDigit, decide_eq_true_eq]; omega

/-- The scanner reads the decimal numeral of a natural number as one number literal. -/
theorem scanNumber_decimalNat (u : Nat) :
    json.scanNumber (decimalNat u) = some (decimalNat u, []) := by
  obtain ⟨d, ds, hd, hds, hshape, -, h0⟩ := decimalNat_shape u
  obtain ⟨ht, hdr⟩ := digits_takeWhile ds hds
  rw [hshape]
  have n45 : ¬ (48 + d = 45) := by omega
  by_cases hz : d = 0
  · have := h0 hz
    subst this; subst hz
    decide
  · have c1 : ¬ (48 + d = 48) := by omega
    have c2 : 49 ≤ 48 + d ∧ 48 + d ≤ 57 := by omega
    cases hds' : ds.map (fun x => 48 + x) with
    | nil =>
      simp [json.scanNumber, c1, c2, json.scanFraction, json.scanExponent]
    | cons a l =>
      rw [hds'] at ht hdr
      unfold json.scanNumber
      split
      · rename_i heq
        simp at heq
        omega
      · rename_i c r hnot heq
        simp only [List.cons.injEq] at heq
        obtain ⟨rfl, rfl⟩ := heq
        simp [c1, c2, ht, hdr, json.scanFraction, json.scanExponent]
      · rename_i heq
        simp at heq

theorem scanNumber_neg_decimalNat (u : Nat) (hu : 0 < u) :
    json.scanNumber (45 :: decimalNat u) = some (45 :: decimalNat u, []) := by
  obtain ⟨d, ds, hd, hds, hshape, hval, h0⟩ := decimalNat_shape u
  obtain ⟨ht, hdr⟩ := digits_takeWhile ds hds
  have hz : d ≠ 0 := by
    intro hz
    have := h0 hz
    subst this; subst hz
    simp at hval
    omega
  rw [hshape]
  have c1 : ¬ (48 + d = 48) := by omega
  have c2 : 49 ≤ 48 + d ∧ 48 + d ≤ 57 := by omega
  simp [json.scanNumber, c1, c2, ht, hdr, json.scanFraction, json.scanExponent]

theorem parseValue_number (fuel depth : Nat) (c : Nat) (rest : List Nat)
    (hc : c = 45 ∨ (48 ≤ c ∧ c ≤ 57)) :
    json.parseValue (fuel + 1) depth (c :: rest)
      = match json.scanNumber (c :: rest) with
        | some (lit, r) => some (.number lit, r)
        | none => none := by
  rw [json.parseValue]
  have h1 : ¬ c = 123 := by omega
  have h2 : ¬ c = 91 := by omega
  have h3 : ¬ c = 34 := by omega
  have h4 : c = 45 ∨ json.isDigit c = true := by
    rcases hc with h | h
    · exact Or.inl h
    · right; simp [json.isDigit, h]
  simp only [h1, h2, h3, h4, if_true, if_false]

/-- The bytes of a decimal numeral are the minus sign and the digits. -/
theorem mem_decimal (i : Int) (b : Nat) (hb : b ∈ decimal i) : b = 45 ∨ (48 ≤ b ∧ b ≤ 57) := by
  obtain ⟨d, ds, hd, hds, hshape, -, -⟩ := decimalNat_shape i.natAbs
  have hnat : ∀ b ∈ decimalNat i.natAbs, 48 ≤ b ∧ b ≤ 57 := by
    intro b hb
    rw [hshape] at hb
    rcases List.mem_cons.mp hb with rfl | hb
    · omega
    · obtain ⟨x, hx, rfl⟩ := List.mem_map.mp hb
      have := hds x hx
      omega
  unfold decimal at hb
  split at hb
  · rcases List.mem_cons.mp hb with rfl | hb
    · exact Or.inl rfl
    · exact Or.inr (hnat b hb)
  · exact Or.inr (hnat b hb)

theorem decimal_ne_nil (i : Int) : decimal i ≠ [] := by
  obtain ⟨d, ds, -, -, hshape, -, -⟩ := decimalNat_shape i.natAbs
  unfold decimal
  split
  · simp
  · rw [hshape]; simp

theorem scanNumber_decimal (i : Int) : json.scanNumber (decimal i) = some (decimal i, []) := by
  unfold decimal
  split
  · exact scanNumber_neg_decimalNat _ (by omega)
  · exact scanNumber_decimalNat _

/-- The decimal numeral of an integer is one JSON value, a number with that literal. -/
theorem parse_decimal (i : Int) : json.parse (decimal i) = some (.number (decimal i)) := by
  have hne := decimal_ne_nil i
  have hmem := mem_decimal i
  have hscan := scanNumber_decimal i
  cases hd : decimal i with
  | nil => exact absurd hd hne
  | cons c rest =>
    rw [hd] at hmem hscan
    have hc := hmem c (by simp)
    have hsp : json.skipSpace (c :: rest) = c :: rest := by
      have : json.isSpace c = false := by
        simp only [json.isSpace, decide_eq_false_iff_not]
        omega
      simp [json.skipSpace, List.dropWhile_cons, this]
    unfold json.parse
    rw [hsp, show 2 * (c :: rest).length + 2 = (2 * (c :: rest).length + 1) + 1 from rfl,
      parseValue_number _ _ _ _ hc, hscan]
    simp [json.skipSpace]

theorem ParseInt_decimalNat (n : Nat) (h : n < 2 ^ 63) :
    strconv.ParseInt (decimalNat n) 64 = .ok (n : Int) := by
  obtain ⟨c, rest, hshape, hc1, hc2, hfast, hslow⟩ :=
    loops_decimalNat n (lt_trans h (by norm_num))
  have n45 : ¬ (c = 45) := by omega
  have n43 : ¬ (c = 43) := by omega
  have hcut : ¬ (9223372036854775808 ≤ n) := by norm_num at h ⊢; omega
  rw [hshape]
  simp [strconv.ParseInt, strconv.ParseUint, n45, n43, hslow, hcut]

theorem ParseInt_neg_decimalNat (n : Nat) (h : n ≤ 2 ^ 63) :
    strconv.ParseInt (45 :: decimalNat n) 64 = .ok (-(n : Int)) := by
  obtain ⟨c, rest, hshape, hc1, hc2, hfast, hslow⟩ :=
    loops_decimalNat n (lt_of_le_of_lt h (by norm_num))
  have hcut : ¬ (9223372036854775808 < n) := by norm_num at h ⊢; omega
  rw [hshape]
  simp [strconv.ParseInt, strconv.ParseUint, hslow, hcut]

theorem ParseInt_decimal (i : Int) (h : inInt64 i) : strconv.ParseInt (decimal i) 64 = .ok i := by
  obtain ⟨h1, h2⟩ := h
  unfold decimal
  by_cases hneg : i < 0
  · simp only [hneg, if_true]
    rw [ParseInt_neg_decimalNat _ (by omega)]
    congr 1; omega
  · simp only [hneg, if_false]
    rw [ParseInt_decimalNat _ (by omega)]
    congr 1; omega

/-- C6: for every signed 64-bit integer `n` and every input made of the decimal numeral
of `n` (a minus sign for a negative number, no leading zeros) preceded and followed by
any number of double-quote and space characters, `jsonInt.UnmarshalJSON` succeeds and
leaves `n` in the receiver, whatever it held. -/
theorem C6_jsonInt_decode (f : jsonInt) (n : Int) (pre post : List Nat) (h : inInt64 n)
    (hpre : ∀ b ∈ pre, b = dq ∨ b = 32) (hpost : ∀ b ∈ post, b = dq ∨ b = 32) :
    jsonInt.UnmarshalJSON f (pre ++ decimal n ++ post) = (n, none) := by
  have htrim : bytes.Trim (pre ++ decimal n ++ post) [dq, 32] = decimal n := by
    apply Trim_padded
    · intro b hb; simpa using hpre b hb
    · intro b hb; simpa using hpost b hb
    · intro b hb
      have := mem_decimal n b hb
      simp only [List.mem_cons, List.mem_singleton, List.not_mem_nil, or_false, dq]
      omega
  unfold jsonInt.UnmarshalJSON
  simp only [htrim, json.UnmarshalInt64, parse_decimal, ParseInt_decimal n h]

/-- The example of C6: the input `"  42 "`, quotes included, yields 42. -/
theorem C6_jsonInt_decode_witness :
    inInt64 42 ∧ (∀ b ∈ [dq, 32, 32], b = dq ∨ b = 32) ∧ (∀ b ∈ [32, dq], b = dq ∨ b = 32) ∧
    jsonInt.UnmarshalJSON 7 ([dq, 32, 32] ++ decimal 42 ++ [32, dq]) = (42, none) :=
  ⟨by decide, by decide, by decide,
    C6_jsonInt_decode 7 42 [dq, 32, 32] [32, dq] (by decide) (by decide) (by decide)⟩
/-! ## UTF-8 -/

/-- Go `utf8.DecodeRune` reads back the encoding of every code point. -/
theorem DecodeRune_EncodeRune (c : Char) (rest : List Nat) :
    utf8.DecodeRune (utf8.EncodeRune c.toNat ++ rest)
      = (c.toNat, (utf8.EncodeRune c.toNat).length) := by
  have hv : c.toNat < 0xD800 ∨ (0xDFFF < c.toNat ∧ c.toNat < 0x110000) := c.valid
  generalize c.toNat = r at hv
  unfold utf8.EncodeRune
  by_cases h1 : r < 0x80
  · simp [h1, utf8.DecodeRune]
  · by_cases h2 : r ≤ 0x7FF
    · simp only [h1, h2, if_true, if_false, List.cons_append, List.nil_append, utf8.DecodeRune]
      have a1 : ¬ (0xC0 + r / 64 < 0x80) := by omega
      have a2 : 0xC2 ≤ 0xC0 + r / 64 ∧ 0xC0 + r / 64 ≤ 0xDF := by omega
      have a3 : 0x80 ≤ 0x80 + r % 64 ∧ 0x80 + r % 64 ≤ 0xBF := by omega
      have a4 : (0xC0 + r / 64) % 32 * 64 + (0x80 + r % 64) % 64 = r := by omega
      simp only [a1, a2, a3, a4, and_self, if_true, if_false, List.length_cons, List.length_nil]
    · have h3 : ¬ (r > 0x10FFFF ∨ (0xD800 ≤ r ∧ r ≤ 0xDFFF)) := by omega
      by_cases h4 : r ≤ 0xFFFF
      · simp only [h1, h2, h3, h4, if_true, if_false, List.cons_append, List.nil_append,
          utf8.DecodeRune]
        have a1 : ¬ (0xE0 + r / 4096 < 0x80) := by omega
        have a2 : ¬ (0xC2 ≤ 0xE0 + r / 4096 ∧ 0xE0 + r / 4096 ≤ 0xDF) := by omega
        have a3 : 0xE0 ≤ 0xE0 + r / 4096 ∧ 0xE0 + r / 4096 ≤ 0xEF := by omega
        have a4 : (if 0xE0 + r / 4096 = 0xE0 then 0xA0 else 0x80) ≤ 0x80 + r / 64 % 64
            ∧ 0x80 + r / 64 % 64 ≤ (if 0xE0 + r / 4096 = 0xED then 0x9F else 0xBF)
            ∧ 0x80 ≤ 0x80 + r % 64 ∧ 0x80 + r % 64 ≤ 0xBF := by
          refine ⟨?_, ?_, by omega, by omega⟩
          · split <;> omega
          · split <;> omega
        have a5 : (0xE0 + r / 4096) % 16 * 4096 + (0x80 + r / 64 % 64) % 64 * 64
            + (0x80 + r % 64) % 64 = r := by omega
        simp only [a1, a2, a3, a4, a5, and_self, if_true, if_false, List.length_cons,
          List.length_nil]
      · simp only [h1, h2, h3, h4, if_true, if_false, List.cons_append, List.nil_append,
          utf8.DecodeRune]
        have a1 : ¬ (0xF0 + r / 262144 < 0x80) := by omega
        have a2 : ¬ (0xC2 ≤ 0xF0 + r / 262144 ∧ 0xF0 + r / 262144 ≤ 0xDF) := by omega
        have a3 : ¬ (0xE0 ≤ 0xF0 + r / 262144 ∧ 0xF0 + r / 262144 ≤ 0xEF) := by omega
        have a3' : 0xF0 ≤ 0xF0 + r / 262144 ∧ 0xF0 + r / 262144 ≤ 0xF4 := by omega
        have a4 : (if 0xF0 + r / 262144 = 0xF0 then 0x90 else 0x80) ≤ 0x80 + r / 4096 % 64
            ∧ 0x80 + r / 4096 % 64 ≤ (if 0xF0 + r / 262144 = 0xF4 then 0x8F else 0xBF)
            ∧ 0x80 ≤ 0x80 + r / 64 % 64 ∧ 0x80 + r / 64 % 64 ≤ 0xBF
            ∧ 0x80 ≤ 0x80 + r % 64 ∧ 0x80 + r % 64 ≤ 0xBF := by
          refine ⟨?_, ?_, by omega, by omega, by omega, by omega⟩
          · split <;> omega
          · split <;> omega
        have a5 : (0xF0 + r / 262144) % 8 * 262144 + (0x80 + r / 4096 % 64) % 64 * 4096
            + (0x80 + r / 64 % 64) % 64 * 64 + (0x80 + r % 64) % 64 = r := by omega
        simp only [a1, a2, a3, a3', a4, a5, and_self, if_true, if_false, List.length_cons,
          List.length_nil]

/-- The encoding of a code point is not empty, and its first byte is below `0x80`
exactly for an ASCII code point, which is then its own encoding. -/
theorem EncodeRune_shape (r : Nat) :
    (r < 0x80 ∧ utf8.EncodeRune r = [r]) ∨
    (0x80 ≤ r ∧ ∃ (b : Nat) (bs : List Nat), utf8.EncodeRune r = b :: bs ∧ 0x80 ≤ b
      ∧ bs ≠ []) := by
  unfold utf8.EncodeRune
  by_cases h1 : r < 0x80
  · left; simp [h1]
  · right
    refine ⟨by omega, ?_⟩
    simp only [h1, if_false]
    split
    · exact ⟨_, _, rfl, by omega, by simp⟩
    · split
      · exact ⟨_, _, rfl, by omega, by simp⟩
      · split
        · exact ⟨_, _, rfl, by omega, by simp⟩
        · exact ⟨_, _, rfl, by omega, by simp⟩
/-! ## String literals -/

theorem hexVal_render (h : HexDigit) : json.hexVal h.render = some h.val.val := by
  obtain ⟨⟨v, hv⟩, u⟩ := h
  unfold HexDigit.render json.hexVal
  dsimp only
  by_cases h10 : v < 10
  · have c1 : 48 ≤ 48 + v ∧ 48 + v ≤ 57 := by omega
    simp only [h10, if_true, c1, and_self]
    congr 1; omega
  · cases u
    · have c1 : ¬ (48 ≤ 87 + v ∧ 87 + v ≤ 57) := by omega
      have c2 : 97 ≤ 87 + v ∧ 87 + v ≤ 102 := by omega
      simp only [h10, if_false, c1, c2, and_self, if_true, Bool.false_eq_true]
      congr 1; omega
    · have c1 : ¬ (48 ≤ 55 + v ∧ 55 + v ≤ 57) := by omega
      have c2 : ¬ (97 ≤ 55 + v ∧ 55 + v ≤ 102) := by omega
      have c3 : 65 ≤ 55 + v ∧ 55 + v ≤ 70 := by omega
      simp only [h10, if_false, c1, c2, c3, and_self, if_true]
      congr 1; omega

theorem getu4_uni (h3 h2 h1 h0 : HexDigit) (l : List Nat) :
    json.getu4 (92 :: 117 :: h3.render :: h2.render :: h1.render :: h0.render :: l)
      = some (uniVal h3 h2 h1 h0) := by
  simp only [json.getu4, hexVal_render, uniVal]

theorem getu4_head_ne (b : Nat) (l : List Nat) (hb : b ≠ 92) : json.getu4 (b :: l) = none := by
  unfold json.getu4
  split
  · rename_i heq
    simp only [List.cons.injEq] at heq
    exact absurd heq.1 hb
  · rfl

theorem getu4_second_ne (e : Nat) (l : List Nat) (he : e ≠ 117) :
    json.getu4 (92 :: e :: l) = none := by
  unfold json.getu4
  split
  · rename_i heq
    simp only [List.cons.injEq] at heq
    exact absurd heq.2.1 he
  · rfl

theorem uniVal_lt (h3 h2 h1 h0 : HexDigit) : uniVal h3 h2 h1 h0 < 65536 := by
  have a := h3.val.isLt
  have b := h2.val.isLt
  have c := h1.val.isLt
  have d := h0.val.isLt
  unfold uniVal
  omega

theorem scanString_plain (c : Char) (hv : (StrToken.plain c).valid = true) (fuel : Nat)
    (more : List Nat) :
    json.scanString (fuel + 1) ((StrToken.plain c).render ++ more)
      = json.consChar c (json.scanString fuel more) := by
  simp only [StrToken.valid, decide_eq_true_eq] at hv
  obtain ⟨v1, v2, v3⟩ := hv
  have hdec := DecodeRune_EncodeRune c more
  have hr : (StrToken.plain c).render = utf8.EncodeRune c.toNat := rfl
  rw [hr]
  rcases EncodeRune_shape c.toNat with ⟨hlt, henc⟩ | ⟨hge, b, bs, henc, hb, -⟩
  · rw [henc, List.singleton_append]
    have c3 : ¬ (c.toNat < 0x20) := by omega
    simp only [json.scanString, v2, v3, c3, hlt, if_true, if_false, Char.ofNat_toNat]
  · rw [henc] at hdec
    rw [henc, List.cons_append]
    have c1 : ¬ (b = 34) := by omega
    have c2 : ¬ (b = 92) := by omega
    have c3 : ¬ (b < 0x20) := by omega
    have c4 : ¬ (b < 0x80) := by omega
    rw [List.cons_append] at hdec
    simp only [json.scanString, c1, c2, c3, c4, if_false, hdec, List.length_cons,
      Nat.add_sub_cancel, Char.ofNat_toNat, List.drop_left]

theorem scanString_short (e : Nat) (hv : (StrToken.short e).valid = true) (fuel : Nat)
    (more : List Nat) :
    json.scanString (fuel + 1) ((StrToken.short e).render ++ more)
      = json.consChar (shortChar e) (json.scanString fuel more) := by
  simp only [StrToken.valid, decide_eq_true_eq] at hv
  have hne : ¬ (e = 117) := by omega
  have hun : json.unescape e = some (shortChar e) := by
    unfold json.unescape shortChar
    rcases hv with h | h | h | h | h | h | h | h <;> subst h <;> rfl
  have hr : (StrToken.short e).render ++ more = 92 :: e :: more := rfl
  rw [hr]
  simp only [json.scanString, hne, hun, if_false, if_true,
    show ¬ ((92 : Nat) = 34) from by decide]

theorem scanString_uni (h3 h2 h1 h0 : HexDigit) (fuel : Nat) (more : List Nat)
    (hns : uniVal h3 h2 h1 h0 < 0xD800 ∨ 0xDFFF < uniVal h3 h2 h1 h0) :
    json.scanString (fuel + 1) ((StrToken.uni h3 h2 h1 h0).render ++ more)
      = json.consChar (Char.ofNat (uniVal h3 h2 h1 h0)) (json.scanString fuel more) := by
  have hs : utf16.IsSurrogate (uniVal h3 h2 h1 h0) = false := by
    simp only [utf16.IsSurrogate, decide_eq_false_iff_not]
    omega
  have hr : (StrToken.uni h3 h2 h1 h0).render ++ more
      = 92 :: 117 :: h3.render :: h2.render :: h1.render :: h0.render :: more := rfl
  rw [hr]
  simp only [json.scanString, getu4_uni, hs, if_false, if_true,
    show ¬ ((92 : Nat) = 34) from by decide, List.drop_succ_cons, List.drop_zero,
    Bool.false_eq_true]

theorem scanString_lone (h3 h2 h1 h0 : HexDigit) (fuel : Nat) (more : List Nat)
    (hs : 0xD800 ≤ uniVal h3 h2 h1 h0 ∧ uniVal h3 h2 h1 h0 ≤ 0xDFFF)
    (hnext : json.getu4 more = none ∨ ∃ w, json.getu4 more = some w ∧
      ¬ (uniVal h3 h2 h1 h0 < 0xDC00 ∧ 0xDC00 ≤ w ∧ w ≤ 0xDFFF)) :
    json.scanString (fuel + 1) ((StrToken.uni h3 h2 h1 h0).render ++ more)
      = json.consChar (Char.ofNat 0xFFFD) (json.scanString fuel more) := by
  have hsur : utf16.IsSurrogate (uniVal h3 h2 h1 h0) = true := by
    simp only [utf16.IsSurrogate, decide_eq_true_eq]
    omega
  have hr : (StrToken.uni h3 h2 h1 h0).render ++ more
      = 92 :: 117 :: h3.render :: h2.render :: h1.render :: h0.render :: more := rfl
  rw [hr]
  simp only [json.scanString, getu4_uni, hsur, if_false, if_true,
    show ¬ ((92 : Nat) = 34) from by decide, List.drop_succ_cons, List.drop_zero]
  rcases hnext with hn | ⟨w, hw, hnp⟩
  · simp only [hn]
  · have hd : utf16.DecodeRune (uniVal h3 h2 h1 h0) w = 0xFFFD := by
      unfold utf16.DecodeRune
      have : ¬ (0xD800 ≤ uniVal h3 h2 h1 h0 ∧ uniVal h3 h2 h1 h0 < 0xDC00 ∧ 0xDC00 ≤ w
          ∧ w < 0xE000) := by omega
      simp only [this, if_false]
    simp only [hw, hd, ne_eq, not_true_eq_false, if_false]

theorem scanString_pair (h3 h2 h1 h0 l3 l2 l1 l0 : HexDigit) (fuel : Nat) (more : List Nat)
    (hs : 0xD800 ≤ uniVal h3 h2 h1 h0 ∧ uniVal h3 h2 h1 h0 < 0xDC00)
    (hl : 0xDC00 ≤ uniVal l3 l2 l1 l0 ∧ uniVal l3 l2 l1 l0 ≤ 0xDFFF) :
    json.scanString (fuel + 1)
        ((StrToken.uni h3 h2 h1 h0).render ++ ((StrToken.uni l3 l2 l1 l0).render ++ more))
      = json.consChar (Char.ofNat (0x10000 + (uniVal h3 h2 h1 h0 - 0xD800) * 1024
          + (uniVal l3 l2 l1 l0 - 0xDC00))) (json.scanString fuel more) := by
  have hsur : utf16.IsSurrogate (uniVal h3 h2 h1 h0) = true := by
    simp only [utf16.IsSurrogate, decide_eq_true_eq]
    omega
  have hd : utf16.DecodeRune (uniVal h3 h2 h1 h0) (uniVal l3 l2 l1 l0)
      = 0x10000 + (uniVal h3 h2 h1 h0 - 0xD800) * 1024 + (uniVal l3 l2 l1 l0 - 0xDC00) := by
    unfold utf16.DecodeRune
    have : 0xD800 ≤ uniVal h3 h2 h1 h0 ∧ uniVal h3 h2 h1 h0 < 0xDC00
        ∧ 0xDC00 ≤ uniVal l3 l2 l1 l0 ∧ uniVal l3 l2 l1 l0 < 0xE000 := by omega
    simp only [this, and_self, if_true]
    omega
  have hne : ¬ (0x10000 + (uniVal h3 h2 h1 h0 - 0xD800) * 1024 + (uniVal l3 l2 l1 l0 - 0xDC00)
      = 0xFFFD) := by omega
  have hr : (StrToken.uni h3 h2 h1 h0).render ++ ((StrToken.uni l3 l2 l1 l0).render ++ more)
      = 92 :: 117 :: h3.render :: h2.render :: h1.render :: h0.render
        :: 92 :: 117 :: l3.render :: l2.render :: l1.render :: l0.render :: more := rfl
  rw [hr]
  simp only [json.scanString, getu4_uni, hsur, hd, hne, ne_eq, not_false_eq_true, if_false,
    if_true, show ¬ ((92 : Nat) = 34) from by decide, List.drop_succ_cons, List.drop_zero]

/-- The first bytes of a rendered token that is not a `\u` escape are not `\u`. -/
theorem getu4_not_uni (t : StrToken) (hv : t.valid = true) (more : List Nat)
    (ht : ∀ a b c d, t ≠ .uni a b c d) : json.getu4 (t.render ++ more) = none := by
  cases t with
  | plain c =>
    simp only [StrToken.valid, decide_eq_true_eq] at hv
    have hr : (StrToken.plain c).render = utf8.EncodeRune c.toNat := rfl
    rw [hr]
    rcases EncodeRune_shape c.toNat with ⟨-, henc⟩ | ⟨-, b, bs, henc, hb, -⟩
    · rw [henc]; exact getu4_head_ne _ _ (by omega)
    · rw [henc]; exact getu4_head_ne _ _ (by omega)
  | short e =>
    simp only [StrToken.valid, decide_eq_true_eq] at hv
    exact getu4_second_ne _ _ (by omega)
  | uni a b c d => exact absurd rfl (ht a b c d)

/-- The scanner and `unquote` read the tokens of a string literal, up to its closing
quote, as the text the literal stands for. -/
theorem scanString_tokens (n : Nat) :
    ∀ (ts : List StrToken), ts.length = n → (∀ t ∈ ts, t.valid = true) →
    ∀ (fuel : Nat) (rest : List Nat), ts.length + 1 ≤ fuel →
      json.scanString fuel (ts.flatMap StrToken.render ++ dq :: rest)
        = some (literalText ts, rest) := by
  induction n using Nat.strong_induction_on with
  | _ n ih =>
    intro ts hlen hv fuel rest hf
    obtain ⟨f, rfl⟩ : ∃ f, fuel = f + 1 := ⟨fuel - 1, by omega⟩
    cases ts with
    | nil =>
      simp [json.scanString, literalText, dq]
    | cons t ts =>
      have hvt : t.valid = true := hv t (by simp)
      have hvts : ∀ x ∈ ts, x.valid = true := fun x hx => hv x (by simp [hx])
      simp only [List.length_cons] at hlen hf
      have ihts := ih ts.length (by omega) ts rfl hvts f rest (by omega)
      rw [List.flatMap_cons, List.append_assoc]
      cases t with
      | plain c => rw [scanString_plain c hvt, ihts]; simp [json.consChar, literalText]
      | short e => rw [scanString_short e hvt, ihts]; simp [json.consChar, literalText]
      | uni h3 h2 h1 h0 =>
        by_cases hns : uniVal h3 h2 h1 h0 < 0xD800 ∨ 0xDFFF < uniVal h3 h2 h1 h0
        · rw [scanString_uni h3 h2 h1 h0 f _ hns, ihts]
          cases ts with
          | nil => simp [json.consChar, literalText, hns]
          | cons t2 ts2 => simp [json.consChar, literalText, hns]
        · have hs : 0xD800 ≤ uniVal h3 h2 h1 h0 ∧ uniVal h3 h2 h1 h0 ≤ 0xDFFF := by omega
          cases ts with
          | nil =>
            rw [scanString_lone h3 h2 h1 h0 f _ hs (Or.inl (by
              simp only [List.flatMap_nil, List.nil_append]
              exact getu4_head_ne _ _ (by decide))), ihts]
            simp [json.consChar, literalText, hns]
          | cons t2 ts2 =>
            have hvt2 : t2.valid = true := hvts t2 (by simp)
            by_cases hu : ∃ l3 l2 l1 l0, t2 = .uni l3 l2 l1 l0
            · obtain ⟨l3, l2, l1, l0, rfl⟩ := hu
              by_cases hp : uniVal h3 h2 h1 h0 < 0xDC00 ∧ 0xDC00 ≤ uniVal l3 l2 l1 l0
                  ∧ uniVal l3 l2 l1 l0 ≤ 0xDFFF
              · have ih2 := ih ts2.length (by simp at hlen; omega) ts2 rfl
                  (fun x hx => hvts x (by simp [hx])) f rest (by simp at hf; omega)
                rw [List.flatMap_cons, List.append_assoc,
                  scanString_pair h3 h2 h1 h0 l3 l2 l1 l0 f _ ⟨hs.1, hp.1⟩ hp.2, ih2]
                simp [json.consChar, literalText, hns, hp]
              · rw [scanString_lone h3 h2 h1 h0 f _ hs (Or.inr ⟨uniVal l3 l2 l1 l0, by
                  rw [List.flatMap_cons, List.append_assoc]
                  exact getu4_uni _ _ _ _ _, hp⟩), ihts]
                simp [json.consChar, literalText, hns, hp]
            · have hnu : ∀ a b c d, t2 ≠ .uni a b c d := fun a b c d h => hu ⟨a, b, c, d, h⟩
              rw [scanString_lone h3 h2 h1 h0 f _ hs (Or.inl (by
                rw [List.flatMap_cons, List.append_assoc]
                exact getu4_not_uni t2 hvt2 _ hnu)), ihts]
              cases t2 with
              | plain c => simp [json.consChar, literalText, hns]
              | short e => simp [json.consChar, literalText, hns]
              | uni a b c d => exact absurd rfl (hnu a b c d)
/-! ## Arrays of strings -/

theorem skipSpace_append (ws l : List Nat) (h : ∀ b ∈ ws, isJsonSpace b = true) :
    json.skipSpace (ws ++ l) = json.skipSpace l := by
  unfold json.skipSpace
  apply dropWhile_append_all
  intro b hb
  have := h b hb
  simp only [isJsonSpace, json.isSpace, decide_eq_true_eq] at this ⊢
  omega

theorem skipSpace_cons (c : Nat) (l : List Nat) (h : isJsonSpace c = false) :
    json.skipSpace (c :: l) = c :: l := by
  have : json.isSpace c = false := by
    simp only [isJsonSpace, json.isSpace, decide_eq_false_iff_not] at h ⊢
    omega
  simp [json.skipSpace, List.dropWhile_cons, this]

theorem render_length_pos (t : StrToken) : 1 ≤ t.render.length := by
  cases t with
  | plain c =>
    show 1 ≤ (utf8.EncodeRune c.toNat).length
    rcases EncodeRune_shape c.toNat with ⟨-, henc⟩ | ⟨-, b, bs, henc, -, -⟩ <;> rw [henc] <;> simp
  | short e => simp [StrToken.render]
  | uni a b c d => simp [StrToken.render]

theorem flatMap_render_length (ts : List StrToken) :
    ts.length ≤ (ts.flatMap StrToken.render).length := by
  induction ts with
  | nil => simp
  | cons t ts ih =>
    have := render_length_pos t
    simp only [List.flatMap_cons, List.length_append, List.length_cons]
    omega

/-- The decoder reads a string literal as a string value holding its text. -/
theorem parseValue_literal (ts : List StrToken) (hv : ∀ t ∈ ts, t.valid = true)
    (fuel depth : Nat) (rest : List Nat) :
    json.parseValue (fuel + 1) depth (renderLiteral ts ++ rest)
      = some (.string (literalText ts), rest) := by
  have hr : renderLiteral ts ++ rest = 34 :: (ts.flatMap StrToken.render ++ dq :: rest) := by
    simp [renderLiteral, quote, dq]
  have hlen : ts.length + 1 ≤ (ts.flatMap StrToken.render ++ dq :: rest).length := by
    have := flatMap_render_length ts
    simp only [List.length_append, List.length_cons]
    omega
  rw [hr, json.parseValue]
  simp only [show ¬ ((34 : Nat) = 123) from by decide, show ¬ ((34 : Nat) = 91) from by decide,
    if_false, if_true, scanString_tokens ts.length ts rfl hv _ rest hlen]

theorem ArrayElem.valid_iff (e : ArrayElem) (h : e.valid = true) :
    (∀ b ∈ e.before, isJsonSpace b = true) ∧ (∀ t ∈ e.tokens, t.valid = true)
      ∧ (∀ b ∈ e.after, isJsonSpace b = true) := by
  simp only [ArrayElem.valid, Bool.and_eq_true, List.all_eq_true] at h
  exact ⟨h.1.1, h.1.2, h.2⟩

theorem renderLiteral_cons (ts : List StrToken) :
    renderLiteral ts = 34 :: (ts.flatMap StrToken.render ++ [34]) := rfl

theorem skipSpace_elem (e : ArrayElem) (h : e.valid = true) (more : List Nat) :
    json.skipSpace (e.render ++ more) = renderLiteral e.tokens ++ (e.after ++ more) := by
  obtain ⟨hb, -, -⟩ := ArrayElem.valid_iff e h
  unfold ArrayElem.render
  rw [List.append_assoc, List.append_assoc, skipSpace_append _ _ hb, renderLiteral_cons,
    List.cons_append, skipSpace_cons _ _ (by decide)]

theorem joinElems_cons_cons (a b : List Nat) (l : List (List Nat)) :
    json.joinElems (a :: b :: l) = a ++ 44 :: json.joinElems (b :: l) := rfl

/-- The decoder reads the elements of a well-formed array of strings, up to the closing
bracket, as the string values of their texts. -/
theorem parseElements_strings (es : List ArrayElem) (hne : es ≠ [])
    (hv : ∀ e ∈ es, e.valid = true) (depth : Nat) (rest : List Nat) :
    ∀ fuel, es.length + 1 ≤ fuel →
    json.parseElements fuel depth
        (json.skipSpace (json.joinElems (es.map ArrayElem.render) ++ 93 :: rest))
      = some (es.map (fun e => JValue.string (literalText e.tokens)), rest) := by
  induction es with
  | nil => exact absurd rfl hne
  | cons e es ih =>
    intro fuel hf
    have hve : e.valid = true := hv e (by simp)
    obtain ⟨-, htok, haft⟩ := ArrayElem.valid_iff e hve
    simp only [List.length_cons] at hf
    obtain ⟨f, rfl⟩ : ∃ f, fuel = f + 1 + 1 := ⟨fuel - 2, by omega⟩
    cases es with
    | nil =>
      simp only [List.map_cons, List.map_nil, json.joinElems]
      rw [skipSpace_elem e hve, json.parseElements, parseValue_literal _ htok]
      simp only [skipSpace_append _ _ haft, skipSpace_cons 93 rest (by decide)]
    | cons e2 es2 =>
      have ih2 := ih (by simp) (fun x hx => hv x (by simp [hx])) (f + 1)
        (by simp only [List.length_cons] at hf ⊢; omega)
      simp only [List.map_cons] at ih2 ⊢
      rw [joinElems_cons_cons, List.append_assoc, skipSpace_elem e hve, json.parseElements,
        parseValue_literal _ htok]
      simp only [skipSpace_append _ _ haft, List.cons_append,
        skipSpace_cons 44 _ (by decide), ih2]

theorem joinElems_length (es : List ArrayElem) :
    es.length ≤ (json.joinElems (es.map ArrayElem.render)).length := by
  induction es with
  | nil => simp [json.joinElems]
  | cons e es ih =>
    have he : 1 ≤ e.render.length := by
      simp [ArrayElem.render, renderLiteral, quote]
      omega
    cases es with
    | nil => simpa [json.joinElems] using he
    | cons e2 es2 =>
      simp only [List.map_cons] at ih ⊢
      rw [joinElems_cons_cons]
      simp only [List.length_append, List.length_cons] at ih ⊢
      omega

/-- The decoder reads a well-formed array of strings as the array of their texts. -/
theorem parseValue_array (es : List ArrayElem) (hv : ∀ e ∈ es, e.valid = true)
    (inner : List Nat) (hin : ∀ b ∈ inner, isJsonSpace b = true)
    (fuel depth : Nat) (hd : depth < json.maxNestingDepth) (rest : List Nat)
    (hf : es.length + 2 ≤ fuel) :
    json.parseValue fuel depth (91 :: (renderElems inner es ++ 93 :: rest))
      = some (.array (es.map (fun e => JValue.string (literalText e.tokens))), rest) := by
  obtain ⟨f, rfl⟩ : ∃ f, fuel = f + 1 := ⟨fuel - 1, by omega⟩
  have hd2 : ¬ (depth ≥ json.maxNestingDepth) := by omega
  rw [json.parseValue]
  simp only [show ¬ ((91 : Nat) = 123) from by decide, if_false, if_true, hd2]
  cases es with
  | nil =>
    simp only [renderElems, skipSpace_append _ _ hin, skipSpace_cons 93 rest (by decide),
      List.map_nil]
  | cons e es2 =>
    simp only [renderElems]
    have hpe := parseElements_strings (e :: es2) (by simp) hv (depth + 1) rest f
      (by simp only [List.length_cons] at hf ⊢; omega)
    have hve : e.valid = true := hv e (by simp)
    have hsk : ∃ tl, json.skipSpace (json.joinElems ((e :: es2).map ArrayElem.render)
        ++ 93 :: rest) = 34 :: tl := by
      cases es2 with
      | nil =>
        simp only [List.map_cons, List.map_nil, json.joinElems]
        rw [skipSpace_elem e hve, renderLiteral_cons]
        exact ⟨_, rfl⟩
      | cons e3 es3 =>
        simp only [List.map_cons]
        rw [joinElems_cons_cons, List.append_assoc, skipSpace_elem e hve, renderLiteral_cons]
        exact ⟨_, rfl⟩
    obtain ⟨tl, htl⟩ := hsk
    rw [htl] at hpe
    simp only [htl, hpe]

/-- A well-formed array of strings is one JSON value, the array of the texts. -/
theorem parse_array (ws0 inner ws1 : List Nat) (es : List ArrayElem)
    (h0 : ∀ b ∈ ws0, isJsonSpace b = true) (hin : ∀ b ∈ inner, isJsonSpace b = true)
    (h1 : ∀ b ∈ ws1, isJsonSpace b = true) (hv : ∀ e ∈ es, e.valid = true) :
    json.parse (renderArray ws0 inner es ws1)
      = some (.array (es.map (fun e => JValue.string (literalText e.tokens)))) := by
  have hfuel : es.length + 2 ≤ 2 * (renderArray ws0 inner es ws1).length + 2 := by
    have := joinElems_length es
    unfold renderArray renderElems
    cases es with
    | nil => simp
    | cons e es2 =>
      simp only [List.length_append, List.length_cons] at this ⊢
      omega
  have hend : json.skipSpace ws1 = [] := by
    have := skipSpace_append ws1 [] h1
    simpa [json.skipSpace] using this
  unfold json.parse
  generalize 2 * (renderArray ws0 inner es ws1).length + 2 = fuel at hfuel
  unfold renderArray
  rw [skipSpace_append _ _ h0, skipSpace_cons 91 _ (by decide),
    parseValue_array es hv inner hin fuel 0 (by decide) ws1 hfuel]
  simp only [hend, if_true]

theorem storeStrings_strings (css : List (List Char)) (prior : List (List Nat)) :
    json.storeStrings prior (css.map JValue.string) = .ok (css.map utf8.encode) := by
  induction css generalizing prior with
  | nil => rfl
  | cons cs css ih => simp only [List.map_cons, json.storeStrings, json.storeString, ih]

/-- Go `json.Unmarshal` into a `[]string` stores the texts of a well-formed array of
strings, in their order, whatever the slice held. -/
theorem UnmarshalStrings_array (prior : Option (List (List Nat))) (ws0 inner ws1 : List Nat)
    (es : List ArrayElem)
    (h0 : ∀ b ∈ ws0, isJsonSpace b = true) (hin : ∀ b ∈ inner, isJsonSpace b = true)
    (h1 : ∀ b ∈ ws1, isJsonSpace b = true) (hv : ∀ e ∈ es, e.valid = true) :
    json.UnmarshalStrings prior (renderArray ws0 inner es ws1)
      = .ok (some (es.map (fun e => utf8.encode (literalText e.tokens)))) := by
  have hs := storeStrings_strings (es.map (fun e => literalText e.tokens)) (prior.getD [])
  simp only [List.map_map] at hs
  unfold json.UnmarshalStrings
  rw [parse_array ws0 inner ws1 es h0 hin h1 hv]
  have e1 : (JValue.string ∘ fun e : ArrayElem => literalText e.tokens)
      = fun e => JValue.string (literalText e.tokens) := rfl
  have e2 : (utf8.encode ∘ fun e : ArrayElem => literalText e.tokens)
      = fun e => utf8.encode (literalText e.tokens) := rfl
  rw [e1, e2] at hs
  simp only [hs]

/-! ## `JSONStringSlice`: decoding -/

theorem renderArray_single (ts : List StrToken) :
    [91] ++ renderLiteral ts ++ [93] = renderArray [] [] [⟨[], ts, []⟩] [] := by
  simp [renderArray, renderElems, json.joinElems, ArrayElem.render]

/-- The method `JSONStringSlice.UnmarshalJSON` on a well-formed array of strings, for every
receiver: the slice becomes the texts in their order and `SingleString` keeps its value. -/
theorem JSONStringSlice.unmarshal_array (b : JSONStringSlice) (ws0 inner ws1 : List Nat)
    (es : List ArrayElem)
    (h0 : ∀ x ∈ ws0, isJsonSpace x = true) (hin : ∀ x ∈ inner, isJsonSpace x = true)
    (h1 : ∀ x ∈ ws1, isJsonSpace x = true) (hv : ∀ e ∈ es, e.valid = true) :
    b.UnmarshalJSON (renderArray ws0 inner es ws1)
      = .ok ⟨some (es.map (fun e => utf8.encode (literalText e.tokens))), b.SingleString⟩ := by
  have hU := UnmarshalStrings_array b.Slice ws0 inner ws1 es h0 hin h1 hv
  have hhead : ∃ d0 tl, renderArray ws0 inner es ws1 = d0 :: tl ∧ d0 ≠ dq := by
    unfold renderArray
    cases ws0 with
    | nil => exact ⟨91, _, rfl, by decide⟩
    | cons w ws =>
      refine ⟨w, _, rfl, ?_⟩
      have := h0 w (by simp)
      intro hw
      rw [hw] at this
      exact absurd this (by decide)
  obtain ⟨d0, tl, hd, hne⟩ := hhead
  rw [hd] at hU ⊢
  unfold JSONStringSlice.UnmarshalJSON
  simp only [hne, if_false, hU]

/-- The method `JSONStringSlice.UnmarshalJSON` on a string literal, for every receiver: the slice
becomes the one-element list of the text and `SingleString` becomes true. -/
theorem JSONStringSlice.unmarshal_literal (b : JSONStringSlice) (ts : List StrToken)
    (hv : ∀ t ∈ ts, t.valid = true) :
    b.UnmarshalJSON (renderLiteral ts) = .ok ⟨some [utf8.encode (literalText ts)], true⟩ := by
  have hU := UnmarshalStrings_array b.Slice [] [] [] [⟨[], ts, []⟩] (by simp) (by simp) (by simp)
    (by
      intro e he
      simp only [List.mem_singleton] at he
      subst he
      simp only [ArrayElem.valid, List.all_nil, Bool.true_and, Bool.and_true, List.all_eq_true]
      exact hv)
  rw [← renderArray_single] at hU
  rw [renderLiteral_cons] at hU ⊢
  unfold JSONStringSlice.UnmarshalJSON
  simp only [dq, if_true, hU, List.map_cons, List.map_nil]

/-- C7: for every JSON string literal `s` (any sequence of unescaped code points,
two-character escapes and `\u` escapes between two double quotes),
`JSONStringSlice.UnmarshalJSON(s)` succeeds, into the zero value and into any other
receiver, with `Slice` the one-element list holding the text of `s` and
`SingleString = true`. -/
theorem C7_single_string (b : JSONStringSlice) (ts : List StrToken)
    (hv : ∀ t ∈ ts, t.valid = true) :
    b.UnmarshalJSON (renderLiteral ts) = .ok ⟨some [utf8.encode (literalText ts)], true⟩ :=
  JSONStringSlice.unmarshal_literal b ts hv

/-- The example of C7: the literal `"hello"` yields the list `["hello"]` and
`SingleString = true`. -/
theorem C7_single_string_witness :
    (∀ t ∈ "hello".toList.map StrToken.plain, t.valid = true) ∧
    renderLiteral ("hello".toList.map StrToken.plain) = quote (ascii "hello") ∧
    utf8.encode (literalText ("hello".toList.map StrToken.plain)) = ascii "hello" ∧
    (⟨none, false⟩ : JSONStringSlice).UnmarshalJSON
        (renderLiteral ("hello".toList.map StrToken.plain))
      = .ok ⟨some [utf8.encode (literalText ("hello".toList.map StrToken.plain))], true⟩ :=
  ⟨by decide, by decide, by decide,
    C7_single_string ⟨none, false⟩ ("hello".toList.map StrToken.plain) (by decide)⟩

/-- C8, the failing input: a receiver that holds `SingleString = true` decodes the array
`["a","b"]` into the slice `["a", "b"]` and keeps `SingleString = true`; `MarshalJSON` of
the result is then the single string `"a"`. -/
theorem C8_stale_flag :
    (⟨some [ascii "x"], true⟩ : JSONStringSlice).UnmarshalJSON
        ([91] ++ quote (ascii "a") ++ [44] ++ quote (ascii "b") ++ [93])
      = .ok ⟨some [ascii "a", ascii "b"], true⟩ ∧
    (⟨some [ascii "a", ascii "b"], true⟩ : JSONStringSlice).MarshalJSON
      = .ok (quote (ascii "a")) := by
  constructor <;> decide

/-! ## `encoding/json`: the encoder writes string literals -/

theorem hex_render (n : Nat) (h : n < 16) :
    json.hex n = (⟨Fin.ofNat n, false⟩ : HexDigit).render := by
  have hv : (Fin.ofNat n : Fin 16).val = n := by
    show n % 16 = n
    omega
  simp only [json.hex, HexDigit.render, hv, Bool.false_eq_true, if_false]

/-- One round of the loop of `appendString` writes the token of the first code point. -/
theorem appendStringLoop_step (c : Char) (fuel : Nat) (more : List Nat) :
    json.appendStringLoop (fuel + 1) (utf8.EncodeRune c.toNat ++ more)
      = (escToken c).render ++ json.appendStringLoop fuel more := by
  have hdec := DecodeRune_EncodeRune c more
  rcases EncodeRune_shape c.toNat with ⟨hlt, henc⟩ | ⟨hge, b, bs, henc, hb, hbs⟩
  · rw [henc, List.singleton_append]
    unfold escToken
    simp only [json.appendStringLoop, hlt, if_true]
    by_cases hs : json.htmlSafe c.toNat = true
    · simp only [hs, if_true]
      show _ = utf8.EncodeRune c.toNat ++ _
      rw [henc]; rfl
    · simp only [hs, if_false, Bool.false_eq_true]
      by_cases h1 : c.toNat = 92 ∨ c.toNat = 34
      · simp only [h1, if_true]; rfl
      · simp only [h1, if_false]
        by_cases h2 : c.toNat = 8
        · simp only [h2, if_true]; rfl
        · simp only [h2, if_false]
          by_cases h3 : c.toNat = 12
          · simp only [h3, if_true]; rfl
          · simp only [h3, if_false]
            by_cases h4 : c.toNat = 10
            · simp only [h4, if_true]; rfl
            · simp only [h4, if_false]
              by_cases h5 : c.toNat = 13
              · simp only [h5, if_true]; rfl
              · simp only [h5, if_false]
                by_cases h6 : c.toNat = 9
                · simp only [h6, if_true]; rfl
                · simp only [h6, if_false]
                  rw [hex_render (c.toNat / 16) (by omega), hex_render (c.toNat % 16) (by omega)]
                  rfl
  · rw [henc] at hdec
    rw [henc, List.cons_append]
    rw [List.cons_append] at hdec
    have hlt : ¬ (b < 0x80) := by omega
    have hnot : ¬ (c.toNat < 0x80) := by omega
    have hlen : 2 ≤ (b :: bs).length := by
      cases bs with
      | nil => exact absurd rfl hbs
      | cons x xs => simp
    have hsz : ¬ (c.toNat = utf8.RuneError ∧ (b :: bs).length = 1) := by omega
    unfold escToken
    simp only [json.appendStringLoop, hlt, hnot, if_false, hdec, hsz]
    by_cases h1 : c.toNat = 0x2028
    · simp only [h1, true_or, if_true, List.length_cons, Nat.add_sub_cancel, List.drop_left]
      rfl
    · by_cases h2 : c.toNat = 0x2029
      · simp only [h2, or_true, if_true, List.length_cons, Nat.add_sub_cancel, List.drop_left]
        rfl
      · simp only [h1, h2, or_self, if_false, List.length_cons, Nat.add_sub_cancel,
          List.drop_left]
        have ht : List.take (bs.length + 1) (b :: (bs ++ more)) = b :: bs := by
          rw [← List.cons_append]
          exact List.take_left' (by simp)
        rw [ht]
        show _ = utf8.EncodeRune c.toNat ++ _
        rw [henc]

theorem encode_cons (c : Char) (cs : List Char) :
    utf8.encode (c :: cs) = utf8.EncodeRune c.toNat ++ utf8.encode cs := by
  simp [utf8.encode]

theorem encode_length (cs : List Char) : cs.length ≤ (utf8.encode cs).length := by
  induction cs with
  | nil => simp [utf8.encode]
  | cons c cs ih =>
    rw [encode_cons]
    have : 1 ≤ (utf8.EncodeRune c.toNat).length := by
      rcases EncodeRune_shape c.toNat with ⟨-, henc⟩ | ⟨-, b, bs, henc, -, -⟩ <;>
        rw [henc] <;> simp
    simp only [List.length_append, List.length_cons]
    omega

theorem appendStringLoop_encode (cs : List Char) :
    ∀ fuel, cs.length ≤ fuel →
    json.appendStringLoop fuel (utf8.encode cs) = (cs.map escToken).flatMap StrToken.render := by
  induction cs with
  | nil =>
    intro fuel _
    cases fuel <;> simp [utf8.encode, json.appendStringLoop]
  | cons c cs ih =>
    intro fuel hf
    simp only [List.length_cons] at hf
    obtain ⟨f, rfl⟩ : ∃ f, fuel = f + 1 := ⟨fuel - 1, by omega⟩
    rw [encode_cons, appendStringLoop_step, ih f (by omega)]
    simp

/-- Go `json.Marshal` of a string that holds the code points `cs` is the string literal made
of their tokens. -/
theorem MarshalString_encode (cs : List Char) :
    json.MarshalString (utf8.encode cs) = renderLiteral (cs.map escToken) := by
  unfold json.MarshalString
  rw [appendStringLoop_encode cs _ (encode_length cs)]
  rfl

theorem escToken_valid (c : Char) : (escToken c).valid = true := by
  unfold escToken
  split
  · split
    · rename_i hs
      simp only [json.htmlSafe, decide_eq_true_eq] at hs
      simp only [StrToken.valid, decide_eq_true_eq]
      omega
    · split
      · rename_i h
        simp only [StrToken.valid, decide_eq_true_eq]
        omega
      · split
        · decide
        · split
          · decide
          · split
            · decide
            · split
              · decide
              · split
                · decide
                · rfl
  · split
    · rfl
    · split
      · rfl
      · simp only [StrToken.valid, decide_eq_true_eq]
        omega

theorem literalText_uni (h3 h2 h1 h0 : HexDigit) (ts : List StrToken)
    (hns : uniVal h3 h2 h1 h0 < 0xD800 ∨ 0xDFFF < uniVal h3 h2 h1 h0) :
    literalText (.uni h3 h2 h1 h0 :: ts) = Char.ofNat (uniVal h3 h2 h1 h0) :: literalText ts := by
  cases ts with
  | nil => simp [literalText, hns]
  | cons t ts => simp [literalText, hns]

theorem literalText_escToken (c : Char) (ts : List StrToken) :
    literalText (escToken c :: ts) = c :: literalText ts := by
  have hof := Char.ofNat_toNat c
  unfold escToken
  split
  · rename_i hlt
    split
    · simp [literalText]
    · split
      · rename_i h
        have hsc : shortChar c.toNat = c := by
          unfold shortChar
          have n1 : ¬ (c.toNat = 98) := by omega
          have n2 : ¬ (c.toNat = 102) := by omega
          have n3 : ¬ (c.toNat = 110) := by omega
          have n4 : ¬ (c.toNat = 114) := by omega
          have n5 : ¬ (c.toNat = 116) := by omega
          simp only [n1, n2, n3, n4, n5, if_false, hof]
        simp only [literalText, hsc]
      · split
        · rename_i h; simp only [literalText, shortChar]; rw [← hof, h]; rfl
        · split
          · rename_i h; simp only [literalText, shortChar]; rw [← hof, h]; rfl
          · split
            · rename_i h; simp only [literalText, shortChar]; rw [← hof, h]; rfl
            · split
              · rename_i h; simp only [literalText, shortChar]; rw [← hof, h]; rfl
              · split
                · rename_i h; simp only [literalText, shortChar]; rw [← hof, h]; rfl
                · have hv : uniVal ⟨0, false⟩ ⟨0, false⟩ ⟨Fin.ofNat (c.toNat / 16), false⟩
                      ⟨Fin.ofNat (c.toNat % 16), false⟩ = c.toNat := by
                    have e1 : (Fin.ofNat (c.toNat / 16) : Fin 16).val = c.toNat / 16 := by
                      show c.toNat / 16 % 16 = c.toNat / 16
                      omega
                    have e2 : (Fin.ofNat (c.toNat % 16) : Fin 16).val = c.toNat % 16 := by
                      show c.toNat % 16 % 16 = c.toNat % 16
                      omega
                    simp only [uniVal, e1, e2]
                    show 0 * 4096 + 0 * 256 + c.toNat / 16 * 16 + c.toNat % 16 = c.toNat
                    omega
                  rw [literalText_uni _ _ _ _ _ (by rw [hv]; omega), hv, hof]
  · split
    · rename_i h
      rw [literalText_uni _ _ _ _ _ (by decide)]
      rw [← hof, h]; rfl
    · split
      · rename_i h
        rw [literalText_uni _ _ _ _ _ (by decide)]
        rw [← hof, h]; rfl
      · simp [literalText]

theorem literalText_escTokens (cs : List Char) : literalText (cs.map escToken) = cs := by
  induction cs with
  | nil => rfl
  | cons c cs ih => rw [List.map_cons, literalText_escToken, ih]

/-! ## `JSONStringSlice`: encoding and the round trip -/

theorem MarshalStrings_texts (css : List (List Char)) :
    json.MarshalStrings (some (css.map utf8.encode))
      = renderArray [] [] (css.map (fun cs => (⟨[], cs.map escToken, []⟩ : ArrayElem))) [] := by
  have hmap : (css.map utf8.encode).map json.MarshalString
      = (css.map (fun cs => (⟨[], cs.map escToken, []⟩ : ArrayElem))).map ArrayElem.render := by
    simp only [List.map_map]
    apply List.map_congr_left
    intro cs _
    simp [MarshalString_encode, ArrayElem.render]
  have hM : json.MarshalStrings (some (css.map utf8.encode))
      = 91 :: (json.joinElems ((css.map utf8.encode).map json.MarshalString) ++ [93]) := rfl
  rw [hM, hmap]
  cases css with
  | nil => rfl
  | cons cs css => rfl

theorem escElems_valid (css : List (List Char)) :
    ∀ e ∈ css.map (fun cs => (⟨[], cs.map escToken, []⟩ : ArrayElem)), e.valid = true := by
  intro e he
  obtain ⟨cs, -, rfl⟩ := List.mem_map.mp he
  simp only [ArrayElem.valid, List.all_nil, Bool.true_and, Bool.and_true, List.all_eq_true]
  intro t ht
  obtain ⟨c, -, rfl⟩ := List.mem_map.mp ht
  exact escToken_valid c

theorem escElems_texts (css : List (List Char)) :
    (css.map (fun cs => (⟨[], cs.map escToken, []⟩ : ArrayElem))).map
      (fun e => utf8.encode (literalText e.tokens)) = css.map utf8.encode := by
  simp only [List.map_map]
  apply List.map_congr_left
  intro cs _
  simp [literalText_escTokens]

/-- Decoding what `json.Marshal` writes for a list of texts gives the list back. -/
theorem unmarshal_MarshalStrings (b : JSONStringSlice) (css : List (List Char)) :
    b.UnmarshalJSON (json.MarshalStrings (some (css.map utf8.encode)))
      = .ok ⟨some (css.map utf8.encode), b.SingleString⟩ := by
  rw [MarshalStrings_texts, JSONStringSlice.unmarshal_array b [] [] [] _ (by simp) (by simp)
    (by simp) (escElems_valid css), escElems_texts]

/-- Decoding what `json.Marshal` writes for one text gives the text back. -/
theorem unmarshal_MarshalString (b : JSONStringSlice) (cs : List Char) :
    b.UnmarshalJSON (json.MarshalString (utf8.encode cs))
      = .ok ⟨some [utf8.encode cs], true⟩ := by
  rw [MarshalString_encode, JSONStringSlice.unmarshal_literal b _
    (by
      intro t ht
      obtain ⟨c, -, rfl⟩ := List.mem_map.mp ht
      exact escToken_valid c),
    literalText_escTokens]

theorem storeStrings_texts (elems : List JValue) :
    ∀ l, json.storeStrings [] elems = .ok l →
      ∃ css : List (List Char), l = css.map utf8.encode ∧ css.length = elems.length := by
  induction elems with
  | nil =>
    intro l h
    simp only [json.storeStrings, Except.ok.injEq] at h
    exact ⟨[], by simp [← h], rfl⟩
  | cons v vs ih =>
    intro l h
    simp only [json.storeStrings, List.headD_nil, List.tail_nil] at h
    cases hv : json.storeString [] v with
    | error e => simp [hv] at h
    | ok s =>
      cases hvs : json.storeStrings [] vs with
      | error e => simp [hv, hvs] at h
      | ok l2 =>
        simp only [hv, hvs, Except.ok.injEq] at h
        obtain ⟨css, hl2, hlen⟩ := ih l2 hvs
        have hs : ∃ cs : List Char, s = utf8.encode cs := by
          cases v with
          | string cs =>
            simp only [json.storeString, Except.ok.injEq] at hv
            exact ⟨cs, hv.symm⟩
          | null =>
            simp only [json.storeString, Except.ok.injEq] at hv
            exact ⟨[], by rw [← hv]; rfl⟩
          | bool _ => simp [json.storeString] at hv
          | number _ => simp [json.storeString] at hv
          | array _ => simp [json.storeString] at hv
          | object _ => simp [json.storeString] at hv
        obtain ⟨cs, hcs⟩ := hs
        exact ⟨cs :: css, by simp [← h, hcs, hl2], by simp [hlen]⟩

theorem parseElements_ne_nil (fuel depth : Nat) (input : List Nat) (vs : List JValue)
    (r : List Nat) (h : json.parseElements fuel depth input = some (vs, r)) : vs ≠ [] := by
  cases fuel with
  | zero => simp [json.parseElements] at h
  | succ f =>
    rw [json.parseElements] at h
    split at h
    · simp at h
    · split at h
      · split at h
        · simp only [Option.some.injEq, Prod.mk.injEq] at h
          rw [← h.1]; simp
        · simp at h
      · simp only [Option.some.injEq, Prod.mk.injEq] at h
        rw [← h.1]; simp
      · simp at h

/-- What `json.Unmarshal` leaves in a nil `[]string` after a successful call: nil, or a
list of texts. -/
theorem UnmarshalStrings_ok (data : List Nat) (sl : Option (List (List Nat)))
    (h : json.UnmarshalStrings none data = .ok sl) :
    sl = none ∨ ∃ css : List (List Char), sl = some (css.map utf8.encode) := by
  unfold json.UnmarshalStrings at h
  split at h
  · simp at h
  · simp only [Except.ok.injEq] at h
    exact Or.inl h.symm
  · rename_i elems _
    split at h
    · rename_i l hl
      simp only [Except.ok.injEq] at h
      obtain ⟨css, hcss, -⟩ := storeStrings_texts elems l hl
      exact Or.inr ⟨css, by rw [← h, hcss]⟩
    · simp at h
  · simp at h

/-- An input that starts with a double quote, wrapped in brackets, is decoded to a list
of at least one text. -/
theorem UnmarshalStrings_wrapped (tl : List Nat) (sl : Option (List (List Nat)))
    (h : json.UnmarshalStrings none ([91] ++ (dq :: tl) ++ [93]) = .ok sl) :
    ∃ (cs : List Char) (css : List (List Char)), sl = some ((cs :: css).map utf8.encode) := by
  have hp : ∀ v, json.parse ([91] ++ (dq :: tl) ++ [93]) = some v →
      ∃ e es, v = JValue.array (e :: es) := by
    intro v hv
    unfold json.parse at hv
    have hsk : json.skipSpace ([91] ++ (dq :: tl) ++ [93]) = 91 :: 34 :: (tl ++ [93]) := by
      simp only [List.singleton_append, List.cons_append, dq]
      exact skipSpace_cons 91 _ (by decide)
    rw [hsk, json.parseValue] at hv
    simp only [show ¬ ((91 : Nat) = 123) from by decide, if_false, if_true,
      show ¬ (0 ≥ json.maxNestingDepth) from by decide,
      skipSpace_cons 34 _ (by decide)] at hv
    split at hv
    · rename_i w rest hw
      split at hw
      · rename_i vs r hpe
        simp only [Option.some.injEq, Prod.mk.injEq] at hw
        have hne := parseElements_ne_nil _ _ _ _ _ hpe
        split at hv
        · simp only [Option.some.injEq] at hv
          cases vs with
          | nil => exact absurd rfl hne
          | cons e es => exact ⟨e, es, by rw [← hv, ← hw.1]⟩
        · simp at hv
      · simp at hw
    · simp at hv
  unfold json.UnmarshalStrings at h
  split at h
  · simp at h
  · rename_i hnull
    obtain ⟨e, es, he⟩ := hp _ hnull
    simp at he
  · rename_i elems hparse
    obtain ⟨e, es, he⟩ := hp _ hparse
    simp only [JValue.array.injEq] at he
    split at h
    · rename_i l hl
      simp only [Except.ok.injEq] at h
      obtain ⟨css, hcss, hlen⟩ := storeStrings_texts elems l hl
      rw [he] at hlen
      cases css with
      | nil => simp at hlen
      | cons cs css => exact ⟨cs, css, by rw [← h, hcss]⟩
    · simp at h
  · simp at h

/-- C9 as stated fails: with `SingleString = true` and the two elements `x` and `y`,
`MarshalJSON` emits the bare string `"x"`, not the JSON array of the two elements. -/
theorem C9_counterexample :
    (⟨some [ascii "x", ascii "y"], true⟩ : JSONStringSlice).MarshalJSON
      = .ok (quote (ascii "x")) ∧
    [ascii "x", ascii "y"].length ≠ 1 ∧
    quote (ascii "x") ≠ [91] ++ quote (ascii "x") ++ [44] ++ quote (ascii "y") ++ [93] ∧
    (quote (ascii "x")).head? ≠ some 91 := by
  refine ⟨?_, ?_, ?_, ?_⟩ <;> decide

/-- C9 (amended): `MarshalJSON` emits the bare JSON string of the first element of
`Slice` whenever `SingleString` is true and `Slice` is not empty (the single element when
there is exactly one); when `SingleString` is false it emits the JSON array of all the
elements of `Slice` in their order, and `null` for a nil `Slice`. The string written for
an element that holds the code points `cs` is a string literal whose text is `cs`, and
the array written for such elements is the array of these literals. -/
theorem C9_marshal (s : List Nat) (rest l : List (List Nat)) (cs : List Char)
    (css : List (List Char)) :
    (⟨some (s :: rest), true⟩ : JSONStringSlice).MarshalJSON = .ok (json.MarshalString s) ∧
    (⟨some [s], true⟩ : JSONStringSlice).MarshalJSON = .ok (json.MarshalString s) ∧
    (⟨some l, false⟩ : JSONStringSlice).MarshalJSON
      = .ok ([91] ++ json.joinElems (l.map json.MarshalString) ++ [93]) ∧
    (⟨none, false⟩ : JSONStringSlice).MarshalJSON = .ok (ascii "null") ∧
    json.MarshalString (utf8.encode cs) = renderLiteral (cs.map escToken) ∧
    literalText (cs.map escToken) = cs ∧
    (json.MarshalString s).head? = some dq ∧
    [91] ++ json.joinElems ((css.map utf8.encode).map json.MarshalString) ++ [93]
      = renderArray [] [] (css.map (fun cs => (⟨[], cs.map escToken, []⟩ : ArrayElem))) [] ∧
    (css.map (fun cs => (⟨[], cs.map escToken, []⟩ : ArrayElem))).map
      (fun e => literalText e.tokens) = css := by
  refine ⟨rfl, rfl, rfl, rfl, MarshalString_encode cs, literalText_escTokens cs, rfl, ?_, ?_⟩
  · exact MarshalStrings_texts css
  · simp only [List.map_map]
    conv_rhs => rw [← List.map_id css]
    apply List.map_congr_left
    intro x _
    simp [literalText_escTokens]

/-- C3 as stated fails on two inputs. The input `null` is decoded (to a nil `Slice`) and
encoded as `null`, which is neither a bare string nor the bracketed form. The input
`"a","b"` is decoded to the two elements `a`, `b` with `SingleString = true`; it is
encoded as the bare string `"a"` although it is not a single JSON string, and decoding
that output yields the one-element list `a`, not the decoded list. -/
theorem C3_counterexample :
    ((⟨none, false⟩ : JSONStringSlice).UnmarshalJSON (ascii "null") = .ok ⟨none, false⟩ ∧
      (⟨none, false⟩ : JSONStringSlice).MarshalJSON = .ok (ascii "null") ∧
      (ascii "null").head? ≠ some 91 ∧ (ascii "null").head? ≠ some dq) ∧
    ((⟨none, false⟩ : JSONStringSlice).UnmarshalJSON
        (quote (ascii "a") ++ [44] ++ quote (ascii "b"))
        = .ok ⟨some [ascii "a", ascii "b"], true⟩ ∧
      (⟨some [ascii "a", ascii "b"], true⟩ : JSONStringSlice).MarshalJSON
        = .ok (quote (ascii "a")) ∧
      (⟨none, false⟩ : JSONStringSlice).UnmarshalJSON (quote (ascii "a"))
        = .ok ⟨some [ascii "a"], true⟩ ∧
      [ascii "a"] ≠ [ascii "a", ascii "b"]) := by
  refine ⟨⟨?_, ?_, ?_, ?_⟩, ⟨?_, ?_, ?_, ?_⟩⟩ <;> decide

/-- C3 (amended): for every input that `JSONStringSlice.UnmarshalJSON` decodes
successfully into a zero value, `MarshalJSON` of the result succeeds. It emits a bare
JSON string, that of the first decoded element, exactly when the input begins with a
double quote (as every single JSON string does); otherwise it emits `null` when the
decoded `Slice` is nil and the bracketed array of all the elements when it is not.
Decoding that output into a zero value yields the same `SingleString` flag, and the same
list of strings in the same order whenever the input did not begin with a double quote
or the decoded list has exactly one element. -/
theorem C3_roundtrip (data : List Nat) (b : JSONStringSlice)
    (h : (⟨none, false⟩ : JSONStringSlice).UnmarshalJSON data = .ok b) :
    ∃ out, b.MarshalJSON = .ok out ∧
      (b.SingleString = true ↔ data.head? = some dq) ∧
      (out.head? = some dq ↔ data.head? = some dq) ∧
      (data.head? = some dq → ∃ s rest, b.Slice = some (s :: rest) ∧
        out = json.MarshalString s ∧
        (⟨none, false⟩ : JSONStringSlice).UnmarshalJSON out = .ok ⟨some [s], true⟩) ∧
      (data.head? ≠ some dq → (b.Slice = none ∧ out = ascii "null") ∨
        ∃ l, b.Slice = some l ∧ out = [91] ++ json.joinElems (l.map json.MarshalString) ++ [93]) ∧
      (data.head? ≠ some dq → (⟨none, false⟩ : JSONStringSlice).UnmarshalJSON out = .ok b) ∧
      (∀ s, b.Slice = some [s] → (⟨none, false⟩ : JSONStringSlice).UnmarshalJSON out = .ok b) := by
  cases data with
  | nil => simp [JSONStringSlice.UnmarshalJSON] at h
  | cons d0 tl =>
    by_cases hd : d0 = dq
    · subst hd
      unfold JSONStringSlice.UnmarshalJSON at h
      simp only [if_true] at h
      have hform : [91] ++ dq :: tl ++ [93] = 91 :: dq :: (tl ++ [93]) := rfl
      rw [hform] at h
      cases hU : json.UnmarshalStrings none (91 :: dq :: (tl ++ [93])) with
      | error e => simp [hU] at h
      | ok sl =>
        simp only [hU, Outcome.ok.injEq] at h
        obtain ⟨cs, css, hsl⟩ := UnmarshalStrings_wrapped tl sl (by rw [hform]; exact hU)
        subst hsl
        subst h
        refine ⟨json.MarshalString (utf8.encode cs), rfl, by simp, by simp [json.MarshalString],
          ?_, ?_, ?_, ?_⟩
        · intro _
          exact ⟨utf8.encode cs, css.map utf8.encode, rfl, rfl, unmarshal_MarshalString _ cs⟩
        · intro hne; exact absurd rfl hne
        · intro hne; exact absurd rfl hne
        · intro s hs
          simp only [List.map_cons, Option.some.injEq, List.cons.injEq] at hs
          rw [unmarshal_MarshalString]
          simp only [List.map_cons, hs.2]
    · unfold JSONStringSlice.UnmarshalJSON at h
      simp only [hd, if_false] at h
      have hhead : (d0 :: tl).head? ≠ some dq := by simpa using hd
      cases hU : json.UnmarshalStrings none (d0 :: tl) with
      | error e => simp [hU] at h
      | ok sl =>
        simp only [hU, Outcome.ok.injEq] at h
        subst h
        rcases UnmarshalStrings_ok _ sl hU with hnone | ⟨css, hsome⟩
        · subst hnone
          refine ⟨ascii "null", rfl, by simpa using hd, ?_, ?_, ?_, ?_, ?_⟩
          · constructor
            · intro hx; exact absurd hx (by decide)
            · intro hx; exact absurd hx hhead
          · intro hx; exact absurd hx hhead
          · intro _; exact Or.inl ⟨rfl, rfl⟩
          · intro _; decide
          · intro s hs; simp at hs
        · subst hsome
          have hre := unmarshal_MarshalStrings ⟨none, false⟩ css
          refine ⟨json.MarshalStrings (some (css.map utf8.encode)), rfl, by simpa using hd,
            ?_, ?_, ?_, ?_, ?_⟩
          · constructor
            · intro hx; exact absurd hx (by simp [json.MarshalStrings, dq])
            · intro hx; exact absurd hx hhead
          · intro hx; exact absurd hx hhead
          · intro _; exact Or.inr ⟨_, rfl, rfl⟩
          · intro _; exact hre
          · intro s _; exact hre

/-- The examples of C3: `"hello"` is decoded and encoded back to `"hello"`, and
`["a","b"]` to `["a","b"]`. -/
theorem C3_roundtrip_witness :
    (⟨none, false⟩ : JSONStringSlice).UnmarshalJSON (quote (ascii "hello"))
      = .ok ⟨some [ascii "hello"], true⟩ ∧
    (⟨some [ascii "hello"], true⟩ : JSONStringSlice).MarshalJSON = .ok (quote (ascii "hello")) ∧
    (⟨none, false⟩ : JSONStringSlice).UnmarshalJSON
        ([91] ++ quote (ascii "a") ++ [44] ++ quote (ascii "b") ++ [93])
      = .ok ⟨some [ascii "a", ascii "b"], false⟩ ∧
    (⟨some [ascii "a", ascii "b"], false⟩ : JSONStringSlice).MarshalJSON
      = .ok ([91] ++ quote (ascii "a") ++ [44] ++ quote (ascii "b") ++ [93]) ∧
    ∃ out, (⟨some [ascii "hello"], true⟩ : JSONStringSlice).MarshalJSON = .ok out ∧
      ((⟨some [ascii "hello"], true⟩ : JSONStringSlice).SingleString = true
        ↔ (quote (ascii "hello")).head? = some dq) ∧
      (out.head? = some dq ↔ (quote (ascii "hello")).head? = some dq) ∧
      ((quote (ascii "hello")).head? = some dq → ∃ s rest,
        (⟨some [ascii "hello"], true⟩ : JSONStringSlice).Slice = some (s :: rest) ∧
        out = json.MarshalString s ∧
        (⟨none, false⟩ : JSONStringSlice).UnmarshalJSON out = .ok ⟨some [s], true⟩) ∧
      ((quote (ascii "hello")).head? ≠ some dq →
        ((⟨some [ascii "hello"], true⟩ : JSONStringSlice).Slice = none ∧ out = ascii "null") ∨
        ∃ l, (⟨some [ascii "hello"], true⟩ : JSONStringSlice).Slice = some l ∧
          out = [91] ++ json.joinElems (l.map json.MarshalString) ++ [93]) ∧
      ((quote (ascii "hello")).head? ≠ some dq →
        (⟨none, false⟩ : JSONStringSlice).UnmarshalJSON out
          = .ok ⟨some [ascii "hello"], true⟩) ∧
      (∀ s, (⟨some [ascii "hello"], true⟩ : JSONStringSlice).Slice = some [s] →
        (⟨none, false⟩ : JSONStringSlice).UnmarshalJSON out
          = .ok ⟨some [ascii "hello"], true⟩) :=
  ⟨by decide, by decide, by decide, by decide,
    C3_roundtrip (quote (ascii "hello")) ⟨some [ascii "hello"], true⟩ (by decide)⟩

/-! ## `jsonInt`: encoding, failure -/

/-- The method `jsonInt.UnmarshalJSON` reads a numeral in a padding of double quotes and
spaces. -/
theorem jsonInt.unmarshal_padded (f : jsonInt) (n : Int) (pre post : List Nat)
    (h : inInt64 n) (hpre : ∀ b ∈ pre, b = dq ∨ b = 32) (hpost : ∀ b ∈ post, b = dq ∨ b = 32) :
    jsonInt.UnmarshalJSON f (pre ++ decimal n ++ post) = (n, none) := by
  have htrim : bytes.Trim (pre ++ decimal n ++ post) [dq, 32] = decimal n := by
    apply Trim_padded
    · intro b hb; simpa using hpre b hb
    · intro b hb; simpa using hpost b hb
    · intro b hb
      have := mem_decimal n b hb
      simp only [List.mem_cons, List.mem_singleton, List.not_mem_nil, or_false, dq]
      omega
  unfold jsonInt.UnmarshalJSON
  simp only [htrim, json.UnmarshalInt64, parse_decimal, ParseInt_decimal n h]

/-- C11: for every signed 64-bit integer `n`, `jsonInt.MarshalJSON` emits the decimal
numeral of `n`, which holds no double quote; in particular the value decoded from the
double-quoted numeral of `n` is encoded as the unquoted numeral. -/
theorem C11_jsonInt_marshal (f : jsonInt) (n : Int) (h : inInt64 n) :
    jsonInt.MarshalJSON n = .ok (decimal n) ∧
    dq ∉ decimal n ∧
    jsonInt.UnmarshalJSON f (quote (decimal n)) = (n, none) ∧
    jsonInt.MarshalJSON (jsonInt.UnmarshalJSON f (quote (decimal n))).1 = .ok (decimal n) ∧
    jsonInt.MarshalJSON (jsonInt.UnmarshalJSON f (quote (decimal n))).1
      ≠ .ok (quote (decimal n)) := by
  have hq : quote (decimal n) = [dq] ++ decimal n ++ [dq] := by simp [quote]
  have hdec : jsonInt.UnmarshalJSON f (quote (decimal n)) = (n, none) := by
    rw [hq]
    exact jsonInt.unmarshal_padded f n [dq] [dq] h (by simp) (by simp)
  have hm : jsonInt.MarshalJSON n = .ok (decimal n) := by
    simp [jsonInt.MarshalJSON, json.MarshalInt, FormatInt_eq_decimal n h]
  refine ⟨hm, dq_not_mem_decimal n, hdec, by rw [hdec]; exact hm, ?_⟩
  rw [hdec, hm]
  intro he
  simp only [Outcome.ok.injEq] at he
  have : dq ∈ decimal n := by rw [he]; simp [quote]
  exact dq_not_mem_decimal n this

/-- C11 at the numeral `-42`. -/
theorem C11_jsonInt_marshal_witness :
    inInt64 (-42) ∧
    jsonInt.MarshalJSON (-42) = .ok (decimal (-42)) ∧
    dq ∉ decimal (-42) ∧
    jsonInt.UnmarshalJSON 7 (quote (decimal (-42))) = (-42, none) ∧
    jsonInt.MarshalJSON (jsonInt.UnmarshalJSON 7 (quote (decimal (-42)))).1
      = .ok (decimal (-42)) ∧
    jsonInt.MarshalJSON (jsonInt.UnmarshalJSON 7 (quote (decimal (-42)))).1
      ≠ .ok (quote (decimal (-42))) :=
  ⟨by decide, C11_jsonInt_marshal 7 (-42) (by decide)⟩

/-- C20: for every input on which `jsonInt.UnmarshalJSON` returns an error and every
prior value of the receiver, the receiver is 0 after the call. -/
theorem C20_jsonInt_failure (f : jsonInt) (data : List Nat)
    (h : (jsonInt.UnmarshalJSON f data).2 ≠ none) :
    (jsonInt.UnmarshalJSON f data).1 = 0 := by
  unfold jsonInt.UnmarshalJSON at h ⊢
  dsimp only at h ⊢
  generalize bytes.Trim data [dq, 32] = r at h ⊢
  unfold json.UnmarshalInt64 at h ⊢
  cases hp : json.parse r with
  | none => simp
  | some v =>
    cases v with
    | number lit =>
      cases hn : strconv.ParseInt lit 64 with
      | ok n => simp [hp, hn] at h
      | error e => simp [hn]
    | null => simp
    | bool _ => simp
    | string _ => simp
    | array _ => simp
    | object _ => simp

/-- C20 at the input `abc` and the prior value 7: an error, and 0 in the receiver. -/
theorem C20_jsonInt_failure_witness :
    (jsonInt.UnmarshalJSON 7 (ascii "abc")).2 ≠ none ∧
    (jsonInt.UnmarshalJSON 7 (ascii "abc")).1 = 0 :=
  ⟨by decide, C20_jsonInt_failure 7 (ascii "abc") (by decide)⟩

/-! ## `ConvertibleBoolean`: rejected inputs -/

theorem filter_ne_self (s : List Nat) (c : Nat) (h : c ∉ s) :
    s.filter (fun b => b != c) = s := by
  rw [List.filter_eq_self]
  intro a ha
  have : a ≠ c := fun e => h (e ▸ ha)
  simpa using this

/-- A quoted form is its inner text between two double quotes. -/
theorem isQuotedForm_eq (s : List Nat) (h : isQuotedForm s = true) :
    s = quote ((s.drop 1).dropLast) := by
  simp only [isQuotedForm, Bool.decide_and, Bool.and_eq_true, decide_eq_true_eq] at h
  obtain ⟨hlen, hhead, hlast⟩ := h
  cases s with
  | nil => simp at hlen
  | cons a tl =>
    simp only [List.head?_cons, Option.some.injEq] at hhead
    subst hhead
    have htl : tl ≠ [] := by
      intro e; subst e; simp at hlen
    have hl2 : tl.getLast? = some dq := by
      cases tl with
      | nil => exact absurd rfl htl
      | cons b l => rw [List.getLast?_cons_cons] at hlast; exact hlast
    have hd : tl = tl.dropLast ++ [dq] := by
      have := List.dropLast_append_getLast? dq (by rw [hl2]; simp)
      exact this.symm
    simp only [List.drop_succ_cons, List.drop_zero, quote]
    rw [← hd]

/-- Removing every double quote and stripping one surrounding pair agree on an input
that holds no other double quote. -/
theorem Replace_eq_strip (data : List Nat) (h : dq ∉ stripQuotePair data) :
    strings.Replace data dq (-1) = stripQuotePair data := by
  unfold stripQuotePair at h ⊢
  by_cases hq : isQuotedForm data = true
  · simp only [hq, if_true] at h ⊢
    have he := isQuotedForm_eq data hq
    conv_lhs => rw [he]
    exact Replace_all_quote _ h
  · simp only [hq, if_false, Bool.false_eq_true] at h ⊢
    exact Replace_all_of_not_mem data dq h

/-- The method `ConvertibleBoolean.UnmarshalJSON` fails exactly on the inputs that are not
a boolean literal once every double quote is removed, and its error is the formatted
message that ends with that text. -/
theorem ConvertibleBoolean.unmarshal_error (bit : ConvertibleBoolean) (data : List Nat) :
    (strings.Replace data dq (-1) ∈ boolLiterals → (bit.UnmarshalJSON data).2 = none) ∧
    (strings.Replace data dq (-1) ∉ boolLiterals → (bit.UnmarshalJSON data).2
      = some (.errorf (ascii "Boolean unmarshal error: invalid input "
          ++ strings.Replace data dq (-1)))) := by
  unfold ConvertibleBoolean.UnmarshalJSON
  dsimp only
  generalize strings.Replace data dq (-1) = a
  simp only [boolLiterals, List.mem_cons, List.mem_singleton, List.not_mem_nil, or_false]
  constructor
  · intro h
    by_cases h1 : a = ascii "1" ∨ a = ascii "true"
    · simp only [h1, if_true]
    · have h0 : a = ascii "0" ∨ a = ascii "false" := by tauto
      simp only [h1, h0, if_true, if_false]
  · intro h
    have h1 : ¬ (a = ascii "1" ∨ a = ascii "true") := by tauto
    have h0 : ¬ (a = ascii "0" ∨ a = ascii "false") := by tauto
    simp only [h1, h0, if_false]

/-- C12 as stated fails: the five bytes `t"rue` are not a quoted form, so stripping a
surrounding pair leaves them as they are, which is none of the four literals; yet
`ConvertibleBoolean.UnmarshalJSON` removes the inner quote and succeeds with true. -/
theorem C12_counterexample :
    stripQuotePair [116, dq, 114, 117, 101] = [116, dq, 114, 117, 101] ∧
    stripQuotePair [116, dq, 114, 117, 101] ∉ boolLiterals ∧
    (⟨false, false⟩ : ConvertibleBoolean).UnmarshalJSON [116, dq, 114, 117, 101]
      = (⟨true, true⟩, none) := by
  refine ⟨by decide, by decide, by decide⟩

/-- C12 (amended): `ConvertibleBoolean.UnmarshalJSON` returns an error for every input
that, after removing every double-quote character it holds, is not exactly one of the
case-sensitive literals `0`, `1`, `true`, `false`, and for no other input; in particular
it returns an error for every input whose remainder after stripping one pair of
surrounding double quotes holds no further double quote and is not one of the
literals. -/
theorem C12_rejects (bit : ConvertibleBoolean) (data : List Nat) :
    ((bit.UnmarshalJSON data).2 ≠ none ↔ strings.Replace data dq (-1) ∉ boolLiterals) ∧
    (dq ∉ stripQuotePair data → stripQuotePair data ∉ boolLiterals →
      (bit.UnmarshalJSON data).2 ≠ none) := by
  obtain ⟨hok, herr⟩ := ConvertibleBoolean.unmarshal_error bit data
  have hiff : (bit.UnmarshalJSON data).2 ≠ none ↔ strings.Replace data dq (-1) ∉ boolLiterals := by
    constructor
    · intro h hin
      exact h (hok hin)
    · intro h
      rw [herr h]
      simp
  refine ⟨hiff, ?_⟩
  intro h1 h2
  rw [hiff, Replace_eq_strip data h1]
  exact h2

/-- C18 as stated fails: the six bytes `ma"ybe` are rejected with the message
`Boolean unmarshal error: invalid input maybe`, in which neither the input nor its
remainder after stripping a surrounding pair of quotes occurs; and the message for the
quoted input `"maybe"` is the same, without the quotes of the input. -/
theorem C18_counterexample :
    (⟨false, false⟩ : ConvertibleBoolean).UnmarshalJSON [109, 97, dq, 121, 98, 101]
      = (⟨false, true⟩,
          some (.errorf (ascii "Boolean unmarshal error: invalid input maybe"))) ∧
    ¬ ([109, 97, dq, 121, 98, 101] <:+: ascii "Boolean unmarshal error: invalid input maybe") ∧
    ¬ (stripQuotePair [109, 97, dq, 121, 98, 101]
        <:+: ascii "Boolean unmarshal error: invalid input maybe") ∧
    (⟨false, false⟩ : ConvertibleBoolean).UnmarshalJSON (quote (ascii "maybe"))
      = (⟨false, true⟩,
          some (.errorf (ascii "Boolean unmarshal error: invalid input maybe"))) ∧
    ¬ (quote (ascii "maybe") <:+: ascii "Boolean unmarshal error: invalid input maybe") := by
  refine ⟨by decide, by decide, by decide, by decide, by decide⟩

/-- C18 (amended): for every input that `ConvertibleBoolean.UnmarshalJSON` rejects, the
error is the message `Boolean unmarshal error: invalid input ` followed by the input
from which every double-quote character has been removed; so the message includes the
input itself when it holds no double quote, and the text between the quotes when the
input is a quoted form without further quotes. -/
theorem C18_message (bit : ConvertibleBoolean) (data : List Nat)
    (h : (bit.UnmarshalJSON data).2 ≠ none) :
    (bit.UnmarshalJSON data).2 = some (.errorf
      (ascii "Boolean unmarshal error: invalid input " ++ strings.Replace data dq (-1))) ∧
    strings.Replace data dq (-1)
      <:+: (ascii "Boolean unmarshal error: invalid input " ++ strings.Replace data dq (-1)) ∧
    (dq ∉ data → data
      <:+: (ascii "Boolean unmarshal error: invalid input " ++ strings.Replace data dq (-1))) ∧
    (dq ∉ stripQuotePair data → stripQuotePair data
      <:+: (ascii "Boolean unmarshal error: invalid input " ++ strings.Replace data dq (-1))) := by
  obtain ⟨hok, herr⟩ := ConvertibleBoolean.unmarshal_error bit data
  have hnot : strings.Replace data dq (-1) ∉ boolLiterals := fun hin => h (hok hin)
  have hsuf : strings.Replace data dq (-1)
      <:+: (ascii "Boolean unmarshal error: invalid input " ++ strings.Replace data dq (-1)) :=
    (List.suffix_append _ _).isInfix
  refine ⟨herr hnot, hsuf, ?_, ?_⟩
  · intro hd
    rw [Replace_all_of_not_mem data dq hd]
    exact (List.suffix_append _ _).isInfix
  · intro hd
    rw [Replace_eq_strip data hd]
    exact (List.suffix_append _ _).isInfix

/-- The example of C18: the quoted input `"maybe"` is rejected with a message that
includes `maybe`. -/
theorem C18_message_witness :
    ((⟨false, false⟩ : ConvertibleBoolean).UnmarshalJSON (quote (ascii "maybe"))).2 ≠ none ∧
    stripQuotePair (quote (ascii "maybe")) = ascii "maybe" ∧
    ((⟨false, false⟩ : ConvertibleBoolean).UnmarshalJSON (quote (ascii "maybe"))).2
      = some (.errorf (ascii "Boolean unmarshal error: invalid input "
          ++ strings.Replace (quote (ascii "maybe")) dq (-1))) ∧
    strings.Replace (quote (ascii "maybe")) dq (-1)
      <:+: (ascii "Boolean unmarshal error: invalid input "
          ++ strings.Replace (quote (ascii "maybe")) dq (-1)) ∧
    (dq ∉ quote (ascii "maybe") → quote (ascii "maybe")
      <:+: (ascii "Boolean unmarshal error: invalid input "
          ++ strings.Replace (quote (ascii "maybe")) dq (-1))) ∧
    (dq ∉ stripQuotePair (quote (ascii "maybe")) → stripQuotePair (quote (ascii "maybe"))
      <:+: (ascii "Boolean unmarshal error: invalid input "
          ++ strings.Replace (quote (ascii "maybe")) dq (-1))) :=
  ⟨by decide, by decide,
    C18_message ⟨false, false⟩ (quote (ascii "maybe")) (by decide)⟩

/-! ## `JSONStringSlice`: freshly decoded values -/

/-- What a successful `JSONStringSlice.UnmarshalJSON` into the zero value leaves: after
an input that begins with a double quote, a list of at least one text and
`SingleString = true`; after any other input, a nil slice or a list of texts and
`SingleString = false`. -/
theorem JSONStringSlice.unmarshal_zero_ok (data : List Nat) (b : JSONStringSlice)
    (h : (⟨none, false⟩ : JSONStringSlice).UnmarshalJSON data = .ok b) :
    (data.head? = some dq ∧ ∃ (cs : List Char) (css : List (List Char)),
      b = ⟨some ((cs :: css).map utf8.encode), true⟩) ∨
    (data ≠ [] ∧ data.head? ≠ some dq ∧
      (b = ⟨none, false⟩ ∨ ∃ css : List (List Char), b = ⟨some (css.map utf8.encode), false⟩)) := by
  cases data with
  | nil => simp [JSONStringSlice.UnmarshalJSON] at h
  | cons d0 tl =>
    by_cases hd : d0 = dq
    · subst hd
      left
      unfold JSONStringSlice.UnmarshalJSON at h
      simp only [if_true] at h
      have hform : [91] ++ dq :: tl ++ [93] = 91 :: dq :: (tl ++ [93]) := rfl
      rw [hform] at h
      cases hU : json.UnmarshalStrings none (91 :: dq :: (tl ++ [93])) with
      | error e => simp [hU] at h
      | ok sl =>
        simp only [hU, Outcome.ok.injEq] at h
        obtain ⟨cs, css, hsl⟩ := UnmarshalStrings_wrapped tl sl (by rw [hform]; exact hU)
        subst hsl
        exact ⟨rfl, cs, css, h.symm⟩
    · right
      unfold JSONStringSlice.UnmarshalJSON at h
      simp only [hd, if_false] at h
      refine ⟨by simp, by simpa using hd, ?_⟩
      cases hU : json.UnmarshalStrings none (d0 :: tl) with
      | error e => simp [hU] at h
      | ok sl =>
        simp only [hU, Outcome.ok.injEq] at h
        rcases UnmarshalStrings_ok _ sl hU with hnone | ⟨css, hsome⟩
        · left; rw [← h, hnone]
        · right; exact ⟨css, by rw [← h, hsome]⟩

/-- C19: every value obtained by a successful `JSONStringSlice.UnmarshalJSON` of a
non-empty input into a zero value has at least one element in `Slice` when
`SingleString` is true, so `MarshalJSON` of it does not panic on `Slice[0]` and returns
its bytes. -/
theorem C19_fresh_value (data : List Nat) (b : JSONStringSlice) (hne : data ≠ [])
    (h : (⟨none, false⟩ : JSONStringSlice).UnmarshalJSON data = .ok b) :
    (b.SingleString = true → ∃ s rest, b.Slice = some (s :: rest)) ∧
    b.MarshalJSON ≠ .panic ∧
    ∃ out, b.MarshalJSON = .ok out := by
  have _ := hne
  rcases JSONStringSlice.unmarshal_zero_ok data b h with
    ⟨-, cs, css, hb⟩ | ⟨-, -, hb | ⟨css, hb⟩⟩
  · subst hb
    exact ⟨fun _ => ⟨_, _, rfl⟩, by simp [JSONStringSlice.MarshalJSON],
      ⟨_, rfl⟩⟩
  · subst hb
    exact ⟨fun hx => by simp at hx, by simp [JSONStringSlice.MarshalJSON], ⟨_, rfl⟩⟩
  · subst hb
    exact ⟨fun hx => by simp at hx, by simp [JSONStringSlice.MarshalJSON], ⟨_, rfl⟩⟩

/-- C19 at the input `"hello"`. -/
theorem C19_fresh_value_witness :
    quote (ascii "hello") ≠ [] ∧
    (⟨none, false⟩ : JSONStringSlice).UnmarshalJSON (quote (ascii "hello"))
      = .ok ⟨some [ascii "hello"], true⟩ ∧
    (((⟨some [ascii "hello"], true⟩ : JSONStringSlice).SingleString = true →
        ∃ s rest, (⟨some [ascii "hello"], true⟩ : JSONStringSlice).Slice = some (s :: rest)) ∧
      (⟨some [ascii "hello"], true⟩ : JSONStringSlice).MarshalJSON ≠ .panic ∧
      ∃ out, (⟨some [ascii "hello"], true⟩ : JSONStringSlice).MarshalJSON = .ok out) :=
  ⟨by decide, by decide,
    C19_fresh_value (quote (ascii "hello")) ⟨some [ascii "hello"], true⟩ (by decide)
      (by decide)⟩

/-! ## `strconv`: the texts `Atoi` and `ParseInt` accept -/

theorem foldl_digit_ge_byte (ds : List Nat) (n : Nat) :
    n ≤ ds.foldl (fun a c => a * 10 + (c - 48)) n := by
  induction ds generalizing n with
  | nil => simp
  | cons d ds ih =>
    simp only [List.foldl_cons]
    exact le_trans (by omega) (ih (n * 10 + (d - 48)))

theorem foldl_digit_lt (ds : List Nat) (hd : ∀ c ∈ ds, 48 ≤ c ∧ c ≤ 57) (n : Nat) :
    ds.foldl (fun a c => a * 10 + (c - 48)) n < (n + 1) * 10 ^ ds.length := by
  induction ds generalizing n with
  | nil => simp
  | cons d ds ih =>
    have hd1 := hd d (by simp)
    have h1 := ih (fun x hx => hd x (by simp [hx])) (n * 10 + (d - 48))
    simp only [List.foldl_cons, List.length_cons]
    have h2 : n * 10 + (d - 48) + 1 ≤ (n + 1) * 10 := by omega
    calc List.foldl (fun a c => a * 10 + (c - 48)) (n * 10 + (d - 48)) ds
        < (n * 10 + (d - 48) + 1) * 10 ^ ds.length := h1
      _ ≤ ((n + 1) * 10) * 10 ^ ds.length := Nat.mul_le_mul_right _ h2
      _ = (n + 1) * 10 ^ (ds.length + 1) := by rw [pow_succ]; ring

theorem atoiFastLoop_iff (ds : List Nat) (hb : ∀ c ∈ ds, c < 256) (n m : Nat) :
    atoiFastLoop ds n = some m ↔
      (∀ c ∈ ds, 48 ≤ c ∧ c ≤ 57) ∧ m = ds.foldl (fun a c => a * 10 + (c - 48)) n := by
  induction ds generalizing n with
  | nil =>
    simp only [atoiFastLoop, Option.some.injEq, List.not_mem_nil, false_implies, implies_true,
      true_and, List.foldl_nil]
    exact eq_comm
  | cons c ds ih =>
    have hc : c < 256 := hb c (by simp)
    have ih' := fun n => ih (fun x hx => hb x (by simp [hx])) n
    unfold atoiFastLoop
    by_cases hd : 48 ≤ c ∧ c ≤ 57
    · have e : (c + 256 - 48) % 256 = c - 48 := by omega
      have c9 : ¬ (c - 48 > 9) := by omega
      simp only [e, c9, if_false, ih', List.mem_cons, forall_eq_or_imp, hd, true_and,
        List.foldl_cons, and_self]
    · have c9 : (c + 256 - 48) % 256 > 9 := by omega
      simp only [c9, if_true, List.mem_cons, forall_eq_or_imp, hd, false_and]
      simp

theorem parseUintLoop_iff (ds : List Nat) (n m : Nat) (hn : n < 2 ^ 64) :
    parseUintLoop 64 ds n = .ok m ↔
      (∀ c ∈ ds, 48 ≤ c ∧ c ≤ 57) ∧ m = ds.foldl (fun a c => a * 10 + (c - 48)) n
        ∧ m < 2 ^ 64 := by
  induction ds generalizing n with
  | nil =>
    simp only [parseUintLoop, Except.ok.injEq, List.not_mem_nil, false_implies, implies_true,
      true_and, List.foldl_nil]
    constructor
    · intro h; subst h; exact ⟨rfl, hn⟩
    · intro h; exact h.1.symm
  | cons c ds ih =>
    unfold parseUintLoop
    by_cases hd : 48 ≤ c ∧ c ≤ 57
    · simp only [hd, and_self, if_true, List.mem_cons, forall_eq_or_imp, true_and,
        List.foldl_cons]
      by_cases h1 : n ≥ (2 ^ 64 - 1) / 10 + 1
      · simp only [h1, if_true]
        constructor
        · intro h; simp at h
        · intro ⟨_, hm, hlt⟩
          have := foldl_digit_ge_byte ds (n * 10 + (c - 48))
          rw [← hm] at this
          norm_num at h1 hlt
          omega
      · simp only [h1, if_false]
        by_cases h2 : n * 10 + (c - 48) > 2 ^ 64 - 1
        · simp only [h2, if_true]
          constructor
          · intro h; simp at h
          · intro ⟨_, hm, hlt⟩
            have := foldl_digit_ge_byte ds (n * 10 + (c - 48))
            rw [← hm] at this
            norm_num at h2 hlt
            omega
        · simp only [h2, if_false]
          exact ih (n * 10 + (c - 48)) (by norm_num at h2 ⊢; omega)
    · simp only [hd, if_false, List.mem_cons, forall_eq_or_imp, false_and]
      simp

theorem isSignedDecimal_iff (s : List Nat) :
    isSignedDecimal s = true ↔
      signedDigits s ≠ [] ∧ ∀ c ∈ signedDigits s, 48 ≤ c ∧ c ≤ 57 := by
  simp [isSignedDecimal, List.isEmpty_iff]

theorem signedDigits_cons (c : Nat) (rest : List Nat) :
    signedDigits (c :: rest) = if c = 43 ∨ c = 45 then rest else c :: rest := rfl

theorem signedDecimalValue_cons (c : Nat) (rest : List Nat) :
    signedDecimalValue (c :: rest)
      = if c = 45 then -(digitsValue (signedDigits (c :: rest)) : Int)
        else (digitsValue (signedDigits (c :: rest)) : Int) := by
  simp [signedDecimalValue]

/-- The texts `strconv.ParseInt(s, 10, 64)` accepts are the signed decimal texts whose
value is an `int64`, and it returns that value. -/
theorem ParseInt_ok_iff (s : List Nat) (v : Int) :
    strconv.ParseInt s 64 = .ok v ↔
      isSignedDecimal s = true ∧ inInt64 (signedDecimalValue s) ∧ v = signedDecimalValue s := by
  cases s with
  | nil => simp [strconv.ParseInt, isSignedDecimal, signedDigits]
  | cons c rest =>
    rw [isSignedDecimal_iff, signedDecimalValue_cons, signedDigits_cons]
    unfold strconv.ParseInt strconv.ParseUint
    dsimp only
    generalize hds : (if c = 43 ∨ c = 45 then rest else c :: rest) = ds
    by_cases hnil : ds = []
    · simp [hnil]
    · simp only [hnil, if_false, ne_eq, not_false_eq_true, true_and]
      have hiff := parseUintLoop_iff ds 0 (digitsValue ds) (by norm_num)
      cases hP : parseUintLoop 64 ds 0 with
      | error k =>
        have hno : ¬ ((∀ c ∈ ds, 48 ≤ c ∧ c ≤ 57) ∧ digitsValue ds < 2 ^ 64) := by
          intro ⟨h1, h2⟩
          have := hiff.mpr ⟨h1, rfl, h2⟩
          rw [hP] at this
          exact Except.noConfusion this
        constructor
        · intro h
          cases k <;> simp at h
        · intro ⟨hall, hin, _⟩
          exfalso
          apply hno
          refine ⟨hall, ?_⟩
          unfold inInt64 at hin
          norm_num at hin ⊢
          split at hin <;> omega
      | ok un =>
        obtain ⟨hall, hun, hlt⟩ := (parseUintLoop_iff ds 0 un (by norm_num)).mp hP
        have hun' : un = digitsValue ds := hun
        subst hun'
        unfold inInt64
        by_cases hneg : c = 45
        · simp only [hneg, not_true_eq_false, false_and, if_false, true_and, if_true]
          by_cases hr : digitsValue ds > 2 ^ (64 - 1)
          · simp only [hr, if_true]
            constructor
            · intro h; simp at h
            · intro ⟨_, hin, _⟩
              norm_num at hr hin
              omega
          · simp only [hr, if_false, Except.ok.injEq]
            constructor
            · intro h
              norm_num at hr
              refine ⟨hall, ⟨by omega, by omega⟩, h.symm⟩
            · intro ⟨_, _, h⟩; exact h.symm
        · simp only [hneg, not_false_eq_true, true_and, false_and, if_false]
          by_cases hr : digitsValue ds ≥ 2 ^ (64 - 1)
          · simp only [hr, if_true]
            constructor
            · intro h; simp at h
            · intro ⟨_, hin, _⟩
              norm_num at hr hin
              omega
          · simp only [hr, if_false, Except.ok.injEq]
            constructor
            · intro h
              norm_num at hr
              refine ⟨hall, ⟨by omega, by omega⟩, h.symm⟩
            · intro ⟨_, _, h⟩; exact h.symm

/-- The texts `strconv.Atoi` accepts are the signed decimal texts whose value is an
`int64` (Go's `int`), and it returns that value. -/
theorem Atoi_ok_iff (s : List Nat) (hb : ∀ c ∈ s, c < 256) (v : Int) :
    strconv.Atoi s = .ok v ↔
      isSignedDecimal s = true ∧ inInt64 (signedDecimalValue s) ∧ v = signedDecimalValue s := by
  unfold strconv.Atoi
  by_cases hlen : 0 < s.length ∧ s.length < 19
  · simp only [hlen, and_self, if_true]
    cases s with
    | nil => simp at hlen
    | cons c rest =>
      rw [isSignedDecimal_iff, signedDecimalValue_cons, signedDigits_cons]
      dsimp only
      have hor : (c = 45 ∨ c = 43) ↔ (c = 43 ∨ c = 45) := or_comm
      simp only [hor]
      generalize hds : (if c = 43 ∨ c = 45 then rest else c :: rest) = ds
      have hdb : ∀ x ∈ ds, x < 256 := by
        intro x hx
        rw [← hds] at hx
        split at hx
        · exact hb x (by simp [hx])
        · exact hb x hx
      have hdl : ds.length ≤ 18 := by
        rw [← hds]
        simp only [List.length_cons] at hlen
        split
        · omega
        · simp only [List.length_cons]; omega
      by_cases hnil : ds = []
      · simp [hnil]
      · have hl1 : ¬ (ds.length < 1) := by
          cases ds with
          | nil => exact absurd rfl hnil
          | cons _ _ => simp
        simp only [hl1, if_false, ne_eq, hnil, not_false_eq_true, true_and]
        cases hF : atoiFastLoop ds 0 with
        | none =>
          have hno : ¬ (∀ c ∈ ds, 48 ≤ c ∧ c ≤ 57) := by
            intro h1
            have := (atoiFastLoop_iff ds hdb 0 (digitsValue ds)).mpr ⟨h1, rfl⟩
            rw [hF] at this
            exact Option.noConfusion this
          constructor
          · intro h; simp at h
          · intro ⟨hall, _, _⟩; exact absurd hall hno
        | some n =>
          obtain ⟨hall, hn⟩ := (atoiFastLoop_iff ds hdb 0 n).mp hF
          have hn' : n = digitsValue ds := hn
          subst hn'
          have hlt := foldl_digit_lt ds hall 0
          have hpow : 10 ^ ds.length ≤ 10 ^ 18 := Nat.pow_le_pow_right (by norm_num) hdl
          have hv : digitsValue ds < 10 ^ 18 := by
            have : digitsValue ds < (0 + 1) * 10 ^ ds.length := hlt
            omega
          simp only [Except.ok.injEq]
          unfold inInt64
          norm_num at hv
          constructor
          · intro h
            refine ⟨hall, ?_, h.symm⟩
            split <;> constructor <;> omega
          · intro ⟨_, _, h⟩; exact h.symm
  · simp only [hlen, if_false]
    rw [← ParseInt_ok_iff]
    cases strconv.ParseInt s 64 with
    | error k => simp
    | ok i => simp

/-- The decimal numeral of an integer is a signed decimal text with that value. -/
theorem decimal_signed (i : Int) (h : inInt64 i) :
    isSignedDecimal (decimal i) = true ∧ signedDecimalValue (decimal i) = i := by
  have := (ParseInt_ok_iff (decimal i) i).mp (ParseInt_decimal i h)
  exact ⟨this.1, this.2.2.symm⟩

/-! ## `Timestamp`: rejected inputs -/

/-- The method `Timestamp.UnmarshalJSON` fails exactly when `strconv.Atoi` rejects the
input without its double quotes. -/
theorem Timestamp.unmarshal_error_iff (t : Timestamp) (b : List Nat) :
    (t.UnmarshalJSON b).2 ≠ none ↔
      ∀ v, strconv.Atoi (strings.Replace b dq (-1)) ≠ .ok v := by
  unfold Timestamp.UnmarshalJSON
  dsimp only
  cases strconv.Atoi (strings.Replace b dq (-1)) with
  | error e => simp
  | ok ts => simp

theorem Replace_lt (b : List Nat) (hb : ∀ c ∈ b, c < 256) :
    ∀ c ∈ strings.Replace b dq (-1), c < 256 := by
  intro c hc
  simp only [strings.Replace, show ((-1 : Int) < 0) from by decide, if_true] at hc
  exact hb c (List.mem_filter.mp hc).1

/-- C13 as stated fails: the three bytes `1"2` are not a quoted form and are not a
base-10 integer, yet `Timestamp.UnmarshalJSON` removes the quote, reads 12 and
succeeds. -/
theorem C13_counterexample :
    stripQuotePair [49, dq, 50] = [49, dq, 50] ∧
    isSignedDecimal (stripQuotePair [49, dq, 50]) = false ∧
    (⟨⟨0, 0⟩, false⟩ : Timestamp).UnmarshalJSON [49, dq, 50]
      = (⟨time.Unix 12 0, true⟩, none) := by
  refine ⟨by decide, by decide, by decide⟩

/-- C13 (amended): `Timestamp.UnmarshalJSON` returns an error for every input whose
remainder, after removing every double-quote character it holds, is not a base-10
signed integer (an optional sign `+` or `-` and one or more decimal digits) within the
range of `int64`, and for no other input; in particular it returns an error for every
input whose remainder after stripping one pair of surrounding double quotes holds no
further double quote and is not such an integer. -/
theorem C13_rejects (t : Timestamp) (b : List Nat) (hb : ∀ c ∈ b, c < 256) :
    ((t.UnmarshalJSON b).2 ≠ none ↔
      ¬ (isSignedDecimal (strings.Replace b dq (-1)) = true
        ∧ inInt64 (signedDecimalValue (strings.Replace b dq (-1))))) ∧
    (dq ∉ stripQuotePair b →
      ¬ (isSignedDecimal (stripQuotePair b) = true
        ∧ inInt64 (signedDecimalValue (stripQuotePair b))) →
      (t.UnmarshalJSON b).2 ≠ none) := by
  have hiff : (t.UnmarshalJSON b).2 ≠ none ↔
      ¬ (isSignedDecimal (strings.Replace b dq (-1)) = true
        ∧ inInt64 (signedDecimalValue (strings.Replace b dq (-1)))) := by
    rw [Timestamp.unmarshal_error_iff]
    constructor
    · intro h ⟨h1, h2⟩
      exact h _ ((Atoi_ok_iff _ (Replace_lt b hb) _).mpr ⟨h1, h2, rfl⟩)
    · intro h v hv
      have := (Atoi_ok_iff _ (Replace_lt b hb) v).mp hv
      exact h ⟨this.1, this.2.1⟩
  refine ⟨hiff, ?_⟩
  intro h1 h2
  rw [hiff, Replace_eq_strip b h1]
  exact h2

/-- C13 at the quoted input `"12x"`, which is rejected. -/
theorem C13_rejects_witness :
    (∀ c ∈ quote (ascii "12x"), c < 256) ∧
    ((((⟨⟨0, 0⟩, false⟩ : Timestamp).UnmarshalJSON (quote (ascii "12x"))).2 ≠ none ↔
      ¬ (isSignedDecimal (strings.Replace (quote (ascii "12x")) dq (-1)) = true
        ∧ inInt64 (signedDecimalValue (strings.Replace (quote (ascii "12x")) dq (-1))))) ∧
    (dq ∉ stripQuotePair (quote (ascii "12x")) →
      ¬ (isSignedDecimal (stripQuotePair (quote (ascii "12x"))) = true
        ∧ inInt64 (signedDecimalValue (stripQuotePair (quote (ascii "12x"))))) →
      ((⟨⟨0, 0⟩, false⟩ : Timestamp).UnmarshalJSON (quote (ascii "12x"))).2 ≠ none)) ∧
    ((⟨⟨0, 0⟩, false⟩ : Timestamp).UnmarshalJSON (quote (ascii "12x"))).2 ≠ none :=
  ⟨by decide, C13_rejects ⟨⟨0, 0⟩, false⟩ (quote (ascii "12x")) (by decide), by decide⟩

/-! ## `encoding/json`: what the reader accepts as a number or as `null` -/

theorem scanExponent_sound (lit input l r : List Nat)
    (h : json.scanExponent lit input = some (l, r)) : lit ++ input = l ++ r := by
  unfold json.scanExponent at h
  split at h
  · rename_i e r0
    split at h
    · split at h
      · rename_i sg r1
        split at h
        · split at h
          · simp at h
          · simp only [Option.some.injEq, Prod.mk.injEq] at h
            obtain ⟨rfl, rfl⟩ := h
            simp [List.takeWhile_append_dropWhile]
        · split at h
          · simp at h
          · simp only [Option.some.injEq, Prod.mk.injEq] at h
            obtain ⟨rfl, rfl⟩ := h
            simp [List.takeWhile_append_dropWhile]
      · simp at h
    · simp only [Option.some.injEq, Prod.mk.injEq] at h
      obtain ⟨rfl, rfl⟩ := h
      rfl
  · simp only [Option.some.injEq, Prod.mk.injEq] at h
    obtain ⟨rfl, rfl⟩ := h
    rfl

theorem scanFraction_sound (lit input l r : List Nat)
    (h : json.scanFraction lit input = some (l, r)) : lit ++ input = l ++ r := by
  unfold json.scanFraction at h
  split at h
  · rename_i r0
    split at h
    · simp at h
    · have := scanExponent_sound _ _ _ _ h
      rw [← this]
      simp [List.takeWhile_append_dropWhile]
  · exact scanExponent_sound _ _ _ _ h

theorem scanNumber_sound (input l r : List Nat)
    (h : json.scanNumber input = some (l, r)) : input = l ++ r := by
  unfold json.scanNumber at h
  split at h
  · rename_i c r0
    split at h
    · rename_i hc
      have := scanFraction_sound _ _ _ _ h
      rw [← this, hc]; rfl
    · split at h
      · have := scanFraction_sound _ _ _ _ h
        rw [← this]
        simp [List.takeWhile_append_dropWhile]
      · simp at h
  · rename_i c r0 _
    split at h
    · rename_i hc
      have := scanFraction_sound _ _ _ _ h
      rw [← this, hc]; rfl
    · split at h
      · have := scanFraction_sound _ _ _ _ h
        rw [← this]
        simp [List.takeWhile_append_dropWhile]
      · simp at h
  · simp at h

theorem parseValue_scalar_sound (fuel depth : Nat) (input : List Nat) (v : JValue)
    (rest : List Nat) (h : json.parseValue fuel depth input = some (v, rest)) :
    (∀ lit, v = .number lit → input = lit ++ rest) ∧
    (v = .null → input = ascii "null" ++ rest) := by
  cases fuel with
  | zero => simp [json.parseValue] at h
  | succ f =>
    cases input with
    | nil => simp [json.parseValue] at h
    | cons c tl =>
      rw [json.parseValue] at h
      split at h
      · split at h
        · simp at h
        · split at h
          · simp only [Option.some.injEq, Prod.mk.injEq] at h
            obtain ⟨rfl, -⟩ := h
            exact ⟨fun _ hl => by simp at hl, fun hl => by simp at hl⟩
          · split at h
            · simp only [Option.some.injEq, Prod.mk.injEq] at h
              obtain ⟨rfl, -⟩ := h
              exact ⟨fun _ hl => by simp at hl, fun hl => by simp at hl⟩
            · simp at h
      · split at h
        · split at h
          · simp at h
          · split at h
            · simp only [Option.some.injEq, Prod.mk.injEq] at h
              obtain ⟨rfl, -⟩ := h
              exact ⟨fun _ hl => by simp at hl, fun hl => by simp at hl⟩
            · split at h
              · simp only [Option.some.injEq, Prod.mk.injEq] at h
                obtain ⟨rfl, -⟩ := h
                exact ⟨fun _ hl => by simp at hl, fun hl => by simp at hl⟩
              · simp at h
        · split at h
          · split at h
            · simp only [Option.some.injEq, Prod.mk.injEq] at h
              obtain ⟨rfl, -⟩ := h
              exact ⟨fun _ hl => by simp at hl, fun hl => by simp at hl⟩
            · simp at h
          · split at h
            · split at h
              · rename_i lit r hs
                simp only [Option.some.injEq, Prod.mk.injEq] at h
                obtain ⟨rfl, rfl⟩ := h
                refine ⟨fun l hl => ?_, fun hl => by simp at hl⟩
                simp only [JValue.number.injEq] at hl
                subst hl
                exact scanNumber_sound _ _ _ hs
              · simp at h
            · split at h
              · simp only [Option.some.injEq, Prod.mk.injEq] at h
                obtain ⟨rfl, -⟩ := h
                exact ⟨fun _ hl => by simp at hl, fun hl => by simp at hl⟩
              · simp only [Option.some.injEq, Prod.mk.injEq] at h
                obtain ⟨rfl, -⟩ := h
                exact ⟨fun _ hl => by simp at hl, fun hl => by simp at hl⟩
              · rename_i heq
                simp only [Option.some.injEq, Prod.mk.injEq] at h
                obtain ⟨rfl, rfl⟩ := h
                refine ⟨fun _ hl => by simp at hl, fun _ => ?_⟩
                rw [heq]; rfl
              · simp at h

theorem isSpace_eq (b : Nat) : json.isSpace b = isJsonSpace b := by
  simp only [json.isSpace, isJsonSpace]
  by_cases h1 : b = 32 <;> by_cases h2 : b = 9 <;> by_cases h3 : b = 13 <;>
    by_cases h4 : b = 10 <;> simp [h1, h2, h3, h4]

/-- A text the reader accepts is white space, one value, white space. -/
theorem parse_split (r : List Nat) (v : JValue) (h : json.parse r = some v) :
    ∃ ws1 body ws2 fuel, r = ws1 ++ body ∧
      (∀ b ∈ ws1, isJsonSpace b = true) ∧ (∀ b ∈ ws2, isJsonSpace b = true) ∧
      json.parseValue fuel 0 body = some (v, ws2) := by
  unfold json.parse at h
  split at h
  · rename_i v' rest hpv
    split at h
    · rename_i hsp
      simp only [Option.some.injEq] at h
      subst h
      refine ⟨r.takeWhile json.isSpace, json.skipSpace r, rest, _, ?_, ?_, ?_, hpv⟩
      · exact (List.takeWhile_append_dropWhile _ r).symm
      · intro b hb
        have := List.mem_takeWhile_imp hb
        rwa [isSpace_eq] at this
      · intro b hb
        have := (List.dropWhile_eq_nil_iff.mp hsp) b hb
        rwa [isSpace_eq] at this
    · simp at h
  · simp at h

theorem parse_number_sound (r lit : List Nat) (h : json.parse r = some (.number lit)) :
    ∃ ws1 ws2, r = ws1 ++ lit ++ ws2 ∧
      (∀ b ∈ ws1, isJsonSpace b = true) ∧ (∀ b ∈ ws2, isJsonSpace b = true) := by
  obtain ⟨ws1, body, ws2, fuel, hr, h1, h2, hpv⟩ := parse_split r _ h
  have := (parseValue_scalar_sound fuel 0 body _ ws2 hpv).1 lit rfl
  exact ⟨ws1, ws2, by rw [hr, this, List.append_assoc], h1, h2⟩

theorem parse_null_sound (r : List Nat) (h : json.parse r = some .null) :
    ∃ ws1 ws2, r = ws1 ++ ascii "null" ++ ws2 ∧
      (∀ b ∈ ws1, isJsonSpace b = true) ∧ (∀ b ∈ ws2, isJsonSpace b = true) := by
  obtain ⟨ws1, body, ws2, fuel, hr, h1, h2, hpv⟩ := parse_split r _ h
  have := (parseValue_scalar_sound fuel 0 body _ ws2 hpv).2 rfl
  exact ⟨ws1, ws2, by rw [hr, this, List.append_assoc], h1, h2⟩

/-! ## `jsonInt`: rejected inputs -/

/-- What `jsonInt.UnmarshalJSON` has read when it returns no error: after the trimming,
the literal `null` (and then it leaves 0) or a signed decimal integer within `int64`
(and then it leaves its value), in either case inside JSON white space. -/
theorem jsonInt.unmarshal_ok_shape (f : jsonInt) (data : List Nat)
    (h : (jsonInt.UnmarshalJSON f data).2 = none) :
    ∃ ws1 core ws2, bytes.Trim data [dq, 32] = ws1 ++ core ++ ws2 ∧
      (∀ b ∈ ws1, isJsonSpace b = true) ∧ (∀ b ∈ ws2, isJsonSpace b = true) ∧
      ((core = ascii "null" ∧ (jsonInt.UnmarshalJSON f data).1 = 0) ∨
        (isSignedDecimal core = true ∧ inInt64 (signedDecimalValue core) ∧
          (jsonInt.UnmarshalJSON f data).1 = signedDecimalValue core)) := by
  unfold jsonInt.UnmarshalJSON at h ⊢
  dsimp only at h ⊢
  generalize bytes.Trim data [dq, 32] = r at h ⊢
  unfold json.UnmarshalInt64 at h ⊢
  cases hp : json.parse r with
  | none => simp [hp] at h
  | some v =>
    cases v with
    | number lit =>
      obtain ⟨ws1, ws2, hr, h1, h2⟩ := parse_number_sound r lit hp
      cases hn : strconv.ParseInt lit 64 with
      | ok n =>
        have := (ParseInt_ok_iff lit n).mp hn
        refine ⟨ws1, lit, ws2, hr, h1, h2, Or.inr ⟨this.1, this.2.1, ?_⟩⟩
        simp only [hn]
        exact this.2.2
      | error e => simp [hp, hn] at h
    | null =>
      obtain ⟨ws1, ws2, hr, h1, h2⟩ := parse_null_sound r hp
      exact ⟨ws1, _, ws2, hr, h1, h2, Or.inl ⟨rfl, by simp⟩⟩
    | bool _ => simp [hp] at h
    | string _ => simp [hp] at h
    | array _ => simp [hp] at h
    | object _ => simp [hp] at h

/-- C14 as stated fails: the remainder `null` is not a base-10 integer, yet
`jsonInt.UnmarshalJSON` returns no error and puts the default 0 in a receiver that held
7; and the remainder of a numeral between a tab and a line feed is not a base-10 integer
either, yet it is read as that numeral. -/
theorem C14_counterexample :
    (bytes.Trim (ascii "null") [dq, 32] = ascii "null" ∧
      isSignedDecimal (ascii "null") = false ∧
      jsonInt.UnmarshalJSON 7 (ascii "null") = (0, none)) ∧
    (bytes.Trim [9, 49, 50, 10] [dq, 32] = [9, 49, 50, 10] ∧
      isSignedDecimal [9, 49, 50, 10] = false ∧
      jsonInt.UnmarshalJSON 7 [9, 49, 50, 10] = (12, none)) := by
  refine ⟨⟨by decide, by decide, by decide⟩, ⟨by decide, by decide, by decide⟩⟩

/-- C14 (amended): `jsonInt.UnmarshalJSON` returns an error for every input whose
remainder, after trimming double-quote characters and ASCII spaces from both ends, is
neither the literal `null` nor a base-10 signed integer within `int64`, each possibly
between JSON white space (space, tab, line feed, carriage return). When it returns no
error the receiver holds the value of that integer, or 0 for `null`: the literal `null`
is the one remainder for which a default value is put in silently. -/
theorem C14_rejects (f : jsonInt) (data : List Nat) :
    ((∀ ws1 core ws2, bytes.Trim data [dq, 32] = ws1 ++ core ++ ws2 →
        (∀ b ∈ ws1, isJsonSpace b = true) → (∀ b ∈ ws2, isJsonSpace b = true) →
        core ≠ ascii "null" ∧
          ¬ (isSignedDecimal core = true ∧ inInt64 (signedDecimalValue core))) →
      (jsonInt.UnmarshalJSON f data).2 ≠ none) ∧
    ((jsonInt.UnmarshalJSON f data).2 = none →
      ∃ ws1 core ws2, bytes.Trim data [dq, 32] = ws1 ++ core ++ ws2 ∧
        (∀ b ∈ ws1, isJsonSpace b = true) ∧ (∀ b ∈ ws2, isJsonSpace b = true) ∧
        ((core = ascii "null" ∧ (jsonInt.UnmarshalJSON f data).1 = 0) ∨
          (isSignedDecimal core = true ∧ inInt64 (signedDecimalValue core) ∧
            (jsonInt.UnmarshalJSON f data).1 = signedDecimalValue core))) ∧
    jsonInt.UnmarshalJSON f (ascii "null") = (0, none) := by
  refine ⟨?_, jsonInt.unmarshal_ok_shape f data, rfl⟩
  intro hall hnone
  obtain ⟨ws1, core, ws2, hr, h1, h2, hc⟩ := jsonInt.unmarshal_ok_shape f data hnone
  obtain ⟨hnull, hint⟩ := hall ws1 core ws2 hr h1 h2
  rcases hc with ⟨hc, -⟩ | ⟨hc1, hc2, -⟩
  · exact hnull hc
  · exact hint ⟨hc1, hc2⟩

/-! ## `JSONStringSlice`: rejected inputs -/

theorem storeString_ok_iff (old : List Nat) (v : JValue) :
    (∃ s, json.storeString old v = .ok s) ↔ v.isStringOrNull = true := by
  cases v <;> simp [json.storeString, JValue.isStringOrNull]

theorem storeStrings_ok_iff (elems : List JValue) :
    ∀ prior, (∃ l, json.storeStrings prior elems = .ok l)
      ↔ elems.all JValue.isStringOrNull = true := by
  induction elems with
  | nil => intro prior; simp [json.storeStrings]
  | cons v vs ih =>
    intro prior
    have ihv := ih prior.tail
    have hv := storeString_ok_iff (prior.headD []) v
    simp only [json.storeStrings, List.all_cons, Bool.and_eq_true]
    cases h1 : json.storeString (prior.headD []) v with
    | error e =>
      have : ¬ v.isStringOrNull = true := by
        intro hx
        obtain ⟨s, hs⟩ := hv.mpr hx
        rw [h1] at hs
        exact Except.noConfusion hs
      simp [this]
    | ok s =>
      have hvt : v.isStringOrNull = true := hv.mp ⟨s, h1⟩
      cases h2 : json.storeStrings prior.tail vs with
      | error e =>
        have : ¬ vs.all JValue.isStringOrNull = true := by
          intro hx
          obtain ⟨l, hl⟩ := ihv.mpr hx
          rw [h2] at hl
          exact Except.noConfusion hl
        simp [this]
      | ok l =>
        have := ihv.mp ⟨l, h2⟩
        simp [hvt, this]

/-- Go `json.Unmarshal` into a `[]string` returns an error exactly for a text that is
not one JSON value, or whose value is neither `null` nor an array of strings and
`null`s. -/
theorem UnmarshalStrings_error_iff (prior : Option (List (List Nat))) (text : List Nat) :
    (∃ e, json.UnmarshalStrings prior text = .error e) ↔
      (json.parse text = none ∨ ∃ v, json.parse text = some v ∧ v.fitsStrings = false) := by
  unfold json.UnmarshalStrings
  cases hp : json.parse text with
  | none => simp
  | some v =>
    cases v with
    | null => simp [JValue.fitsStrings]
    | array elems =>
      have hs := storeStrings_ok_iff elems (prior.getD [])
      simp only [JValue.fitsStrings, false_or, Option.some.injEq, exists_eq_left']
      cases hst : json.storeStrings (prior.getD []) elems with
      | error e =>
        have : ¬ elems.all JValue.isStringOrNull = true := by
          intro hx
          obtain ⟨l, hl⟩ := hs.mpr hx
          rw [hst] at hl
          exact Except.noConfusion hl
        simp [this]
      | ok l =>
        have := hs.mp ⟨l, hst⟩
        simp [this]
    | bool _ => simp [JValue.fitsStrings]
    | number _ => simp [JValue.fitsStrings]
    | string _ => simp [JValue.fitsStrings]
    | object _ => simp [JValue.fitsStrings]

/-- The method `JSONStringSlice.UnmarshalJSON` on a non-empty input returns what
`json.Unmarshal` returns for the wrapped text. -/
theorem JSONStringSlice.unmarshal_rejects_iff (b : JSONStringSlice) (data : List Nat)
    (hne : data ≠ []) :
    (∃ e, b.UnmarshalJSON data = .error e) ↔
      (json.parse (wrappedText data) = none ∨
        ∃ v, json.parse (wrappedText data) = some v ∧ v.fitsStrings = false) := by
  cases data with
  | nil => exact absurd rfl hne
  | cons d0 tl =>
    rw [← UnmarshalStrings_error_iff b.Slice]
    unfold JSONStringSlice.UnmarshalJSON wrappedText
    by_cases hd : d0 = dq
    · subst hd
      simp only [if_true, List.head?_cons]
      cases json.UnmarshalStrings b.Slice ([91] ++ dq :: tl ++ [93]) with
      | error e => simp
      | ok sl => simp
    · have hh : ¬ ((d0 :: tl).head? = some dq) := by simpa using hd
      simp only [hd, hh, if_false]
      cases json.UnmarshalStrings b.Slice (d0 :: tl) with
      | error e => simp
      | ok sl => simp

/-! ## Arrays with elements of any kind -/

theorem digits_takeWhile_rest (ds rest : List Nat) (h : ∀ x ∈ ds, x < 10)
    (hend : ∀ c, rest.head? = some c → ¬ (48 ≤ c ∧ c ≤ 57)) :
    (ds.map (fun x => 48 + x) ++ rest).takeWhile json.isDigit = ds.map (fun x => 48 + x) ∧
    (ds.map (fun x => 48 + x) ++ rest).dropWhile json.isDigit = rest := by
  induction ds with
  | nil =>
    simp only [List.map_nil, List.nil_append]
    cases rest with
    | nil => simp
    | cons c r =>
      have := hend c rfl
      have hc : json.isDigit c = false := by
        simp only [json.isDigit, decide_eq_false_iff_not]; exact this
      simp [List.takeWhile_cons, List.dropWhile_cons, hc]
  | cons d ds ih =>
    have hd := h d (by simp)
    have hc : json.isDigit (48 + d) = true := by
      simp only [json.isDigit, decide_eq_true_eq]; omega
    obtain ⟨i1, i2⟩ := ih (fun x hx => h x (by simp [hx]))
    simp [List.takeWhile_cons, List.dropWhile_cons, hc, i1, i2]

theorem scanFraction_end (lit rest : List Nat)
    (hend : ∀ c, rest.head? = some c → c ≠ 46 ∧ c ≠ 101 ∧ c ≠ 69) :
    json.scanFraction lit rest = some (lit, rest) := by
  cases rest with
  | nil => simp [json.scanFraction, json.scanExponent]
  | cons c r =>
    obtain ⟨h1, h2, h3⟩ := hend c rfl
    unfold json.scanFraction
    split
    · rename_i heq
      simp only [List.cons.injEq] at heq
      exact absurd heq.1 h1
    · simp [json.scanExponent, h2, h3]

/-- The scanner reads the decimal numeral of an integer, in front of a byte that does
not continue a number, as one number literal. -/
theorem scanNumber_decimal_rest (i : Int) (rest : List Nat)
    (hend : ∀ c, rest.head? = some c → ¬ (48 ≤ c ∧ c ≤ 57) ∧ c ≠ 46 ∧ c ≠ 101 ∧ c ≠ 69) :
    json.scanNumber (decimal i ++ rest) = some (decimal i, rest) := by
  have hend1 : ∀ c, rest.head? = some c → ¬ (48 ≤ c ∧ c ≤ 57) := fun c hc => (hend c hc).1
  have hend2 : ∀ c, rest.head? = some c → c ≠ 46 ∧ c ≠ 101 ∧ c ≠ 69 :=
    fun c hc => (hend c hc).2
  obtain ⟨d, ds, hd, hds, hshape, hval, h0⟩ := decimalNat_shape i.natAbs
  obtain ⟨ht, hdr⟩ := digits_takeWhile_rest ds rest hds hend1
  unfold decimal
  by_cases hneg : i < 0
  · have hz : d ≠ 0 := by
      intro hz
      have := h0 hz
      subst this; subst hz
      simp at hval
      omega
    have c1 : ¬ (48 + d = 48) := by omega
    have c2 : 49 ≤ 48 + d ∧ 48 + d ≤ 57 := by omega
    simp only [hneg, if_true, hshape, List.cons_append]
    simp only [json.scanNumber, c1, c2, and_self, if_true, if_false, ht, hdr]
    exact scanFraction_end _ _ hend2
  · simp only [hneg, if_false, hshape, List.cons_append]
    unfold json.scanNumber
    split
    · rename_i heq
      simp only [List.cons.injEq] at heq
      omega
    · rename_i c r hnot heq
      simp only [List.cons.injEq] at heq
      obtain ⟨rfl, rfl⟩ := heq
      by_cases hz : d = 0
      · have := h0 hz
        subst this; subst hz
        simp only [Nat.add_zero, if_true, List.map_nil, List.nil_append]
        exact scanFraction_end _ _ hend2
      · have c1 : ¬ (48 + d = 48) := by omega
        have c2 : 49 ≤ 48 + d ∧ 48 + d ≤ 57 := by omega
        simp only [c1, c2, and_self, if_true, if_false, ht, hdr]
        exact scanFraction_end _ _ hend2
    · rename_i heq
      simp at heq

/-- The decoder reads an element value, in front of white space, a comma or a closing
bracket, as the JSON value it stands for. -/
theorem parseValue_body (body : ElemBody)
    (hv : ∀ ts, body = .str ts → ∀ t ∈ ts, t.valid = true)
    (fuel depth : Nat) (hd : depth < json.maxNestingDepth) (rest : List Nat)
    (hend : ∀ c, rest.head? = some c → isJsonSpace c = true ∨ c = 44 ∨ c = 93) :
    json.parseValue (fuel + 1) depth (body.render ++ rest) = some (body.value, rest) := by
  have hd2 : ¬ (depth ≥ json.maxNestingDepth) := by omega
  cases body with
  | str ts => exact parseValue_literal ts (hv ts rfl) fuel depth rest
  | null =>
    show json.parseValue (fuel + 1) depth (110 :: 117 :: 108 :: 108 :: rest) = _
    rw [json.parseValue]
    simp [json.isDigit, ElemBody.value]
  | bool b =>
    cases b with
    | true =>
      show json.parseValue (fuel + 1) depth (116 :: 114 :: 117 :: 101 :: rest) = _
      rw [json.parseValue]
      simp [json.isDigit, ElemBody.value]
    | false =>
      show json.parseValue (fuel + 1) depth (102 :: 97 :: 108 :: 115 :: 101 :: rest) = _
      rw [json.parseValue]
      simp [json.isDigit, ElemBody.value]
  | int n =>
    have hscan := scanNumber_decimal_rest n rest (by
      intro c hc
      rcases hend c hc with h | h | h
      · simp only [isJsonSpace, decide_eq_true_eq] at h
        omega
      · omega
      · omega)
    have hne := decimal_ne_nil n
    have hmem := mem_decimal n
    show json.parseValue (fuel + 1) depth (decimal n ++ rest) = _
    cases hdec : decimal n with
    | nil => exact absurd hdec hne
    | cons c tl =>
      rw [hdec] at hmem hscan
      rw [List.cons_append] at hscan ⊢
      rw [parseValue_number _ _ _ _ (hmem c (by simp)), hscan]
      simp [ElemBody.value, hdec]
  | emptyArray =>
    show json.parseValue (fuel + 1) depth (91 :: 93 :: rest) = _
    rw [json.parseValue]
    simp only [show ¬ ((91 : Nat) = 123) from by decide, if_false, if_true, hd2,
      skipSpace_cons 93 rest (by decide), ElemBody.value]
  | emptyObject =>
    show json.parseValue (fuel + 1) depth (123 :: 125 :: rest) = _
    rw [json.parseValue]
    simp only [if_true, if_false, hd2, skipSpace_cons 125 rest (by decide), ElemBody.value]

/-- The first byte of an element value is neither white space nor a closing bracket. -/
theorem body_render_head (body : ElemBody) :
    ∃ c tl, body.render = c :: tl ∧ isJsonSpace c = false ∧ c ≠ 93 := by
  cases body with
  | str ts => exact ⟨34, _, renderLiteral_cons ts, by decide, by decide⟩
  | null => exact ⟨110, _, rfl, by decide, by decide⟩
  | bool b =>
    cases b
    · exact ⟨102, _, rfl, by decide, by decide⟩
    · exact ⟨116, _, rfl, by decide, by decide⟩
  | int n =>
    have hne := decimal_ne_nil n
    have hmem := mem_decimal n
    cases hdec : decimal n with
    | nil => exact absurd hdec hne
    | cons c tl =>
      rw [hdec] at hmem
      have := hmem c (by simp)
      refine ⟨c, tl, hdec, ?_, ?_⟩
      · simp only [isJsonSpace, decide_eq_false_iff_not]; omega
      · omega
  | emptyArray => exact ⟨91, _, rfl, by decide, by decide⟩
  | emptyObject => exact ⟨123, _, rfl, by decide, by decide⟩

theorem MixedElem.valid_parts (e : MixedElem) (h : e.valid = true) :
    (∀ b ∈ e.before, isJsonSpace b = true) ∧ (∀ b ∈ e.after, isJsonSpace b = true) ∧
      (∀ ts, e.body = .str ts → ∀ t ∈ ts, t.valid = true) := by
  simp only [MixedElem.valid, Bool.and_eq_true, List.all_eq_true] at h
  refine ⟨h.1.1, h.1.2, ?_⟩
  intro ts hts
  have h3 := h.2
  rw [hts] at h3
  simpa using h3

theorem skipSpace_mixed (e : MixedElem) (h : e.valid = true) (more : List Nat) :
    json.skipSpace (e.render ++ more) = e.body.render ++ (e.after ++ more) := by
  obtain ⟨hb, -, -⟩ := MixedElem.valid_parts e h
  obtain ⟨c, tl, hr, hc, -⟩ := body_render_head e.body
  unfold MixedElem.render
  rw [List.append_assoc, List.append_assoc, skipSpace_append _ _ hb, hr, List.cons_append,
    skipSpace_cons _ _ hc]

theorem padded_end (ws : List Nat) (x : Nat) (more : List Nat)
    (hws : ∀ b ∈ ws, isJsonSpace b = true) (hx : x = 44 ∨ x = 93) :
    ∀ c, (ws ++ x :: more).head? = some c → isJsonSpace c = true ∨ c = 44 ∨ c = 93 := by
  intro c hc
  cases ws with
  | nil =>
    simp only [List.nil_append, List.head?_cons, Option.some.injEq] at hc
    subst hc
    exact Or.inr hx
  | cons w ws =>
    simp only [List.cons_append, List.head?_cons, Option.some.injEq] at hc
    subst hc
    exact Or.inl (hws _ (by simp))

/-- The decoder reads the elements of a well-formed array, up to the closing bracket,
as the values they stand for. -/
theorem parseElements_mixed (es : List MixedElem) (hne : es ≠ [])
    (hv : ∀ e ∈ es, e.valid = true) (depth : Nat) (hd : depth < json.maxNestingDepth)
    (rest : List Nat) :
    ∀ fuel, es.length + 1 ≤ fuel →
    json.parseElements fuel depth
        (json.skipSpace (json.joinElems (es.map MixedElem.render) ++ 93 :: rest))
      = some (es.map (fun e => e.body.value), rest) := by
  induction es with
  | nil => exact absurd rfl hne
  | cons e es ih =>
    intro fuel hf
    have hve : e.valid = true := hv e (by simp)
    obtain ⟨-, haft, htok⟩ := MixedElem.valid_parts e hve
    simp only [List.length_cons] at hf
    obtain ⟨f, rfl⟩ : ∃ f, fuel = f + 1 + 1 := ⟨fuel - 2, by omega⟩
    cases es with
    | nil =>
      simp only [List.map_cons, List.map_nil, json.joinElems]
      rw [skipSpace_mixed e hve, json.parseElements,
        parseValue_body _ htok f depth hd _ (padded_end _ 93 rest haft (Or.inr rfl))]
      simp only [skipSpace_append _ _ haft, skipSpace_cons 93 rest (by decide)]
    | cons e2 es2 =>
      have ih2 := ih (by simp) (fun x hx => hv x (by simp [hx])) (f + 1)
        (by simp only [List.length_cons] at hf ⊢; omega)
      simp only [List.map_cons] at ih2 ⊢
      rw [joinElems_cons_cons, List.append_assoc, skipSpace_mixed e hve, json.parseElements,
        List.cons_append,
        parseValue_body _ htok f depth hd _ (padded_end _ 44 _ haft (Or.inl rfl))]
      simp only [skipSpace_append _ _ haft, skipSpace_cons 44 _ (by decide), ih2]

theorem joinMixed_length (es : List MixedElem) :
    es.length ≤ (json.joinElems (es.map MixedElem.render)).length := by
  induction es with
  | nil => simp [json.joinElems]
  | cons e es ih =>
    have he : 1 ≤ e.render.length := by
      obtain ⟨c, tl, hr, -, -⟩ := body_render_head e.body
      simp only [MixedElem.render, hr, List.length_append, List.length_cons]
      omega
    cases es with
    | nil => simpa [json.joinElems] using he
    | cons e2 es2 =>
      simp only [List.map_cons] at ih ⊢
      rw [joinElems_cons_cons]
      simp only [List.length_append, List.length_cons] at ih ⊢
      omega

/-- A well-formed array is one JSON value, the array of the values of its elements. -/
theorem parse_mixed_array (ws0 inner ws1 : List Nat) (es : List MixedElem)
    (h0 : ∀ b ∈ ws0, isJsonSpace b = true) (hin : ∀ b ∈ inner, isJsonSpace b = true)
    (h1 : ∀ b ∈ ws1, isJsonSpace b = true) (hv : ∀ e ∈ es, e.valid = true) :
    json.parse (renderMixedArray ws0 inner es ws1)
      = some (.array (es.map (fun e => e.body.value))) := by
  have hend : json.skipSpace ws1 = [] := by
    have := skipSpace_append ws1 [] h1
    simpa [json.skipSpace] using this
  unfold json.parse
  cases es with
  | nil =>
    have hr : renderMixedArray ws0 inner [] ws1 = ws0 ++ 91 :: (inner ++ 93 :: ws1) := rfl
    rw [hr, skipSpace_append _ _ h0, skipSpace_cons 91 _ (by decide), json.parseValue]
    simp only [show ¬ ((91 : Nat) = 123) from by decide, if_false, if_true,
      show ¬ (0 ≥ json.maxNestingDepth) from by decide, skipSpace_append _ _ hin,
      skipSpace_cons 93 ws1 (by decide), hend, List.map_nil]
  | cons e es2 =>
    have hr : renderMixedArray ws0 inner (e :: es2) ws1
        = ws0 ++ 91 :: (json.joinElems ((e :: es2).map MixedElem.render) ++ 93 :: ws1) := rfl
    have hlen := joinMixed_length (e :: es2)
    have hfuel : (e :: es2).length + 1
        ≤ 2 * (renderMixedArray ws0 inner (e :: es2) ws1).length + 1 := by
      rw [hr]
      simp only [List.length_append, List.length_cons] at hlen ⊢
      omega
    rw [hr] at hfuel
    have hpe := parseElements_mixed (e :: es2) (by simp) hv 1 (by decide) ws1 _ hfuel
    have hve : e.valid = true := hv e (by simp)
    obtain ⟨c, tl, hc, -, hc93⟩ := body_render_head e.body
    have hsk : ∃ tl2, json.skipSpace (json.joinElems ((e :: es2).map MixedElem.render)
        ++ 93 :: ws1) = c :: tl2 := by
      cases es2 with
      | nil =>
        simp only [List.map_cons, List.map_nil, json.joinElems]
        rw [skipSpace_mixed e hve, hc]
        exact ⟨_, rfl⟩
      | cons e3 es3 =>
        simp only [List.map_cons]
        rw [joinElems_cons_cons, List.append_assoc, skipSpace_mixed e hve, hc]
        exact ⟨_, rfl⟩
    obtain ⟨tl2, htl⟩ := hsk
    rw [htl] at hpe
    rw [hr, skipSpace_append _ _ h0, skipSpace_cons 91 _ (by decide), json.parseValue]
    simp only [show ¬ ((91 : Nat) = 123) from by decide, if_false, if_true,
      show ¬ (0 ≥ json.maxNestingDepth) from by decide, htl]
    have hmatch : ∀ fuel, json.parseElements fuel 1 (c :: tl2)
          = some ((e :: es2).map (fun e => e.body.value), ws1) →
        (match c :: tl2 with
          | 93 :: rest1 => some (JValue.array [], rest1)
          | rest1 =>
            match json.parseElements fuel (0 + 1) rest1 with
            | some (vs, r) => some (JValue.array vs, r)
            | none => none)
          = some (JValue.array ((e :: es2).map (fun e => e.body.value)), ws1) := by
      intro fuel h
      split
      · rename_i heq
        simp only [List.cons.injEq] at heq
        exact absurd heq.1 hc93
      · simp only [Nat.zero_add, h]
    rw [hmatch _ hpe]
    simp only [hend, if_true]

theorem ElemBody.value_isStringOrNull (body : ElemBody) :
    body.value.isStringOrNull = body.isStringOrNull := by
  cases body <;> rfl

theorem renderMixedArray_head (ws0 inner ws1 : List Nat) (es : List MixedElem)
    (h0 : ∀ b ∈ ws0, isJsonSpace b = true) :
    renderMixedArray ws0 inner es ws1 ≠ [] ∧
      wrappedText (renderMixedArray ws0 inner es ws1) = renderMixedArray ws0 inner es ws1 := by
  unfold renderMixedArray wrappedText
  cases ws0 with
  | nil => exact ⟨by simp, by simp [dq]⟩
  | cons w ws =>
    have hw : isJsonSpace w = true := h0 w (by simp)
    have : w ≠ dq := by
      intro h
      rw [h] at hw
      exact absurd hw (by decide)
    exact ⟨by simp, by simp [this]⟩

/-- A well-formed array is rejected exactly when one of its elements is neither a
string nor `null`. -/
theorem JSONStringSlice.unmarshal_mixed_error_iff (b : JSONStringSlice)
    (ws0 inner ws1 : List Nat) (es : List MixedElem)
    (h0 : ∀ b ∈ ws0, isJsonSpace b = true) (hin : ∀ b ∈ inner, isJsonSpace b = true)
    (h1 : ∀ b ∈ ws1, isJsonSpace b = true) (hv : ∀ e ∈ es, e.valid = true) :
    (∃ e, b.UnmarshalJSON (renderMixedArray ws0 inner es ws1) = .error e) ↔
      ∃ x ∈ es, x.body.isStringOrNull = false := by
  obtain ⟨hne, hw⟩ := renderMixedArray_head ws0 inner ws1 es h0
  rw [JSONStringSlice.unmarshal_rejects_iff b _ hne, hw,
    parse_mixed_array ws0 inner ws1 es h0 hin h1 hv]
  simp only [reduceCtorEq, false_or, Option.some.injEq, exists_eq_left', JValue.fitsStrings]
  constructor
  · intro h
    by_contra hcon
    simp only [not_exists, not_and, Bool.not_eq_false] at hcon
    have : (es.map (fun e => e.body.value)).all JValue.isStringOrNull = true := by
      simp only [List.all_eq_true, List.mem_map]
      rintro v ⟨x, hx, rfl⟩
      rw [ElemBody.value_isStringOrNull]
      exact hcon x hx
    rw [this] at h
    exact absurd h (by decide)
  · rintro ⟨x, hx, hfalse⟩
    by_contra hcon
    simp only [Bool.not_eq_false, List.all_eq_true, List.mem_map] at hcon
    have := hcon x.body.value ⟨x, hx, rfl⟩
    rw [ElemBody.value_isStringOrNull, hfalse] at this
    exact absurd this (by decide)

/-- C15 as stated fails on inputs none of which is a single JSON string or an array of
JSON strings. The input `null` is decoded without error and leaves a nil
`Slice`. The input `[null]`, an array whose one element is not a string, is decoded
without error to the one-element list holding the empty string. The input `"a","b"`,
two strings separated by a comma, is decoded without error to two elements. On the
empty input the method returns no error either: the read of `data[0]` panics. -/
theorem C15_counterexample :
    (⟨none, false⟩ : JSONStringSlice).UnmarshalJSON (ascii "null") = .ok ⟨none, false⟩ ∧
    (⟨none, false⟩ : JSONStringSlice).UnmarshalJSON (ascii "[null]")
      = .ok ⟨some [[]], false⟩ ∧
    (⟨none, false⟩ : JSONStringSlice).UnmarshalJSON
        (quote (ascii "a") ++ [44] ++ quote (ascii "b"))
      = .ok ⟨some [ascii "a", ascii "b"], true⟩ ∧
    (⟨none, false⟩ : JSONStringSlice).UnmarshalJSON [] = .panic := by
  refine ⟨?_, ?_, ?_, ?_⟩ <;> decide

/-- C15 (amended): on a non-empty input `JSONStringSlice.UnmarshalJSON` returns an error
exactly when the text it passes to `json.Unmarshal` (the input itself, or the input
between brackets when its first byte is a double quote) is not one valid JSON value, or
is a value other than `null` and other than an array all of whose elements are JSON
strings or `null`. In particular a well-formed JSON array, with any JSON white space
around its elements, is rejected exactly when it contains an element that is a number,
a boolean, an object or an array; `null` elements are accepted. -/
theorem C15_rejects (b : JSONStringSlice) :
    (∀ data : List Nat, data ≠ [] →
      ((∃ e, b.UnmarshalJSON data = .error e) ↔
        (json.parse (wrappedText data) = none ∨
          ∃ v, json.parse (wrappedText data) = some v ∧ v.fitsStrings = false))) ∧
    (∀ (ws0 inner ws1 : List Nat) (es : List MixedElem),
      (∀ c ∈ ws0, isJsonSpace c = true) → (∀ c ∈ inner, isJsonSpace c = true) →
      (∀ c ∈ ws1, isJsonSpace c = true) → (∀ e ∈ es, e.valid = true) →
      ((∃ e, b.UnmarshalJSON (renderMixedArray ws0 inner es ws1) = .error e) ↔
        ∃ x ∈ es, x.body.isStringOrNull = false)) :=
  ⟨fun data hne => JSONStringSlice.unmarshal_rejects_iff b data hne,
    fun ws0 inner ws1 es h0 hin h1 hv =>
      JSONStringSlice.unmarshal_mixed_error_iff b ws0 inner ws1 es h0 hin h1 hv⟩

/-- The example of C15: the array `["a", true]` is well formed and holds a boolean, so it
is rejected. -/
theorem C15_rejects_witness :
    renderMixedArray [] [] [⟨[], .str [.plain 'a'], []⟩, ⟨[32], .bool true, []⟩] []
      = ascii "[" ++ quote (ascii "a") ++ ascii ", true]" ∧
    ∃ e, (⟨none, false⟩ : JSONStringSlice).UnmarshalJSON
      (renderMixedArray [] [] [⟨[], .str [.plain 'a'], []⟩, ⟨[32], .bool true, []⟩] [])
        = .error e :=
  ⟨by decide,
    ((C15_rejects ⟨none, false⟩).2 [] [] []
      [⟨[], .str [.plain 'a'], []⟩, ⟨[32], .bool true, []⟩]
      (by decide) (by decide) (by decide) (by decide)).2
      ⟨⟨[32], .bool true, []⟩, by simp, rfl⟩⟩

/-! ## `strconv.Unquote` and `Timezone` -/

theorem IndexByte_append (body : List Nat) (c : Nat) (tl : List Nat) (h : c ∉ body) :
    strings.IndexByte (body ++ c :: tl) c = some body.length := by
  induction body with
  | nil => simp [strings.IndexByte]
  | cons b bs ih =>
    have hb : b ≠ c := fun e => h (by simp [e])
    have hbs : c ∉ bs := fun e => h (by simp [e])
    simp [strings.IndexByte, hb, ih hbs]

/-- One round of the validity loop passes over the encoding of a code point. -/
theorem validLoop_EncodeRune (c : Char) (rest : List Nat) (fuel : Nat) :
    utf8.validLoop (fuel + 1) (utf8.EncodeRune c.toNat ++ rest) = utf8.validLoop fuel rest := by
  have hv : c.toNat < 0xD800 ∨ (0xDFFF < c.toNat ∧ c.toNat < 0x110000) := c.valid
  generalize c.toNat = r at hv
  unfold utf8.EncodeRune
  by_cases h1 : r < 0x80
  · simp [h1, utf8.validLoop]
  · by_cases h2 : r ≤ 0x7FF
    · simp only [h1, h2, if_true, if_false, List.cons_append, List.nil_append, utf8.validLoop]
      have a1 : ¬ (0xC0 + r / 64 < 0x80) := by omega
      have a2 : 0xC2 ≤ 0xC0 + r / 64 ∧ 0xC0 + r / 64 ≤ 0xDF := by omega
      have a3 : 0x80 ≤ 0x80 + r % 64 ∧ 0x80 + r % 64 ≤ 0xBF := by omega
      simp only [a1, a2, a3, and_self, if_true, if_false]
    · have h3 : ¬ (r > 0x10FFFF ∨ (0xD800 ≤ r ∧ r ≤ 0xDFFF)) := by omega
      by_cases h4 : r ≤ 0xFFFF
      · simp only [h1, h2, h3, h4, if_true, if_false, List.cons_append, List.nil_append,
          utf8.validLoop]
        have a1 : ¬ (0xE0 + r / 4096 < 0x80) := by omega
        have a2 : ¬ (0xC2 ≤ 0xE0 + r / 4096 ∧ 0xE0 + r / 4096 ≤ 0xDF) := by omega
        have a3 : 0xE0 ≤ 0xE0 + r / 4096 ∧ 0xE0 + r / 4096 ≤ 0xEF := by omega
        have a4 : (if 0xE0 + r / 4096 = 0xE0 then 0xA0 else 0x80) ≤ 0x80 + r / 64 % 64
            ∧ 0x80 + r / 64 % 64 ≤ (if 0xE0 + r / 4096 = 0xED then 0x9F else 0xBF)
            ∧ 0x80 ≤ 0x80 + r % 64 ∧ 0x80 + r % 64 ≤ 0xBF := by
          refine ⟨?_, ?_, by omega, by omega⟩
          · split <;> omega
          · split <;> omega
        simp only [a1, a2, a3, a4, and_self, if_true, if_false]
      · simp only [h1, h2, h3, h4, if_true, if_false, List.cons_append, List.nil_append,
          utf8.validLoop]
        have a1 : ¬ (0xF0 + r / 262144 < 0x80) := by omega
        have a2 : ¬ (0xC2 ≤ 0xF0 + r / 262144 ∧ 0xF0 + r / 262144 ≤ 0xDF) := by omega
        have a3 : ¬ (0xE0 ≤ 0xF0 + r / 262144 ∧ 0xF0 + r / 262144 ≤ 0xEF) := by omega
        have a3' : 0xF0 ≤ 0xF0 + r / 262144 ∧ 0xF0 + r / 262144 ≤ 0xF4 := by omega
        have a4 : (if 0xF0 + r / 262144 = 0xF0 then 0x90 else 0x80) ≤ 0x80 + r / 4096 % 64
            ∧ 0x80 + r / 4096 % 64 ≤ (if 0xF0 + r / 262144 = 0xF4 then 0x8F else 0xBF)
            ∧ 0x80 ≤ 0x80 + r / 64 % 64 ∧ 0x80 + r / 64 % 64 ≤ 0xBF
            ∧ 0x80 ≤ 0x80 + r % 64 ∧ 0x80 + r % 64 ≤ 0xBF := by
          refine ⟨?_, ?_, by omega, by omega, by omega, by omega⟩
          · split <;> omega
          · split <;> omega
        simp only [a1, a2, a3, a3', a4, and_self, if_true, if_false]

/-- The encoding of a text is valid UTF-8. -/
theorem ValidString_encode (cs : List Char) : utf8.ValidString (utf8.encode cs) = true := by
  have key : ∀ (cs : List Char) (fuel : Nat), cs.length ≤ fuel →
      utf8.validLoop fuel (utf8.encode cs) = true := by
    intro cs
    induction cs with
    | nil =>
      intro fuel _
      cases fuel <;> simp [utf8.encode, utf8.validLoop]
    | cons c cs ih =>
      intro fuel hf
      simp only [List.length_cons] at hf
      obtain ⟨f, rfl⟩ : ∃ f, fuel = f + 1 := ⟨fuel - 1, by omega⟩
      rw [encode_cons, validLoop_EncodeRune]
      exact ih f (by omega)
  exact key cs _ (encode_length cs)

/-- A byte of an encoding is the code point itself, below `0x80`, or at least `0x80`. -/
theorem EncodeRune_bytes (r : Nat) :
    ∀ b ∈ utf8.EncodeRune r, (b = r ∧ r < 0x80) ∨ 0x80 ≤ b := by
  intro b hb
  unfold utf8.EncodeRune at hb
  by_cases h1 : r < 0x80
  · simp only [h1, if_true, List.mem_singleton] at hb
    exact Or.inl ⟨hb, h1⟩
  · right
    simp only [h1, if_false] at hb
    split at hb
    · simp only [List.mem_cons, List.mem_singleton, List.not_mem_nil, or_false] at hb
      omega
    · split at hb
      · simp only [List.mem_cons, List.mem_singleton, List.not_mem_nil, or_false] at hb
        omega
      · split at hb
        · simp only [List.mem_cons, List.mem_singleton, List.not_mem_nil, or_false] at hb
          omega
        · simp only [List.mem_cons, List.mem_singleton, List.not_mem_nil, or_false] at hb
          omega

/-- An ASCII byte occurs in an encoding only as the code point it encodes. -/
theorem encode_ascii_mem (cs : List Char) (k : Nat) (hk : k < 0x80)
    (h : k ∈ utf8.encode cs) : ∃ c ∈ cs, c.toNat = k := by
  unfold utf8.encode at h
  rw [List.mem_flatMap] at h
  obtain ⟨c, hc, hb⟩ := h
  rcases EncodeRune_bytes c.toNat k hb with ⟨e, -⟩ | h2
  · exact ⟨c, hc, e.symm⟩
  · omega

/-- Go `strconv.Unquote` on a valid UTF-8 text without quote, backslash or newline,
between double quotes, returns the text. -/
theorem Unquote_quote (body : List Nat) (h34 : 34 ∉ body) (h92 : 92 ∉ body)
    (h10 : 10 ∉ body) (hv : utf8.ValidString body = true) :
    strconv.Unquote (quote body) = .ok body := by
  have hq : quote body = 34 :: (body ++ [34]) := rfl
  rw [hq]
  unfold strconv.Unquote
  have hlen : ¬ ((34 :: (body ++ [34])).length < 2) := by simp
  have htake : (34 :: (body ++ [34])).take (body.length + 2) = 34 :: (body ++ [34]) := by
    apply List.take_of_length_le
    simp
  have hdrop : (34 :: (body ++ [34])).drop (body.length + 2) = [] := by
    apply List.drop_of_length_le
    simp
  have h1 : (34 :: (body ++ [34])).contains 92 = false := by
    simp only [List.contains_eq_any_beq, List.any_eq_false, List.mem_cons, List.mem_append,
      List.mem_singleton, List.not_mem_nil, or_false, beq_iff_eq]
    rintro x (rfl | h | rfl)
    · decide
    · intro e; exact h92 (e ▸ h)
    · decide
  have h2 : (34 :: (body ++ [34])).contains 10 = false := by
    simp only [List.contains_eq_any_beq, List.any_eq_false, List.mem_cons, List.mem_append,
      List.mem_singleton, List.not_mem_nil, or_false, beq_iff_eq]
    rintro x (rfl | h | rfl)
    · decide
    · intro e; exact h10 (e ▸ h)
    · decide
  have hin : (body ++ [34]).take body.length = body := by simp
  simp only [hlen, if_false, IndexByte_append body 34 [] h34, htake, hdrop, h1, h2, hin, hv,
    show ¬ ((34 : Nat) = 96) from by decide, if_true, true_or, Bool.not_false, Bool.and_self,
    List.isEmpty_nil]

theorem Replace_one_absent (s : List Nat) (c : Nat) (h : c ∉ s) :
    strings.Replace s c 1 = s := by
  have key : ∀ s : List Nat, c ∉ s → removeFirst 1 c s = s := by
    intro s
    induction s with
    | nil => intro _; rfl
    | cons b bs ih =>
      intro hs
      have hb : b ≠ c := fun e => hs (by simp [e])
      have hbs : c ∉ bs := fun e => hs (by simp [e])
      simp only [removeFirst, hb, if_false, ih hbs]
  unfold strings.Replace
  simp only [show ¬ ((1 : Int) < 0) from by decide, if_false]
  exact key s h

/-- When the unquoting step fails, `Timezone.UnmarshalJSON` returns its error and leaves
the receiver as it was. -/
theorem Timezone.unmarshal_unquote_error (L : List Nat → Except GoError time.Location)
    (t : Timezone) (b : List Nat) (e : GoError)
    (h : strconv.Unquote (strings.Replace b 92 1) = .error e) :
    Timezone.UnmarshalJSON L t b = (t, some e) := by
  unfold Timezone.UnmarshalJSON
  rw [h]

/-- When the unquoting step yields a name, `Timezone.UnmarshalJSON` returns what the
resolver returns for that name. -/
theorem Timezone.unmarshal_unquoted (L : List Nat → Except GoError time.Location)
    (t : Timezone) (b name : List Nat)
    (h : strconv.Unquote (strings.Replace b 92 1) = .ok name) :
    (∀ tz, L name = .ok tz → Timezone.UnmarshalJSON L t b = (⟨tz⟩, none)) ∧
    (∀ e, L name = .error e → Timezone.UnmarshalJSON L t b = (t, some e)) := by
  unfold Timezone.UnmarshalJSON
  rw [h]
  constructor
  · intro tz htz
    simp only [htz]
  · intro e he
    simp only [he]

/-- A text that does not begin with a double quote, a single quote or a backquote is no
literal for `strconv.Unquote`. -/
theorem Unquote_bare (s : List Nat)
    (h : ∀ c, s.head? = some c → c ≠ 34 ∧ c ≠ 39 ∧ c ≠ 96) :
    strconv.Unquote s = .error .unquoteInvalid := by
  cases s with
  | nil => rfl
  | cons c rest =>
    obtain ⟨h1, h2, h3⟩ := h c rfl
    unfold strconv.Unquote
    by_cases hl : (c :: rest).length < 2
    · simp only [hl, if_true]
    · cases hi : strings.IndexByte rest c with
      | none => simp only [hl, hi, if_false]
      | some idx => simp only [hl, hi, h1, h2, h3, if_false, or_self]

/-- The quoted form of a name without quote, backslash or newline is unquoted to the
name, the backslash removal changing nothing. -/
theorem Unquote_plain_name (n : List Char)
    (hn : ∀ c ∈ n, c.toNat ≠ 34 ∧ c.toNat ≠ 92 ∧ c.toNat ≠ 10) :
    strconv.Unquote (strings.Replace (quote (utf8.encode n)) 92 1) = .ok (utf8.encode n) := by
  have h34 : 34 ∉ utf8.encode n := by
    intro h
    obtain ⟨c, hc, e⟩ := encode_ascii_mem n 34 (by decide) h
    exact (hn c hc).1 e
  have h92 : 92 ∉ utf8.encode n := by
    intro h
    obtain ⟨c, hc, e⟩ := encode_ascii_mem n 92 (by decide) h
    exact (hn c hc).2.1 e
  have h10 : 10 ∉ utf8.encode n := by
    intro h
    obtain ⟨c, hc, e⟩ := encode_ascii_mem n 10 (by decide) h
    exact (hn c hc).2.2 e
  have hq : 92 ∉ quote (utf8.encode n) := by
    unfold quote
    simp only [List.mem_cons, List.mem_append, List.mem_singleton, List.not_mem_nil, or_false,
      not_or]
    exact ⟨by decide, h92, by decide⟩
  rw [Replace_one_absent _ _ hq]
  exact Unquote_quote _ h34 h92 h10 (ValidString_encode n)

/-- A text that begins with none of the three quote characters nor with a backslash
still does so once its first backslash is removed. -/
theorem Replace_bare_head (b : List Nat)
    (h : ∀ c, b.head? = some c → c ≠ 34 ∧ c ≠ 39 ∧ c ≠ 96 ∧ c ≠ 92) :
    ∀ c, (strings.Replace b 92 1).head? = some c → c ≠ 34 ∧ c ≠ 39 ∧ c ≠ 96 := by
  cases b with
  | nil =>
    intro c hc
    exact absurd hc (by simp [strings.Replace, removeFirst])
  | cons b0 rest =>
    obtain ⟨h1, h2, h3, h4⟩ := h b0 rfl
    intro c hc
    have : strings.Replace (b0 :: rest) 92 1 = b0 :: removeFirst 1 92 rest := by
      unfold strings.Replace
      simp only [show ¬ ((1 : Int) < 0) from by decide, if_false]
      show removeFirst 1 92 (b0 :: rest) = _
      simp only [removeFirst, h4, if_false]
    rw [this] at hc
    simp only [List.head?_cons, Option.some.injEq] at hc
    subst hc
    exact ⟨h1, h2, h3⟩

/-- C16: relative to the resolver `LoadLocation`, for every name `n` without double
quote, backslash or newline, written between double quotes, `Timezone.UnmarshalJSON`
returns no error exactly when the resolver resolves `n`; the receiver then holds the
location the resolver returns, and `MarshalJSON` of it is the name of that location
between double quotes; when the resolver fails, its error is returned and the receiver
is unchanged. An input whose unquoting step fails is rejected with that error, which is
the case of every input that begins with none of the quote characters nor a backslash
(a bare name). -/
theorem C16_timezone (LoadLocation : List Nat → Except GoError time.Location)
    (t : Timezone) (n : List Char)
    (hn : ∀ c ∈ n, c.toNat ≠ 34 ∧ c.toNat ≠ 92 ∧ c.toNat ≠ 10) :
    ((Timezone.UnmarshalJSON LoadLocation t (quote (utf8.encode n))).2 = none ↔
      ∃ tz, LoadLocation (utf8.encode n) = .ok tz) ∧
    (∀ tz, LoadLocation (utf8.encode n) = .ok tz →
      Timezone.UnmarshalJSON LoadLocation t (quote (utf8.encode n)) = (⟨tz⟩, none) ∧
      Timezone.MarshalJSON ⟨tz⟩ = .ok (quote tz.name)) ∧
    (∀ e, LoadLocation (utf8.encode n) = .error e →
      Timezone.UnmarshalJSON LoadLocation t (quote (utf8.encode n)) = (t, some e)) ∧
    (∀ b e, strconv.Unquote (strings.Replace b 92 1) = .error e →
      Timezone.UnmarshalJSON LoadLocation t b = (t, some e)) ∧
    (∀ b : List Nat, (∀ c, b.head? = some c → c ≠ 34 ∧ c ≠ 39 ∧ c ≠ 96 ∧ c ≠ 92) →
      Timezone.UnmarshalJSON LoadLocation t b = (t, some .unquoteInvalid)) := by
  obtain ⟨hok, herr⟩ := Timezone.unmarshal_unquoted LoadLocation t _ _ (Unquote_plain_name n hn)
  refine ⟨?_, fun tz htz => ⟨hok tz htz, rfl⟩, herr, ?_, ?_⟩
  · cases hL : LoadLocation (utf8.encode n) with
    | ok tz =>
      rw [hok tz hL]
      exact ⟨fun _ => ⟨tz, rfl⟩, fun _ => rfl⟩
    | error e =>
      rw [herr e hL]
      constructor
      · intro h
        exact absurd h (by simp)
      · rintro ⟨tz, htz⟩
        exact absurd htz (by simp)
  · intro b e h
    exact Timezone.unmarshal_unquote_error LoadLocation t b e h
  · intro b hb
    exact Timezone.unmarshal_unquote_error LoadLocation t b _
      (Unquote_bare _ (Replace_bare_head b hb))

/-- The examples of C16, with a database that holds America/Chicago alone: the input
`"America/Chicago"` resolves to that location, whose encoding is `"America/Chicago"`;
the input `"Not/AZone"` fails with the error of the resolver; the bare name
`America/Chicago` fails in the unquoting step. -/
theorem C16_timezone_witness :
    (∀ c ∈ "America/Chicago".toList, c.toNat ≠ 34 ∧ c.toNat ≠ 92 ∧ c.toNat ≠ 10) ∧
    utf8.encode "America/Chicago".toList = ascii "America/Chicago" ∧
    chicagoOnly (ascii "America/Chicago") = .ok ⟨ascii "America/Chicago", [-21600, -18000]⟩ ∧
    (Timezone.UnmarshalJSON chicagoOnly ⟨⟨[], []⟩⟩ (quote (utf8.encode "America/Chicago".toList))
        = (⟨⟨ascii "America/Chicago", [-21600, -18000]⟩⟩, none) ∧
      Timezone.MarshalJSON ⟨⟨ascii "America/Chicago", [-21600, -18000]⟩⟩
        = .ok (quote (ascii "America/Chicago"))) ∧
    Timezone.UnmarshalJSON chicagoOnly ⟨⟨[], []⟩⟩ (quote (ascii "Not/AZone"))
      = (⟨⟨[], []⟩⟩, some (.unknownLocation (ascii "Not/AZone"))) ∧
    Timezone.UnmarshalJSON chicagoOnly ⟨⟨[], []⟩⟩ (ascii "America/Chicago")
      = (⟨⟨[], []⟩⟩, some .unquoteInvalid) :=
  ⟨by decide, by decide, rfl,
    (C16_timezone chicagoOnly ⟨⟨[], []⟩⟩ "America/Chicago".toList (by decide)).2.1
      ⟨ascii "America/Chicago", [-21600, -18000]⟩ rfl,
    by decide, by decide⟩

theorem encode_append (a b : List Char) :
    utf8.encode (a ++ b) = utf8.encode a ++ utf8.encode b := by
  simp [utf8.encode]

theorem encode_slash (cs : List Char) : utf8.encode ('/' :: cs) = 47 :: utf8.encode cs := by
  rw [encode_cons]
  rfl

theorem escapeSlashes_append (a b : List Nat) :
    escapeSlashes (a ++ b) = escapeSlashes a ++ escapeSlashes b := by
  simp [escapeSlashes]

theorem escapeSlashes_cons_slash (s : List Nat) :
    escapeSlashes (47 :: s) = 92 :: 47 :: escapeSlashes s := by
  simp [escapeSlashes]

theorem escapeSlashes_absent (s : List Nat) (h : 47 ∉ s) : escapeSlashes s = s := by
  induction s with
  | nil => rfl
  | cons b bs ih =>
    have hb : b ≠ 47 := fun e => h (by simp [e])
    have hbs : 47 ∉ bs := fun e => h (by simp [e])
    have := ih hbs
    simp only [escapeSlashes, List.flatMap_cons, hb, if_false, List.singleton_append] at this ⊢
    rw [this]

theorem escapeSlashes_no_quote (s : List Nat) (h : 34 ∉ s) : 34 ∉ escapeSlashes s := by
  unfold escapeSlashes
  rw [List.mem_flatMap]
  rintro ⟨b, hb, hmem⟩
  by_cases h47 : b = 47
  · simp only [h47, if_true, List.mem_cons, List.mem_singleton, List.not_mem_nil,
      or_false] at hmem
    omega
  · simp only [h47, if_false, List.mem_singleton] at hmem
    exact h (hmem ▸ hb)

theorem Replace_first (pre : List Nat) (c : Nat) (tl : List Nat) (h : c ∉ pre) :
    strings.Replace (pre ++ c :: tl) c 1 = pre ++ tl := by
  have key : ∀ pre : List Nat, c ∉ pre → removeFirst 1 c (pre ++ c :: tl) = pre ++ tl := by
    intro pre
    induction pre with
    | nil =>
      intro _
      simp only [List.nil_append, removeFirst, if_true]
    | cons b bs ih =>
      intro hs
      have hb : b ≠ c := fun e => hs (by simp [e])
      have hbs : c ∉ bs := fun e => hs (by simp [e])
      have e : removeFirst 1 c (b :: (bs ++ c :: tl)) = b :: removeFirst 1 c (bs ++ c :: tl) := by
        simp only [removeFirst, hb, if_false]
      rw [List.cons_append, e, ih hbs, List.cons_append]
  unfold strings.Replace
  simp only [show ¬ ((1 : Int) < 0) from by decide, if_false]
  exact key pre h

/-- The loop of `strconv.Unquote` stops with `ErrSyntax` at a backslash followed by `/`
that comes after plain text. -/
theorem unquoteLoop_stuck (cs : List Char)
    (hcs : ∀ c ∈ cs, c.toNat ≠ 34 ∧ c.toNat ≠ 92 ∧ c.toNat ≠ 10) (tl : List Nat) :
    ∀ (fuel : Nat) (buf : List Nat),
      strconv.unquoteLoop fuel 34 (utf8.encode cs ++ 92 :: 47 :: tl) buf = none := by
  induction cs with
  | nil =>
    intro fuel buf
    cases fuel with
    | zero => rfl
    | succ f =>
      simp [utf8.encode, strconv.unquoteLoop, strconv.UnquoteChar]
  | cons c cs ih =>
    intro fuel buf
    obtain ⟨h34, h92, h10⟩ := hcs c (by simp)
    have ih2 := ih (fun x hx => hcs x (by simp [hx]))
    cases fuel with
    | zero => rfl
    | succ f =>
      rw [encode_cons, List.append_assoc]
      have hdec := DecodeRune_EncodeRune c (utf8.encode cs ++ 92 :: 47 :: tl)
      rcases EncodeRune_shape c.toNat with ⟨hlt, henc⟩ | ⟨hge, b, bs, henc, hb, -⟩
      · rw [henc]
        have hnge : ¬ (c.toNat ≥ 0x80) := by omega
        simp only [List.singleton_append, strconv.unquoteLoop, strconv.UnquoteChar, h34, h92,
          h10, hnge, if_false, if_true, false_and, ne_eq, not_false_eq_true,
          show ¬ ((34 : Nat) = 39) from by decide]
        exact ih2 f _
      · rw [henc] at hdec ⊢
        have hb34 : b ≠ 34 := by omega
        have hb10 : b ≠ 10 := by omega
        have hbge : b ≥ 0x80 := hb
        simp only [List.cons_append] at hdec ⊢
        simp only [strconv.unquoteLoop, strconv.UnquoteChar, hb34, hb10, hbge, hdec, if_false,
          if_true, false_and, show ¬ ((34 : Nat) = 39) from by decide]
        have hd : List.drop (b :: bs).length (b :: (bs ++ (utf8.encode cs ++ 92 :: 47 :: tl)))
            = utf8.encode cs ++ 92 :: 47 :: tl := by
          rw [← List.cons_append]
          exact List.drop_left' rfl
        rw [hd]
        exact ih2 f _

theorem encode_avoids (cs : List Char) (k : Nat) (hk : k < 0x80)
    (h : ∀ c ∈ cs, c.toNat ≠ k) : k ∉ utf8.encode cs := by
  intro hmem
  obtain ⟨c, hc, e⟩ := encode_ascii_mem cs k hk hmem
  exact h c hc e

/-- With one `/` in the name, removing the first backslash of the escaped form gives the
plain form: the two are decoded alike. -/
theorem Timezone.unmarshal_one_slash (L : List Nat → Except GoError time.Location)
    (t : Timezone) (pre post : List Char)
    (hpre : ∀ c ∈ pre, c.toNat ≠ 92 ∧ c.toNat ≠ 47)
    (hpost : ∀ c ∈ post, c.toNat ≠ 92 ∧ c.toNat ≠ 47) :
    Timezone.UnmarshalJSON L t (quote (escapeSlashes (utf8.encode (pre ++ '/' :: post))))
      = Timezone.UnmarshalJSON L t (quote (utf8.encode (pre ++ '/' :: post))) := by
  have p92 : 92 ∉ utf8.encode pre := encode_avoids pre 92 (by decide) (fun c hc => (hpre c hc).1)
  have p47 : 47 ∉ utf8.encode pre := encode_avoids pre 47 (by decide) (fun c hc => (hpre c hc).2)
  have q92 : 92 ∉ utf8.encode post :=
    encode_avoids post 92 (by decide) (fun c hc => (hpost c hc).1)
  have q47 : 47 ∉ utf8.encode post :=
    encode_avoids post 47 (by decide) (fun c hc => (hpost c hc).2)
  have e1 : strings.Replace
      (quote (escapeSlashes (utf8.encode (pre ++ '/' :: post)))) 92 1
        = quote (utf8.encode (pre ++ '/' :: post)) := by
    rw [encode_append, encode_slash, escapeSlashes_append, escapeSlashes_cons_slash,
      escapeSlashes_absent _ p47, escapeSlashes_absent _ q47]
    have : quote (utf8.encode pre ++ 92 :: 47 :: utf8.encode post)
        = (34 :: utf8.encode pre) ++ 92 :: (47 :: (utf8.encode post ++ [34])) := by
      simp [quote, dq]
    rw [this, Replace_first]
    · simp [quote, dq]
    · simp only [List.mem_cons, not_or]
      exact ⟨by decide, p92⟩
  have e2 : strings.Replace (quote (utf8.encode (pre ++ '/' :: post))) 92 1
      = quote (utf8.encode (pre ++ '/' :: post)) := by
    apply Replace_one_absent
    rw [encode_append, encode_slash]
    simp only [quote, dq, List.mem_cons, List.mem_append, List.mem_singleton,
      List.not_mem_nil, or_false, not_or]
    exact ⟨by decide, ⟨p92, by decide, q92⟩, by decide⟩
  unfold Timezone.UnmarshalJSON
  rw [e1, e2]

/-- With two or more `/` in the name, the escaped form keeps a backslash after the
removal of the first one, and the unquoting step fails. -/
theorem Timezone.unmarshal_two_slashes (L : List Nat → Except GoError time.Location)
    (t : Timezone) (pre mid more : List Char)
    (hpre : ∀ c ∈ pre, c.toNat ≠ 34 ∧ c.toNat ≠ 92 ∧ c.toNat ≠ 10 ∧ c.toNat ≠ 47)
    (hmid : ∀ c ∈ mid, c.toNat ≠ 34 ∧ c.toNat ≠ 92 ∧ c.toNat ≠ 10 ∧ c.toNat ≠ 47)
    (hmore : ∀ c ∈ more, c.toNat ≠ 34) :
    Timezone.UnmarshalJSON L t
        (quote (escapeSlashes (utf8.encode (pre ++ '/' :: (mid ++ '/' :: more)))))
      = (t, some .unquoteInvalid) := by
  apply Timezone.unmarshal_unquote_error
  have p92 : 92 ∉ utf8.encode pre :=
    encode_avoids pre 92 (by decide) (fun c hc => (hpre c hc).2.1)
  have p47 : 47 ∉ utf8.encode pre :=
    encode_avoids pre 47 (by decide) (fun c hc => (hpre c hc).2.2.2)
  have m47 : 47 ∉ utf8.encode mid :=
    encode_avoids mid 47 (by decide) (fun c hc => (hmid c hc).2.2.2)
  have r34 : 34 ∉ escapeSlashes (utf8.encode more) :=
    escapeSlashes_no_quote _ (encode_avoids more 34 (by decide) hmore)
  have hplain : ∀ c ∈ pre ++ '/' :: mid, c.toNat ≠ 34 ∧ c.toNat ≠ 92 ∧ c.toNat ≠ 10 := by
    intro c hc
    simp only [List.mem_append, List.mem_cons] at hc
    rcases hc with h | rfl | h
    · exact ⟨(hpre c h).1, (hpre c h).2.1, (hpre c h).2.2.1⟩
    · decide
    · exact ⟨(hmid c h).1, (hmid c h).2.1, (hmid c h).2.2.1⟩
  have b34 : 34 ∉ utf8.encode (pre ++ '/' :: mid) :=
    encode_avoids _ 34 (by decide) (fun c hc => (hplain c hc).1)
  have e1 : strings.Replace
      (quote (escapeSlashes (utf8.encode (pre ++ '/' :: (mid ++ '/' :: more))))) 92 1
        = 34 :: ((utf8.encode (pre ++ '/' :: mid)
            ++ 92 :: 47 :: escapeSlashes (utf8.encode more)) ++ [34]) := by
    rw [encode_append, encode_slash, encode_append, encode_slash, escapeSlashes_append,
      escapeSlashes_cons_slash, escapeSlashes_append, escapeSlashes_cons_slash,
      escapeSlashes_absent _ p47, escapeSlashes_absent _ m47]
    have : quote (utf8.encode pre ++ 92 :: 47 :: (utf8.encode mid
          ++ 92 :: 47 :: escapeSlashes (utf8.encode more)))
        = (34 :: utf8.encode pre) ++ 92 :: (47 :: (utf8.encode mid
          ++ 92 :: 47 :: escapeSlashes (utf8.encode more)) ++ [34]) := by
      simp [quote, dq]
    rw [this, Replace_first]
    · rw [encode_append, encode_slash]
      simp
    · simp only [List.mem_cons, not_or]
      exact ⟨by decide, p92⟩
  rw [e1]
  generalize hbody : utf8.encode (pre ++ '/' :: mid)
    ++ 92 :: 47 :: escapeSlashes (utf8.encode more) = body
  have hb34 : 34 ∉ body := by
    rw [← hbody]
    simp only [List.mem_append, List.mem_cons, not_or]
    exact ⟨b34, by decide, by decide, r34⟩
  have hb92 : 92 ∈ body := by
    rw [← hbody]
    simp
  have hloop : strconv.unquoteLoop ((body ++ [34]).length + 1) 34 (body ++ [34]) [] = none := by
    rw [← hbody, List.append_assoc, List.cons_append, List.cons_append]
    exact unquoteLoop_stuck _ hplain _ _ _
  unfold strconv.Unquote
  have hlen : ¬ ((34 :: (body ++ [34])).length < 2) := by simp
  have htake : (34 :: (body ++ [34])).take (body.length + 2) = 34 :: (body ++ [34]) := by
    apply List.take_of_length_le
    simp
  have h1 : (34 :: (body ++ [34])).contains 92 = true := by
    simp only [List.contains_eq_any_beq, List.any_eq_true, beq_iff_eq]
    exact ⟨92, by simp [hb92], rfl⟩
  simp only [hlen, if_false, IndexByte_append body 34 [] hb34, htake, h1, hloop,
    show ¬ ((34 : Nat) = 96) from by decide, if_true, true_or, Bool.not_true, Bool.false_and]
  rfl

/-- The method `Timezone.UnmarshalJSON` removes the first backslash of the input
only. For a name with one `/` the escaped form is decoded as the plain form
is. For a name with two or more `/` the escaped form is rejected by the unquoting step,
whatever the resolver returns for the name. -/
theorem Timezone.unmarshal_escaped_slashes (LoadLocation : List Nat → Except GoError time.Location)
    (t : Timezone) (pre mid post more : List Char)
    (hpre : ∀ c ∈ pre, c.toNat ≠ 34 ∧ c.toNat ≠ 92 ∧ c.toNat ≠ 10 ∧ c.toNat ≠ 47)
    (hmid : ∀ c ∈ mid, c.toNat ≠ 34 ∧ c.toNat ≠ 92 ∧ c.toNat ≠ 10 ∧ c.toNat ≠ 47)
    (hpost : ∀ c ∈ post, c.toNat ≠ 34 ∧ c.toNat ≠ 92 ∧ c.toNat ≠ 10 ∧ c.toNat ≠ 47)
    (hmore : ∀ c ∈ more, c.toNat ≠ 34) :
    Timezone.UnmarshalJSON LoadLocation t
        (quote (escapeSlashes (utf8.encode (pre ++ '/' :: post))))
      = Timezone.UnmarshalJSON LoadLocation t (quote (utf8.encode (pre ++ '/' :: post))) ∧
    Timezone.UnmarshalJSON LoadLocation t
        (quote (escapeSlashes (utf8.encode (pre ++ '/' :: (mid ++ '/' :: more)))))
      = (t, some .unquoteInvalid) :=
  ⟨Timezone.unmarshal_one_slash LoadLocation t pre post
      (fun c hc => ⟨(hpre c hc).2.1, (hpre c hc).2.2.2⟩)
      (fun c hc => ⟨(hpost c hc).2.1, (hpost c hc).2.2.2⟩),
    Timezone.unmarshal_two_slashes LoadLocation t pre mid more hpre hmid hmore⟩

/-- An example with a resolver that resolves every name: the plain string
`"America/Argentina/Buenos_Aires"` is decoded to that location, and the same name with
every `/` escaped is rejected with `ErrSyntax`; the name `America/Chicago`, with one
`/`, is decoded from its escaped form. -/
theorem Timezone.unmarshal_escaped_slashes_example :
    (∀ c ∈ "America".toList, c.toNat ≠ 34 ∧ c.toNat ≠ 92 ∧ c.toNat ≠ 10 ∧ c.toNat ≠ 47) ∧
    (∀ c ∈ "Argentina".toList, c.toNat ≠ 34 ∧ c.toNat ≠ 92 ∧ c.toNat ≠ 10 ∧ c.toNat ≠ 47) ∧
    (∀ c ∈ "Chicago".toList, c.toNat ≠ 34 ∧ c.toNat ≠ 92 ∧ c.toNat ≠ 10 ∧ c.toNat ≠ 47) ∧
    (∀ c ∈ "Buenos_Aires".toList, c.toNat ≠ 34) ∧
    quote (escapeSlashes (utf8.encode
        ("America".toList ++ '/' :: ("Argentina".toList ++ '/' :: "Buenos_Aires".toList))))
      = [dq] ++ ascii "America" ++ [92] ++ ascii "/Argentina" ++ [92]
        ++ ascii "/Buenos_Aires" ++ [dq] ∧
    Timezone.UnmarshalJSON (fun name => .ok ⟨name, []⟩) ⟨⟨[], []⟩⟩
        (quote (ascii "America/Argentina/Buenos_Aires"))
      = (⟨⟨ascii "America/Argentina/Buenos_Aires", []⟩⟩, none) ∧
    (Timezone.UnmarshalJSON (fun name => .ok ⟨name, []⟩) ⟨⟨[], []⟩⟩
        (quote (escapeSlashes (utf8.encode ("America".toList ++ '/' :: "Chicago".toList))))
      = Timezone.UnmarshalJSON (fun name => .ok ⟨name, []⟩) ⟨⟨[], []⟩⟩
        (quote (utf8.encode ("America".toList ++ '/' :: "Chicago".toList))) ∧
    Timezone.UnmarshalJSON (fun name => .ok ⟨name, []⟩) ⟨⟨[], []⟩⟩
        (quote (escapeSlashes (utf8.encode
          ("America".toList ++ '/' :: ("Argentina".toList ++ '/' :: "Buenos_Aires".toList)))))
      = (⟨⟨[], []⟩⟩, some .unquoteInvalid)) :=
  ⟨by decide, by decide, by decide, by decide, by decide, by decide,
    Timezone.unmarshal_escaped_slashes (fun name => .ok ⟨name, []⟩) ⟨⟨[], []⟩⟩ "America".toList
      "Argentina".toList "Chicago".toList "Buenos_Aires".toList
      (by decide) (by decide) (by decide) (by decide)⟩

/-- C17, the failing input: whatever the resolver and the receiver, the input
`"America\/Argentina\/Buenos_Aires"` becomes `"America/Argentina\/Buenos_Aires"` when its
first backslash is removed, `strconv.Unquote` rejects that text, and the method returns
`ErrSyntax` with the receiver unchanged. -/
theorem C17_failing_input (LoadLocation : List Nat → Except GoError time.Location)
    (t : Timezone) :
    strings.Replace (quote (escapeSlashes (ascii "America/Argentina/Buenos_Aires"))) 92 1
      = quote (ascii "America/Argentina" ++ [92] ++ ascii "/Buenos_Aires") ∧
    strconv.Unquote (quote (ascii "America/Argentina" ++ [92] ++ ascii "/Buenos_Aires"))
      = .error .unquoteInvalid ∧
    Timezone.UnmarshalJSON LoadLocation t
        (quote (escapeSlashes (ascii "America/Argentina/Buenos_Aires")))
      = (t, some .unquoteInvalid) :=
  ⟨by decide, rfl, Timezone.unmarshal_unquote_error LoadLocation t _ _ rfl⟩

end XtreamCodes
